import Mathlib

/-!
# hashcrack: digest index and dictionary workers

A shallow embedding of `src/hashcrack.c` (unsalted SHA1 cracker) and
`src/salt.c` (salted variant), and the properties proved about them.

The file has three parts: the embedding of the source, the definitions
used to state properties (invariants, closed forms, example data), and the
theorems.

Conventions of the embedding

* A byte is a `Fin 256`; C strings and digests are `List Byte`.
* A `pwent *` slot is a value of the inductive type `pwent`; a table of
  `TABSZ` slots is a function `idx_t → pwent` with `idx_t = Fin 65536`.
* In-place updates of the C code become functional updates (`setSlot`).
* A read past the end of a digest, or a write past the end of the line
  buffer `rpw` (undefined behaviour in C), makes the embedded function
  return `none`.
* The two programs share `pwentadd`, `tabadd` and the directory walk of
  `pwchk` up to the constants `DIGSZ`, `IDXS_PER_DIG` and `ALLOC`; these
  constants, and the byte order of the host, are collected in `Params`.
* `SHA1` is the OpenSSL function; it is embedded from FIPS 180-4 and
  checked against the standard test vectors.  Functions that call it take
  the digest function as an argument `sha`.
* Files are byte lists.  `parse_passwd` is embedded as its loop over the
  records that `fake_getpwent` delivers; `fake_getpwent` of `hashcrack.c` is
  embedded on its own, with `hash2dig` and the library functions it calls.
* The elapsed-seconds field of a log line is left out.
-/

namespace Hashcrack

/-! # Part 1: embedding of the source -/

/-! ## Bytes, strings, digests -/

/-- A byte (`uint8_t`, `char`). -/
abbrev Byte := Fin 256

/-- Index type of a table, `typedef uint16_t idx_t`. -/
abbrev idx_t := Fin 65536

/-- Owner names (`char *` read from the credential file). -/
abbrev Name := List Byte

/-- Bytes of a string literal (one byte per character, ASCII). -/
def str (s : String) : List Byte := s.toList.map (fun c => Fin.ofNat c.toNat)

/-- Compile-time constants that differ between the two programs, and the
byte order used when a digest is reinterpreted as an array of `idx_t`. -/
structure Params where
  DIGSZ : Nat
  IDXS_PER_DIG : Nat
  ALLOC : Nat
  bigEndian : Bool

/-- Constants of `hashcrack.c`: `DIGSZ 20`, `IDXS_PER_DIG 10`, `ALLOC 40`. -/
def hashcrack_c (be : Bool) : Params := ⟨20, 10, 40, be⟩

/-- Constants of `salt.c`: keys are `SALTDIGSZ 28` bytes, `IDXS_PER_DIG 14`,
`ALLOC 10`. -/
def salt_c (be : Bool) : Params := ⟨28, 14, 10, be⟩

/-- The value `((idx_t * )dig)[i]`: the two bytes at offsets `2i`, `2i+1`
combined in host byte order; `none` when the read leaves the digest. -/
def idxs (P : Params) (dig : List Byte) (i : Nat) : Option idx_t :=
  match dig[2 * i]?, dig[2 * i + 1]? with
  | some b0, some b1 =>
    if P.bigEndian then some ⟨256 * b0.val + b1.val, by omega⟩
    else some ⟨b0.val + 256 * b1.val, by omega⟩
  | _, _ => none

/-! ## The digest index: `pwentadd`, `tabadd`, the walk of `pwchk`, `parse_passwd` -/

/-- Contents of one table slot (`pwent *`): `null`, an entry whose
`next_level` is `NULL` (`leaf`), or an entry with a sub-table (`node`).
A `names` array is a list of `char *` cells, `none` being `NULL`. -/
inductive pwent where
  | null : pwent
  | leaf (names : List (Option Name)) (namesz : Nat) (dig : List Byte) : pwent
  | node (next_level : idx_t → pwent) (names : List (Option Name)) (namesz : Nat)
      (dig : List Byte) : pwent

/-- A table of `TABSZ` slots. -/
abbrev Table := idx_t → pwent

/-- A table fresh from `malloc` and `memset(tab, 0, ...)`. -/
def emptyTab : Table := fun _ => pwent.null

/-- The assignment `tab[idx] = e`. -/
def setSlot (tab : Table) (idx : idx_t) (e : pwent) : Table :=
  fun j => if j = idx then e else tab j

/-- Result of `for(i = 0; names[i]; ++i);` -/
def scanNull (names : List (Option Name)) : Nat :=
  names.findIdx (fun c => c.isNone)

/-- Function `pwentadd(entpp, name, dig)`: `some e` when the C function returns 0
having left `e` in the slot, `none` when it returns 1 (go deeper). -/
def pwentadd (P : Params) (entp : pwent) (name : Name) (dig : List Byte) : Option pwent :=
  match entp with
  | pwent.null =>
    some (pwent.leaf ((List.replicate P.ALLOC none).set 0 (some name)) P.ALLOC
      (dig.take P.DIGSZ))
  | pwent.leaf names namesz d =>
    if d.take P.DIGSZ = dig.take P.DIGSZ then
      let i := scanNull names
      if i ≥ namesz - 1 then
        some (pwent.leaf ((names ++ List.replicate P.ALLOC none).set i (some name))
          (namesz + P.ALLOC) d)
      else
        some (pwent.leaf (names.set i (some name)) namesz d)
    else none
  | pwent.node _ _ _ _ => none

/-- The loop of `tabadd`, entered with `idx = idxs[i]`.  The first argument
is `IDXS_PER_DIG - i`, so the loop test `i < IDXS_PER_DIG` is the match on
it.  The result is the table after the call and the value of `i` on
leaving the loop; `none` is a read past the end of a digest. -/
def tabadd_loop (P : Params) (name : Name) (dig : List Byte) :
    Nat → Nat → idx_t → Table → Option (Table × Nat)
  | 0, i, _, tab => some (tab, i)
  | fuel + 1, i, idx, tab =>
    match pwentadd P (tab idx) name dig with
    | some e => some (setSlot tab idx e, i)
    | none =>
      match tab idx with
      | pwent.node next names namesz d =>
        (idxs P dig (i + 1)).bind fun idx1 =>
          (tabadd_loop P name dig fuel (i + 1) idx1 next).map fun r =>
            (setSlot tab idx (pwent.node r.1 names namesz d), r.2)
      | pwent.leaf names namesz d =>
        (idxs P d (i + 1)).bind fun j =>
          let next := setSlot emptyTab j (pwent.leaf names namesz (d.take P.DIGSZ))
          (idxs P dig (i + 1)).bind fun idx1 =>
            (tabadd_loop P name dig fuel (i + 1) idx1 next).map fun r =>
              (setSlot tab idx (pwent.node r.1 names namesz d), r.2)
      | pwent.null => none -- not reached: `pwentadd` fills an empty slot

/-- Function `tabadd(tab, dig, name)`: the table after the call and the level
at which the name was added. -/
def tabadd (P : Params) (tab : Table) (dig : List Byte) (name : Name) : Option (Table × Nat) :=
  (idxs P dig 0).bind fun idx => tabadd_loop P name dig P.IDXS_PER_DIG 0 idx tab

/-- The directory walk of `pwchk`, from the slot `tab[*idxp]` with
`idxp = (idx_t * )dig + i`.  Result: the returned `names` pointer (`none`
for `NULL`) and the final `i`; the outer `none` is a read past the end of
the digest. -/
def pwchk_loop (P : Params) (dig : List Byte) : pwent → Nat → Option (Option (List (Option Name)) × Nat)
  | pwent.null, i => some (none, i)
  | pwent.leaf names _ d, i =>
    some (if d.take P.DIGSZ = dig.take P.DIGSZ then some names else none, i)
  | pwent.node next _ _ _, i =>
    (idxs P dig (i + 1)).bind fun idx => pwchk_loop P dig (next idx) (i + 1)

/-- The walk of `pwchk` from table `tab` at chunk `i`. -/
def walkFrom (P : Params) (tab : Table) (i : Nat) (dig : List Byte) :
    Option (Option (List (Option Name)) × Nat) :=
  (idxs P dig i).bind fun idx => pwchk_loop P dig (tab idx) i

/-- The whole walk of `pwchk` on a computed digest. -/
def pwchk_walk (P : Params) (tab : Table) (dig : List Byte) :
    Option (Option (List (Option Name)) × Nat) :=
  walkFrom P tab 0 dig

/-- The names a caller sees in `for(; *matches; ++matches)`. -/
def namesOf (arr : List (Option Name)) : List Name :=
  (arr.takeWhile (fun c => c.isSome)).filterMap id

/-- The loop of `parse_passwd` over the records delivered by
`fake_getpwent`: every record is stored with `tabadd`. -/
def parse_passwd (P : Params) : Table → List (List Byte × Name) → Option Table
  | tab, [] => some tab
  | tab, r :: rs => (tabadd P tab r.1 r.2).bind fun t => parse_passwd P t.1 rs

/-! ## SHA1 (FIPS 180-4), the digest function called by `pwchk`

The five chaining words are kept in one number `a·2^128 + b·2^96 + c·2^64 +
d·2^32 + e`, and the sixteen most recent words of the message schedule in
one 512-bit number, oldest word first. -/

/-- Rotation of a 32-bit word to the left by `n` bits. -/
def rotl32 (x n : Nat) : Nat := ((x <<< n) ||| (x >>> (32 - n))) % 4294967296

/-- The 32-bit word number `i` (from the least significant end) of `x`. -/
def word32 (x i : Nat) : Nat := (x >>> (32 * i)) % 4294967296

/-- Padding: a `1` bit, zeros up to 56 mod 64 bytes, then the bit length as
a 64-bit big-endian number. -/
def sha1_pad (msg : List Nat) : List Nat :=
  msg ++ 128 :: List.replicate ((119 - msg.length % 64) % 64) 0 ++
    (List.range 8).reverse.map (fun i => ((8 * msg.length) >>> (8 * i)) % 256)

/-- A byte string as a big-endian number. -/
def sha1_num (bytes : List Nat) : Nat := bytes.foldl (fun acc b => acc * 256 + b) 0

/-- The 64-byte blocks of a padded message, as 512-bit numbers. -/
def sha1_blocks : Nat → List Nat → List Nat
  | 0, _ => []
  | n + 1, bytes => sha1_num (bytes.take 64) :: sha1_blocks n (bytes.drop 64)

/-- The schedule window moved on by one word:
`w[t+16] = rotl1 (w[t+13] ^ w[t+8] ^ w[t+2] ^ w[t])`. -/
def sha1_next (win : Nat) : Nat :=
  ((win - ((win >>> 480) <<< 480)) <<< 32) +
    rotl32 (word32 win 2 ^^^ word32 win 7 ^^^ word32 win 13 ^^^ word32 win 15) 1

/-- Round function and round constant of round `t`. -/
def sha1_fk (t b c d : Nat) : Nat × Nat :=
  if t < 20 then ((b &&& c) ||| ((4294967295 - b) &&& d), 0x5A827999)
  else if t < 40 then (b ^^^ c ^^^ d, 0x6ED9EBA1)
  else if t < 60 then ((b &&& c) ||| (b &&& d) ||| (c &&& d), 0x8F1BBCDC)
  else (b ^^^ c ^^^ d, 0xCA62C1D6)

/-- Round `t` on the chaining words `s`, with the window starting at `w[t]`. -/
def sha1_round (t s win : Nat) : Nat :=
  (((rotl32 (word32 s 4) 5 + (sha1_fk t (word32 s 3) (word32 s 2) (word32 s 1)).1 + word32 s 0 +
      (sha1_fk t (word32 s 3) (word32 s 2) (word32 s 1)).2 + word32 win 15) % 4294967296)
      <<< 128) +
    (word32 s 4 <<< 96) + (rotl32 (word32 s 3) 30 <<< 64) + (word32 s 2 <<< 32) + word32 s 1

/-- Rounds `t, ..., t + n - 1`. -/
def sha1_rounds : Nat → Nat → Nat → Nat → Nat
  | 0, _, s, _ => s
  | n + 1, t, s, win => sha1_rounds n (t + 1) (sha1_round t s win) (sha1_next win)

/-- Compression of one block into the chaining words. -/
def sha1_block (s blk : Nat) : Nat :=
  (((word32 s 4 + word32 (sha1_rounds 80 0 s blk) 4) % 4294967296) <<< 128) +
  (((word32 s 3 + word32 (sha1_rounds 80 0 s blk) 3) % 4294967296) <<< 96) +
  (((word32 s 2 + word32 (sha1_rounds 80 0 s blk) 2) % 4294967296) <<< 64) +
  (((word32 s 1 + word32 (sha1_rounds 80 0 s blk) 1) % 4294967296) <<< 32) +
  ((word32 s 0 + word32 (sha1_rounds 80 0 s blk) 0) % 4294967296)

/-- Initial chaining words `67452301 EFCDAB89 98BADCFE 10325476 C3D2E1F0`. -/
def sha1_init : Nat := 0x67452301EFCDAB8998BADCFE10325476C3D2E1F0

/-- Function `SHA1(d, n, md)` of OpenSSL on the `n` bytes `msg`: the 20-byte digest. -/
def SHA1 (msg : List Byte) : List Byte :=
  (List.range 20).map fun i =>
    Fin.ofNat (((sha1_blocks ((msg.length + 72) / 64) (sha1_pad (msg.map Fin.val))).foldl
      sha1_block sha1_init) >>> (8 * (19 - i)))

/-! ## C strings in a buffer -/

/-- A `char` buffer addressed by offset. -/
abbrev Buf := Nat → Byte

/-- The assignment `buf[p] = c`. -/
def poke (buf : Buf) (p : Nat) (c : Byte) : Buf := fun k => if k = p then c else buf k

/-- The `n` bytes starting at `buf + p`. -/
def bytesAt (buf : Buf) (p n : Nat) : List Byte := (List.range n).map fun k => buf (p + k)

/-- Function `strlen(buf + p)`, looking at no more than `fuel` bytes. -/
def strlen (buf : Buf) (p : Nat) : Nat → Nat
  | 0 => 0
  | fuel + 1 => if buf p = 0 then 0 else strlen buf (p + 1) fuel + 1

/-- The C string at `buf + p` (what `%s` prints); buffers here have 256 bytes. -/
def cstr (buf : Buf) (p : Nat) : List Byte := bytesAt buf p (strlen buf p 256)

/-- Storing the characters `s` and a terminating NUL at `buf + p`. -/
def store (buf : Buf) (p : Nat) (s : List Byte) : Buf :=
  fun k => if k < p then buf k else if k = p + s.length then 0 else (s[k - p]?).getD (buf k)

/-- Characters taken by one `fgets` that may store `n` characters: up to
and including the first newline. -/
def readLine : Nat → List Byte → List Byte × List Byte
  | 0, fp => ([], fp)
  | _, [] => ([], [])
  | n + 1, c :: fp =>
    if c = 10 then ([c], fp) else ((c :: (readLine n fp).1), (readLine n fp).2)

/-- Function `fgets(s, size, fp)` on the unread bytes `fp`: the characters stored and
the bytes left unread; `none` is the `NULL` returned at end of file. -/
def fgets (size : Nat) (fp : List Byte) : Option (List Byte × List Byte) :=
  if fp = [] then none else some (readLine (size - 1) fp)

/-- Function `getline(&pw, &pwsz, fp)`: a whole line with its newline, if any. -/
def getline (fp : List Byte) : Option (List Byte × List Byte) :=
  if fp = [] then none else some (readLine fp.length fp)

/-! ## The match log -/

/-- One line of the log file: the counter, the name and the candidate
(the elapsed-seconds field is left out). -/
structure Record where
  cnt : Nat
  name : Name
  pw : List Byte
deriving DecidableEq

/-- The loop `for(; *matches; ++matches) fprintf(ofp, ..., ++cnt, *matches, pw)`
over the names found, `cand` being the string at `pw`. -/
def logMatches (cand : List Byte) : List Name → List Record × Nat → List Record × Nat
  | [], s => s
  | n :: ns, s => logMatches cand ns (s.1 ++ [⟨s.2 + 1, n, cand⟩], s.2 + 1)

/-! ## `hashcrack.c`: the dictionary worker -/

/-- What a worker of `hashcrack.c` reads but does not change: the constants,
the digest function, the index, the string `punct`, and the byte that lies
in memory before `punct` (read as `punct[-1]` when a sweep ends). -/
structure Env where
  P : Params
  sha : List Byte → List Byte
  tab : Table
  punct : List Byte
  junk : Byte

/-- The symbol string of `parse_dict`. -/
def punct36 : List Byte := str "!@$%^&*()-=_+{}[]|\\:<>,.?/1234567890"

/-- State of a worker: its buffer `rpw`, the log `ofp` and counter `cnt` of
`ptinfo`, and the list of byte strings passed to `SHA1` so far. -/
structure Worker where
  rpw : Buf
  ofp : List Record
  cnt : Nat
  hashed : List (List Byte)

/-- The value `punct[i]`, the terminating NUL for `i = punctlen`. -/
def punctAt (E : Env) (i : Int) : Byte :=
  if i < 0 then E.junk else (E.punct[i.toNat]?).getD 0

/-- Function `pwchk(tab, pw, pwlen)` of `hashcrack.c`: digest of the `pwlen` bytes,
then the directory walk. -/
def pwchk (E : Env) (pw : List Byte) : Option (Option (List (Option Name)) × Nat) :=
  pwchk_walk E.P E.tab (E.sha pw)

/-- One test `if((matches = pwchk(pti->tab, pw, rpwlen))) for(...) fprintf(...)`
with `pw = rpw + off`. -/
def probe (E : Env) (w : Worker) (off rpwlen : Nat) : Option Worker :=
  match pwchk E (bytesAt w.rpw off rpwlen) with
  | none => none
  | some (none, _) => some { w with hashed := w.hashed ++ [bytesAt w.rpw off rpwlen] }
  | some (some arr, _) =>
    let s := logMatches (cstr w.rpw off) (namesOf arr) (w.ofp, w.cnt)
    some { w with hashed := w.hashed ++ [bytesAt w.rpw off rpwlen], ofp := s.1, cnt := s.2 }

/-- Iterations `i = k-1, ..., 0` of the first `for` of `parse_dict`, entered
with `rpw[pwlen] = punct[k-1]` stored; the second component is `rpwlen`. -/
def sweep1 (E : Env) (pwlen : Nat) : Nat → Worker × Nat → Option (Worker × Nat)
  | 0, s => some s
  | k + 1, s =>
    (probe E s.1 1 (strlen s.1.rpw 1 256)).bind fun w1 =>
      sweep1 E pwlen k
        ({ w1 with rpw := poke w1.rpw pwlen (punctAt E ((k : Int) - 1)) }, strlen s.1.rpw 1 256)

/-- Iterations `j = k-1, ..., 0` of the inner `for` of the second sweep. -/
def sweep2_inner (E : Env) (pwlen rpwlen : Nat) : Nat → Worker → Option Worker
  | 0, w => some w
  | k + 1, w =>
    (probe E w 0 rpwlen).bind fun w1 =>
      sweep2_inner E pwlen rpwlen k { w1 with rpw := poke w1.rpw pwlen (punctAt E ((k : Int) - 1)) }

/-- Iterations `i = k-1, ..., 0` of the outer `for` of the second sweep,
entered with `rpw[0] = punct[k-1]` stored. -/
def sweep2 (E : Env) (pwlen rpwlen : Nat) : Nat → Worker → Option Worker
  | 0, w => some w
  | k + 1, w =>
    (sweep2_inner E pwlen rpwlen (E.punct.length + 1)
        { w with rpw := poke w.rpw pwlen (punctAt E E.punct.length) }).bind fun w1 =>
      sweep2 E pwlen rpwlen k { w1 with rpw := poke w1.rpw 0 (punctAt E ((k : Int) - 1)) }

/-- Body of the `while` of `parse_dict` for the characters `line` that
`fgets(rpw + 1, sizeof rpw, dfp)` stored.  The array `rpw` has 256 bytes,
`rpw[0]` to `rpw[255]`.  The call of `fgets` stores the line and its NUL from
`rpw + 1` on, so that a line of 255 characters puts the NUL at `rpw[256]`;
and `rpw[pwlen + 1] = 0` writes past the array when `pwlen` is above 254.
The result is `none` for such a write past the end of `rpw`. -/
def parse_dict_line (E : Env) (w : Worker) (line : List Byte) : Option Worker :=
  let rpw0 := store w.rpw 1 line
  let pwlen0 := strlen rpw0 1 256
  let pwlen := if rpw0 pwlen0 ≠ 10 then pwlen0 + 1 else pwlen0
  if 254 < line.length ∨ 254 < pwlen then none
  else
    let rpw1 := poke (poke rpw0 (pwlen + 1) 0) pwlen (punctAt E E.punct.length)
    (sweep1 E pwlen (E.punct.length + 1) ({ w with rpw := rpw1 }, 0)).bind fun s =>
      sweep2 E pwlen (s.2 + 1) E.punct.length
        { s.1 with rpw := poke s.1.rpw 0 (punctAt E ((E.punct.length : Int) - 1)) }

/-- The `while(fgets(...))` loop of `parse_dict`; each round takes at least
one byte of `dfp`, so `dfp.length` rounds are enough. -/
def parse_dict_loop (E : Env) : Nat → List Byte → Worker → Option Worker
  | fuel, dfp, w =>
    match fgets 256 dfp with
    | none => some w
    | some (line, rest) =>
      match fuel with
      | 0 => none
      | fuel + 1 => (parse_dict_line E w line).bind fun w1 => parse_dict_loop E fuel rest w1

/-- Function `parse_dict` run by a single worker on the dictionary `dfp`. -/
def parse_dict (E : Env) (w : Worker) (dfp : List Byte) : Option Worker :=
  parse_dict_loop E dfp.length dfp w

/-- A worker about to start: empty log, counter 0 (`pti.cnt = 0`), nothing
hashed, the buffer holding whatever the stack holds. -/
def Worker.init (rpw : Buf) : Worker := ⟨rpw, [], 0, []⟩

/-- The single-worker run of `hashcrack.c`: `parse_passwd` over the records,
then one `parse_dict` over the dictionary. -/
def run1 (P : Params) (sha : List Byte → List Byte) (punct : List Byte) (junk : Byte)
    (rpw : Buf) (records : List (List Byte × Name)) (dict : List Byte) : Option Worker :=
  (parse_passwd P emptyTab records).bind fun tab =>
    parse_dict ⟨P, sha, tab, punct, junk⟩ (Worker.init rpw) dict

/-! ## `salt.c` -/

namespace Salt

/-- Constant `SALTSZ` of `salt.c`, the number of salt bytes. -/
def SALTSZ : Nat := 8

/-- The C string held by an array of characters: up to the first NUL. -/
def cstrOf (s : List Byte) : List Byte := s.takeWhile fun c => c ≠ 0

/-- The 28-byte key that `pwchk` of `salt.c` builds for the string `pw` and
the salt `sdig`: the salt, then the digest of the string followed by the
salt (`SHA1_Update(pw)`, `SHA1_Update(sdig)`). -/
def saltdig (sha : List Byte → List Byte) (pw sdig : List Byte) : List Byte :=
  sdig.take SALTSZ ++ sha (pw ++ sdig.take SALTSZ)

/-- Function `pwchk(tab, pw, sdig)` of `salt.c`: the key is built, then the
directory is walked. -/
def pwchk (P : Params) (sha : List Byte → List Byte) (tab : Table) (pw sdig : List Byte) :
    Option (Option (List (Option Name)) × Nat) :=
  pwchk_walk P tab (saltdig sha pw sdig)

/-- Function `saltadd(sdig, headp, tab)`: the salt list after the call. -/
def saltadd (P : Params) (sdig : List Byte) (head : List (List Byte)) (tab : Table) :
    Option (List (List Byte)) :=
  (idxs P sdig 0).map fun idx =>
    match tab idx with
    | pwent.null => sdig.take SALTSZ :: head
    | _ => head

/-- The loop of `parse_passwd` over the records `(saltdig, name)` delivered
by `fake_getpwent`: `saltadd`, then `tabadd`. -/
def parse_passwd (P : Params) : Table × List (List Byte) → List (List Byte × Name) →
    Option (Table × List (List Byte))
  | s, [] => some s
  | s, r :: rs =>
    (saltadd P r.1 s.2 s.1).bind fun head =>
      (tabadd P s.1 r.1 r.2).bind fun t => parse_passwd P (t.1, head) rs

/-- Log, counter and the byte strings given to SHA1 so far. -/
structure State where
  ofp : List Record
  cnt : Nat
  hashed : List (List Byte)

/-- The loop `while(temp)` of `parse_dict` over the salt list for the
string `pw`. -/
def sweep (P : Params) (sha : List Byte → List Byte) (tab : Table) (pw : List Byte) :
    List (List Byte) → State → Option State
  | [], s => some s
  | sdig :: rest, s =>
    match pwchk P sha tab pw sdig with
    | none => none
    | some (none, _) =>
      sweep P sha tab pw rest { s with hashed := s.hashed ++ [pw ++ sdig.take SALTSZ] }
    | some (some arr, _) =>
      let r := logMatches pw (namesOf arr) (s.ofp, s.cnt)
      sweep P sha tab pw rest ⟨r.1, r.2, s.hashed ++ [pw ++ sdig.take SALTSZ]⟩

/-- The loop `while((pwlen = getline(&pw, &pwsz, fp)) > 0)` of `parse_dict`;
`pw[--pwlen] = 0` drops the last character read. -/
def parse_dict_loop (P : Params) (sha : List Byte → List Byte) (tab : Table)
    (head : List (List Byte)) : Nat → List Byte → State → Option State
  | fuel, fp, s =>
    match getline fp with
    | none => some s
    | some (line, rest) =>
      match fuel with
      | 0 => none
      | fuel + 1 =>
        (sweep P sha tab (cstrOf line.dropLast) head s).bind fun s1 =>
          parse_dict_loop P sha tab head fuel rest s1

/-- Function `parse_dict(fp, tab, start, head)` of `salt.c`, which starts with
an empty log and the counter 0. -/
def parse_dict (P : Params) (sha : List Byte → List Byte) (tab : Table)
    (head : List (List Byte)) (fp : List Byte) : Option State :=
  parse_dict_loop P sha tab head fp.length fp ⟨[], 0, []⟩

/-- Function `main` of `salt.c` on parsed records and a dictionary. -/
def main (P : Params) (sha : List Byte → List Byte) (records : List (List Byte × Name))
    (dict : List Byte) : Option State :=
  (parse_passwd P (emptyTab, []) records).bind fun s => parse_dict P sha s.1 s.2 dict

end Salt

/-! ## `hashcrack.c`: reading the credential file (`hash2dig`, `fake_getpwent`) -/

/-- Value of a character as a hexadecimal digit, `none` when it is not one. -/
def hexval (c : Byte) : Option Nat :=
  if 48 ≤ c.val ∧ c.val ≤ 57 then some (c.val - 48)
  else if 97 ≤ c.val ∧ c.val ≤ 102 then some (c.val - 87)
  else if 65 ≤ c.val ∧ c.val ≤ 70 then some (c.val - 55)
  else none

/-- Function `isspace` in the C locale: space, `\t`, `\n`, `\v`, `\f`, `\r`. -/
def isspace (c : Byte) : Bool := c.val = 32 || (9 ≤ c.val && c.val ≤ 13)

/-- The digits of `strtol` in base 16: the value of the longest run of
hexadecimal digits at the start of the string, continuing from `acc`. -/
def strtol_digits : List Byte → Nat → Nat
  | [], acc => acc
  | c :: cs, acc =>
    match hexval c with
    | some v => strtol_digits cs (16 * acc + v)
    | none => acc

/-- Function `strtol(s, NULL, 0x10)` of the C library (ISO C 7.22.1.4) on the
characters `s` of a string: white space is skipped, a sign and a prefix
`0x` are accepted, then the digits are read; without digits the value is 0.
The strings passed by `hash2dig` have at most two characters, so that the
clamping to `LONG_MAX` never applies. -/
def strtol (s : List Byte) : Int :=
  let s1 := s.dropWhile isspace
  let neg := s1.head? = some 45
  let s2 := if s1.head? = some 45 ∨ s1.head? = some 43 then s1.tail else s1
  let s3 :=
    match s2 with
    | z :: x :: d :: r =>
      if z = 48 ∧ (x = 120 ∨ x = 88) ∧ (hexval d).isSome then d :: r else s2
    | _ => s2
  if neg then -(strtol_digits s3 0 : Int) else (strtol_digits s3 0 : Int)

/-- The conversion of a `long` to `uint8_t` in `*d = strtol(...)`. -/
def toUint8 (v : Int) : Byte := Fin.ofNat (v % 256).toNat

/-- Function `hash2dig(h, d)`.  The first argument holds the bytes of the
array at `h` that have been written (the string and its NUL); the second
the array at `d` before the call, the third the number of bytes of `d`
already written.  `memcpy(byte, h, 2)` leaves `byte[2] = 0`, so `strtol`
sees the C string held by two bytes.  The result is the array at `d`
after the call; `none` is a read of `h` past the bytes written or a
write past the end of `d`. -/
def hash2dig : List Byte → List Byte → Nat → Option (List Byte)
  | [], _, _ => none
  | [c0], d, _ => if c0 = 0 then some d else none
  | c0 :: c1 :: rest, d, k =>
    if c0 = 0 then some d
    else if k < d.length then
      hash2dig rest (d.set k (toUint8 (strtol (Salt.cstrOf [c0, c1])))) (k + 1)
    else none

/-- Function `getdelim(&line, &n, delim, fp)` on the unread bytes `fp`: the
characters up to and including the first `delim` (or up to the end of the
file) and the bytes left unread; `none` is the result -1 at end of file. -/
def getdelim (delim : Byte) : List Byte → Option (List Byte × List Byte)
  | [] => none
  | c :: fp =>
    if c = delim then some ([c], fp)
    else
      match getdelim delim fp with
      | none => some ([c], [])
      | some (l, rest) => some (c :: l, rest)

/-- How a call of `fake_getpwent` ends: it returns `EOF`; it calls `error`,
which prints the message and leaves the program; it reads or writes
outside an array; or it returns 0 having delivered a name and a digest,
with the rest of the file unread. -/
inductive Getpwent where
  | eof : Getpwent
  | error (who : String) : Getpwent
  | fault : Getpwent
  | ok (name : Name) (dig : List Byte) (fp : List Byte) : Getpwent
deriving DecidableEq

/-- Function `fake_getpwent(namep, dig, fp)` of `hashcrack.c`, with the contents of
`dig` before the call and the unread bytes of the file. -/
def fake_getpwent (P : Params) (dig : List Byte) (fp : List Byte) : Getpwent :=
  match getdelim 9 fp with
  | none => Getpwent.eof
  | some (nm, fp1) =>
    if Salt.cstrOf nm = [] then Getpwent.fault -- `( *namep)[-1] = 0`
    else
      match fgets (P.DIGSZ * 2 + 1) fp1 with
      | none => Getpwent.error "fgets()"
      | some (hash, fp2) =>
        match fp2 with
        | [] => Getpwent.error "Found a hash of abnormal size!"
        | c :: fp3 =>
          if c ≠ 10 then Getpwent.error "Found a hash of abnormal size!"
          else
            match hash2dig (hash ++ [0]) dig 0 with
            | none => Getpwent.fault
            | some d => Getpwent.ok (Salt.cstrOf nm).dropLast d fp3

/-! ## `salt.c`: `tabchk` -/

namespace Salt

/-- Constant `DIGSZ` of `salt.c`, the number of hash bytes in a key of
`SALTDIGSZ` bytes. -/
def DIGSZ : Nat := 20

/-- The loop of `tabchk(tab, sdig)`, entered with `idx = idxs[i]`; the first
argument is `IDXS_PER_DIG - i`.  The result is the returned `names` pointer
(`none` for `NULL`, also when the loop runs out); the outer `none`
is a read past the end of the key. -/
def tabchk_loop (P : Params) (sdig : List Byte) :
    Nat → Nat → idx_t → Table → Option (Option (List (Option Name)))
  | 0, _, _, _ => some none
  | fuel + 1, i, idx, tab =>
    match tab idx with
    | pwent.null => some none
    | pwent.leaf names _ d => some (if d.take DIGSZ = sdig.take DIGSZ then some names else none)
    | pwent.node next _ _ _ =>
      (idxs P sdig (i + 1)).bind fun idx1 => tabchk_loop P sdig fuel (i + 1) idx1 next

/-- Function `tabchk(tab, sdig)` of `salt.c`. -/
def tabchk (P : Params) (tab : Table) (sdig : List Byte) : Option (Option (List (Option Name))) :=
  (idxs P sdig 0).bind fun idx => tabchk_loop P sdig P.IDXS_PER_DIG 0 idx tab

end Salt

/-! # Part 2: definitions used to state properties -/

/-! ## Answers of the index, slots on a path, invariants -/

/-- The names stored under digest `d` by the insertions `ops`, in order. -/
def inserted (ops : List (List Byte × Name)) (d : List Byte) : List Name :=
  (ops.filter fun op => op.1 = d).map fun op => op.2

/-- What a caller of the walk of `pwchk` sees: `some none` for `NULL`,
`some (some l)` for a `names` array holding the names `l`. -/
def found (P : Params) (tab : Table) (i : Nat) (dig : List Byte) : Option (Option (List Name)) :=
  (walkFrom P tab i dig).map fun r => r.1.map namesOf

/-- The walk of `pwchk` from a slot, as the caller sees its result. -/
def foundEnt (P : Params) (dig : List Byte) (e : pwent) (i : Nat) : Option (Option (List Name)) :=
  (pwchk_loop P dig e i).map fun r => r.1.map namesOf

/-- A list of names as a lookup result: `NULL` when there is none. -/
def optList (l : List Name) : Option (List Name) := if l = [] then none else some l

/-- The slot reached after following `dig` for `n` more levels below the
slot `e` of level `i`; `none` when the path stops before that level. -/
def slotBelow (P : Params) (dig : List Byte) : Nat → Nat → pwent → Option pwent
  | 0, _, e => some e
  | n + 1, i, pwent.node next _ _ _ =>
    (idxs P dig (i + 1)).bind fun idx => slotBelow P dig n (i + 1) (next idx)
  | _ + 1, _, _ => none

/-- The slot on the path of `dig` in the directory of depth `n`. -/
def slotAt (P : Params) (tab : Table) (dig : List Byte) (n : Nat) : Option pwent :=
  (idxs P dig 0).bind fun idx => slotBelow P dig n 0 (tab idx)

/-- Whether a slot is a leaf (an entry without sub-table). -/
def pwent.isLeaf : pwent → Bool
  | pwent.leaf _ _ _ => true
  | _ => false

/-- Whether a slot is a child directory. -/
def pwent.isNode : pwent → Bool
  | pwent.node _ _ _ _ => true
  | _ => false

/-- The constants fit together: a digest is `IDXS_PER_DIG` chunks of two
bytes (at least one), and a fresh `names` array has room for a name and a
terminator. -/
def Params.Valid (P : Params) : Prop :=
  P.DIGSZ = 2 * P.IDXS_PER_DIG ∧ 1 ≤ P.IDXS_PER_DIG ∧ 2 ≤ P.ALLOC

/-- Tables that `parse_passwd` can build: the empty table after storing
records whose digests have the full width. -/
def Reachable (P : Params) (tab : Table) : Prop :=
  ∃ ops : List (List Byte × Name),
    (∀ op ∈ ops, op.1.length = P.DIGSZ) ∧ parse_passwd P emptyTab ops = some tab

/-- A `names` array of `namesz` cells: at least one name, the names in the
leading cells, and every cell after them `NULL` (at least one). -/
def NamesWF (names : List (Option Name)) (namesz : Nat) : Prop :=
  namesz = names.length ∧
    ∃ ns k, ns ≠ [] ∧ names = ns.map some ++ List.replicate (k + 1) none

/-- The full-width digest `a` has the leading chunks `path` and is found
by the walk of `pwchk` that enters the slot `e` at the end of `path`. -/
def Under (P : Params) (a : List Byte) (path : List idx_t) (e : pwent) : Prop :=
  a.length = P.DIGSZ ∧ (∀ k, k < path.length → idxs P a k = path[k]?) ∧
    ∃ l, foundEnt P a e (path.length - 1) = some (some l)

/-- Invariant of a slot reached through the slots `path` (its own index
last): a leaf holds a full digest whose leading chunks are `path` and a
well-formed `names` array; a sub-table lies above the last level, all its
slots satisfy the invariant, and at least two different digests are found
in it. -/
def EntInv (P : Params) : pwent → List idx_t → Prop
  | pwent.null, _ => True
  | pwent.leaf names namesz d, path =>
    d.length = P.DIGSZ ∧ NamesWF names namesz ∧
      ∀ k, k < path.length → idxs P d k = path[k]?
  | pwent.node next names namesz d, path =>
    path.length < P.IDXS_PER_DIG ∧ (∀ j, EntInv P (next j) (path ++ [j])) ∧
      ∃ a b, a ≠ b ∧ Under P a path (pwent.node next names namesz d) ∧
        Under P b path (pwent.node next names namesz d)

/-- Invariant of the table reached through the slots `path`. -/
def TabInv (P : Params) (tab : Table) (path : List idx_t) : Prop :=
  ∀ j, EntInv P (tab j) (path ++ [j])

/-- The slot `s` found at depth `n` on the path of the inserted digest `d`
holds `d`: it is the leaf of `d`, or it is a child directory and then some
other inserted digest has the same chunks `0..n` as `d`. -/
def StoredAt (P : Params) (ops : List (List Byte × Name)) (n : Nat) (d : List Byte)
    (s : pwent) : Prop :=
  (∃ names namesz, s = pwent.leaf names namesz d) ∨
    (∃ next names namesz e, s = pwent.node next names namesz e ∧
      ∃ a ∈ ops.map Prod.fst, a ≠ d ∧ ∀ j, j ≤ n → idxs P a j = idxs P d j)

/-! ## The tests of the unsalted worker in closed form -/

/-- The tests of the second sweep for one prefix `p`: first with the
terminating NUL in the suffix position, then with each suffix. -/
def prefixProbes (punct w : List Byte) (p : Byte) : List (List Byte × List Byte) :=
  (p :: w ++ [0], p :: w) :: punct.reverse.map fun s => (p :: w ++ [s], p :: w ++ [s])

/-- The tests made for the word `w`, in order: the bytes given to `SHA1`
and the string at `pw` that a match would print. -/
def probesFor (punct w : List Byte) : List (List Byte × List Byte) :=
  ((w, w) :: punct.reverse.map fun s => (w ++ [s], w ++ [s])) ++
    punct.reverse.flatMap fun p => prefixProbes punct w p

/-- The byte strings hashed for the word `w`, in the order of the sweeps:
the word, the word with each suffix, and for each prefix the prefixed word
followed by a NUL and the prefixed word with each suffix. -/
def hashedFor (punct w : List Byte) : List (List Byte) :=
  (w :: punct.reverse.map fun s => w ++ [s]) ++
    punct.reverse.flatMap fun p =>
      (p :: w ++ [0]) :: punct.reverse.map fun s => p :: w ++ [s]

/-- The candidate set of the specification: every optional one-symbol
prefix with every optional one-symbol suffix around the word. -/
def specCandidates (punct w : List Byte) : List (List Byte) :=
  (([] :: punct.map fun p => [p]).flatMap fun p =>
    ([] :: punct.map fun s => [s]).map fun s => p ++ w ++ s)

/-- The names `pwchk` returns for the bytes `x` (none when it returns `NULL`). -/
def hits (E : Env) (x : List Byte) : List Name :=
  match pwchk E x with
  | some (some arr, _) => namesOf arr
  | _ => []

/-- The log and counter after a list of tests. -/
def runProbes (E : Env) : List (List Byte × List Byte) → List Record × Nat → List Record × Nat
  | [], s => s
  | p :: ps, s => runProbes E ps (logMatches p.2 (hits E p.1) s)

/-- The buffer `rpw` holds the word `w` from offset 1, then the byte `c`,
then a NUL. -/
def Holds (rpw : Buf) (w : List Byte) (c : Byte) : Prop :=
  bytesAt rpw 1 w.length = w ∧ rpw (w.length + 1) = c ∧ rpw (w.length + 2) = 0

/-! ## The tests of the salted worker and the salt list in closed form -/

namespace Salt

/-- The names `pwchk` of `salt.c` returns for the string `pw` and the salt
`sdig` (none when it returns `NULL`). -/
def hits (P : Params) (sha : List Byte → List Byte) (tab : Table) (pw sdig : List Byte) :
    List Name :=
  match pwchk P sha tab pw sdig with
  | some (some arr, _) => namesOf arr
  | _ => []

/-- The tests of `parse_dict` of `salt.c` in order: for every line the
string tested, paired with every salt of the list. -/
def events (head lines : List (List Byte)) : List (List Byte × List Byte) :=
  lines.flatMap fun l => head.map fun s => (cstrOf l, s)

/-- The log and counter after a list of tests `(pw, salt)`. -/
def runEvents (P : Params) (sha : List Byte → List Byte) (tab : Table) :
    List (List Byte × List Byte) → List Record × Nat → List Record × Nat
  | [], s => s
  | e :: es, s => runEvents P sha tab es (logMatches e.1 (hits P sha tab e.1 e.2) s)

/-- Leading 16-bit chunk of a record's salt. -/
def chunk0 (P : Params) (r : List Byte × Name) : Option idx_t := idxs P r.1 0

/-- Records that are the first of the file with their leading salt chunk. -/
def firstOfChunk (P : Params) : List (List Byte × Name) → List (List Byte × Name) →
    List (List Byte × Name)
  | _, [] => []
  | seen, r :: rs =>
    if seen.any (fun q => chunk0 P q = chunk0 P r) then firstOfChunk P (seen ++ [r]) rs
    else r :: firstOfChunk P (seen ++ [r]) rs

end Salt

/-! ## Hexadecimal strings, slots by path, capacity, depth and shape -/

/-- The lower-case hexadecimal digit for a value below 16. -/
def hexdigit (n : Nat) : Byte := if n < 10 then Fin.ofNat (48 + n) else Fin.ofNat (87 + n)

/-- A byte string written in hexadecimal, two lower-case digits per byte. -/
def toHex : List Byte → List Byte
  | [] => []
  | b :: r => hexdigit (b.val / 16) :: hexdigit (b.val % 16) :: toHex r

/-- A character with the upper-case letters mapped to lower case. -/
def tolower (c : Byte) : Byte := if 65 ≤ c.val ∧ c.val ≤ 90 then Fin.ofNat (c.val + 32) else c

/-- The bytes denoted by a string of hexadecimal digits, two digits per
byte, the high digit first. -/
def hexBytes : List Byte → List Byte
  | c0 :: c1 :: r => Fin.ofNat (16 * (hexval c0).getD 0 + (hexval c1).getD 0) :: hexBytes r
  | _ => []

/-- The slot reached from a table through the indices `path`, one index per
level: every index but the last must lead to a child directory.  The
result is `none` for the empty path and when the path leaves the
directories. -/
def slotVia (tab : Table) : List idx_t → Option pwent
  | [] => none
  | [j] => some (tab j)
  | j :: k :: rest =>
    match tab j with
    | pwent.node next _ _ _ => slotVia next (k :: rest)
    | _ => none

/-- The slot at which the walk of `pwchk` for `dig` stops when it enters
the slot `e` of level `i`: an empty slot or a leaf, with its level. -/
def endSlot (P : Params) (dig : List Byte) : pwent → Nat → Option (pwent × Nat)
  | pwent.null, i => some (pwent.null, i)
  | pwent.leaf names namesz d, i => some (pwent.leaf names namesz d, i)
  | pwent.node next _ _ _, i =>
    (idxs P dig (i + 1)).bind fun idx => endSlot P dig (next idx) (i + 1)

/-- The slot and level at which the walk of `pwchk` for `dig` stops in the
table `tab`. -/
def endOf (P : Params) (tab : Table) (dig : List Byte) : Option (pwent × Nat) :=
  (idxs P dig 0).bind fun idx => endSlot P dig (tab idx) 0

/-- The fields `names`, `namesz` and `dig` of a leaf. -/
def pwent.leafData : pwent → Option (List (Option Name) × Nat × List Byte)
  | pwent.leaf names namesz d => some (names, namesz, d)
  | _ => none

/-- A `names` array of `namesz` cells with the capacity that the growth
rule of `pwentadd` gives: it holds `k ≥ 1` names in its leading cells,
`namesz` is `ALLOC * (k / ALLOC + 1)`, and the other cells are `NULL`. -/
def CapWF (P : Params) (names : List (Option Name)) (namesz : Nat) : Prop :=
  ∃ ns : List Name, ns ≠ [] ∧ namesz = P.ALLOC * (ns.length / P.ALLOC + 1) ∧
    names = ns.map some ++ List.replicate (namesz - ns.length) none

/-- Every leaf at or below a slot has a `names` array of the capacity that
the growth rule gives. -/
def CapInv (P : Params) : pwent → Prop
  | pwent.null => True
  | pwent.leaf names namesz _ => CapWF P names namesz
  | pwent.node next _ _ _ => ∀ j, CapInv P (next j)

/-- The number of chunks `j, j+1, ...` (at most `fuel`) in which the digests
`x` and `y` agree before they first differ. -/
def sharedFrom (P : Params) (x y : List Byte) : Nat → Nat → Nat
  | 0, _ => 0
  | fuel + 1, j => if idxs P x j = idxs P y j then sharedFrom P x y fuel (j + 1) + 1 else 0

/-- The number of leading 16-bit chunks that two digests share. -/
def sharedChunks (P : Params) (x y : List Byte) : Nat := sharedFrom P x y P.IDXS_PER_DIG 0

/-- The largest number of leading chunks that `x` shares with a digest of
`ds` other than `x` itself; 0 when there is no other digest. -/
def maxShared (P : Params) (ds : List (List Byte)) (x : List Byte) : Nat :=
  ((ds.filter fun y => y ≠ x).map (sharedChunks P x)).foldr max 0

/-- What a path leads to: nothing (the path leaves the directories), an
empty slot, a leaf, or a child directory. -/
inductive Kind where
  | absent : Kind
  | empty : Kind
  | leaf : Kind
  | dir : Kind
deriving DecidableEq

/-- The kind of the slot that a path leads to. -/
def kindOf : Option pwent → Kind
  | none => Kind.absent
  | some pwent.null => Kind.empty
  | some (pwent.leaf _ _ _) => Kind.leaf
  | some (pwent.node _ _ _ _) => Kind.dir

/-- The digest `x` has the leading chunks `p`: the walk for `x` uses the
indices of the path `p`, level by level. -/
def onPath (P : Params) (x : List Byte) (p : List idx_t) : Prop :=
  ∀ k, k < p.length → idxs P x k = p[k]?

/-! ## Example data -/

/-- Example digest: chunks `(1,1)`, `(2,2)`, `(3,3)`, then zeros. -/
def digA : List Byte := [1, 1, 2, 2, 3, 3] ++ List.replicate 14 0

/-- Example digest: as `digA` in chunk 0, different in chunk 1. -/
def digB : List Byte := [1, 1, 9, 9] ++ List.replicate 16 0

/-- Example digest: as `digA` in chunks 0 and 1, different in chunk 2. -/
def digC : List Byte := [1, 1, 2, 2, 4, 4] ++ List.replicate 14 0

/-- Example salt `aa bb cc dd 01 02 03 04`. -/
def saltA : List Byte := [0xaa, 0xbb, 0xcc, 0xdd, 1, 2, 3, 4]

/-- Example salt with the leading chunk of `saltA` and other bytes elsewhere. -/
def saltB : List Byte := [0xaa, 0xbb, 0x99, 0x99, 5, 6, 7, 8]

/-- Example 28-byte key: the salt `saltA`, then twenty bytes `05`. -/
def keyA : List Byte := saltA ++ List.replicate 20 5

/-- Example 28-byte key: as `keyA` in the first 20 bytes, different in the
last 8. -/
def keyB : List Byte := saltA ++ List.replicate 12 5 ++ List.replicate 8 9

/-! # Part 3: theorems -/

set_option maxRecDepth 100000

/-! ## Chunks of a digest -/

theorem idxs_isSome (P : Params) (d : List Byte) (i : Nat) (h : 2 * i + 1 < d.length) :
    ∃ idx, idxs P d i = some idx := by
  unfold idxs
  have h0 : 2 * i < d.length := by omega
  rw [List.getElem?_eq_getElem h0, List.getElem?_eq_getElem h]
  by_cases hb : P.bigEndian <;> simp [hb]

theorem idxs_eq_bytes (P : Params) (d e : List Byte) (i : Nat)
    (hd : 2 * i + 1 < d.length) (he : 2 * i + 1 < e.length)
    (h : idxs P d i = idxs P e i) :
    d[2 * i]? = e[2 * i]? ∧ d[2 * i + 1]? = e[2 * i + 1]? := by
  unfold idxs at h
  have hd0 : 2 * i < d.length := by omega
  have he0 : 2 * i < e.length := by omega
  rw [List.getElem?_eq_getElem hd0, List.getElem?_eq_getElem hd, List.getElem?_eq_getElem he0,
    List.getElem?_eq_getElem he] at h
  rw [List.getElem?_eq_getElem hd0, List.getElem?_eq_getElem hd, List.getElem?_eq_getElem he0,
    List.getElem?_eq_getElem he]
  have b0 := (d[2 * i]).isLt
  have b1 := (d[2 * i + 1]).isLt
  have c0 := (e[2 * i]).isLt
  have c1 := (e[2 * i + 1]).isLt
  by_cases hb : P.bigEndian
  · simp only [hb, if_true, Option.some.injEq, Fin.mk.injEq] at h
    constructor
    · congr 1; apply Fin.ext; omega
    · congr 1; apply Fin.ext; omega
  · simp only [hb, Bool.false_eq_true, if_false, Option.some.injEq, Fin.mk.injEq] at h
    constructor
    · congr 1; apply Fin.ext; omega
    · congr 1; apply Fin.ext; omega

/-- Two digests of `n` chunks with the same chunks are the same digest. -/
theorem eq_of_idxs_eq (P : Params) (n : Nat) (d e : List Byte)
    (hd : d.length = 2 * n) (he : e.length = 2 * n)
    (h : ∀ i, i < n → idxs P d i = idxs P e i) : d = e := by
  apply List.ext_getElem?
  intro k
  by_cases hk : k < 2 * n
  · have hi : k / 2 < n := by omega
    have hb := idxs_eq_bytes P d e (k / 2) (by omega) (by omega) (h _ hi)
    rcases Nat.mod_two_eq_zero_or_one k with h0 | h1
    · have : k = 2 * (k / 2) := by omega
      rw [this]; exact hb.1
    · have : k = 2 * (k / 2) + 1 := by omega
      rw [this]; exact hb.2
  · rw [List.getElem?_eq_none (by omega), List.getElem?_eq_none (by omega)]

/-- The last element of a path. -/
theorem path_last (path : List idx_t) (j : idx_t) : (path ++ [j])[path.length]? = some j := by
  simp

theorem path_init (path : List idx_t) (j : idx_t) (k : Nat) (h : k < path.length) :
    (path ++ [j])[k]? = path[k]? := List.getElem?_append_left h

/-! ## Name arrays -/

theorem takeWhile_some_append (ns : List Name) (r : List (Option Name)) :
    (ns.map some ++ none :: r).takeWhile (fun c => c.isSome) = ns.map some := by
  induction ns with
  | nil => simp
  | cons a t ih => simp [ih]

theorem filterMap_id_map_some (ns : List Name) : (ns.map some).filterMap id = ns := by
  induction ns with
  | nil => rfl
  | cons a t ih => simp [ih]

theorem namesOf_wf (ns : List Name) (k : Nat) :
    namesOf (ns.map some ++ List.replicate (k + 1) none) = ns := by
  unfold namesOf
  rw [List.replicate_succ, takeWhile_some_append, filterMap_id_map_some]

theorem scanNull_wf (ns : List Name) (r : List (Option Name)) :
    scanNull (ns.map some ++ none :: r) = ns.length := by
  unfold scanNull
  induction ns with
  | nil => simp [List.findIdx_cons]
  | cons a t ih => simp [List.findIdx_cons, ih]

theorem set_at_terminator (ns : List Name) (r : List (Option Name)) (x : Name) :
    (ns.map some ++ none :: r).set ns.length (some x) = (ns ++ [x]).map some ++ r := by
  induction ns with
  | nil => simp
  | cons a t ih => simp [ih]

/-- On a leaf with the same digest `pwentadd` appends the name: the array
stays well formed and holds one more name. -/
theorem pwentadd_leaf_same (P : Params) (hA : 1 ≤ P.ALLOC) (names : List (Option Name))
    (namesz : Nat) (d dig : List Byte) (x : Name) (hwf : NamesWF names namesz)
    (heq : d.take P.DIGSZ = dig.take P.DIGSZ) :
    ∃ names1 namesz1, pwentadd P (pwent.leaf names namesz d) x dig =
        some (pwent.leaf names1 namesz1 d) ∧
      NamesWF names1 namesz1 ∧ namesOf names1 = namesOf names ++ [x] := by
  obtain ⟨hz, ns, k, hne, rfl⟩ := hwf
  have hs : scanNull (ns.map some ++ List.replicate (k + 1) none) = ns.length := by
    rw [List.replicate_succ]; exact scanNull_wf ns _
  have hlen : namesz = ns.length + (k + 1) := by simp [hz]
  have hne1 : ns ++ [x] ≠ [] := by simp
  unfold pwentadd
  simp only [if_pos heq, hs]
  by_cases hc : ns.length ≥ namesz - 1
  · have hk : k = 0 := by omega
    subst hk
    obtain ⟨a, ha⟩ : ∃ a, P.ALLOC = a + 1 := ⟨P.ALLOC - 1, by omega⟩
    have hset : ((ns.map some ++ List.replicate (0 + 1) none) ++ List.replicate P.ALLOC none).set
        ns.length (some x) = (ns ++ [x]).map some ++ List.replicate (a + 1) none := by
      rw [ha]
      simp only [List.replicate_succ, List.replicate_zero, List.append_assoc, List.cons_append,
        List.nil_append]
      rw [set_at_terminator]
    rw [if_pos hc, hset]
    refine ⟨_, _, rfl, ⟨?_, ns ++ [x], a, hne1, rfl⟩, ?_⟩
    · simp [hlen, ha]; omega
    · rw [namesOf_wf, namesOf_wf]
  · obtain ⟨k0, rfl⟩ : ∃ k0, k = k0 + 1 := ⟨k - 1, by omega⟩
    have hset : (ns.map some ++ List.replicate (k0 + 1 + 1) none).set ns.length (some x) =
        (ns ++ [x]).map some ++ List.replicate (k0 + 1) none := by
      rw [List.replicate_succ, set_at_terminator]
    rw [if_neg hc, hset]
    refine ⟨_, _, rfl, ⟨?_, ns ++ [x], k0, hne1, rfl⟩, ?_⟩
    · simp [hlen]
    · rw [namesOf_wf, namesOf_wf]

/-- In an empty slot `pwentadd` creates a leaf that holds the one name. -/
theorem pwentadd_null (P : Params) (hA : 2 ≤ P.ALLOC) (dig : List Byte) (x : Name) :
    ∃ names1, pwentadd P pwent.null x dig =
        some (pwent.leaf names1 P.ALLOC (dig.take P.DIGSZ)) ∧
      NamesWF names1 P.ALLOC ∧ namesOf names1 = [x] := by
  obtain ⟨a, ha⟩ : ∃ a, P.ALLOC = a + 1 + 1 := ⟨P.ALLOC - 2, by omega⟩
  have hset : (List.replicate P.ALLOC (none : Option Name)).set 0 (some x) =
      [x].map some ++ List.replicate (a + 1) none := by
    rw [ha]; simp [List.replicate_succ]
  unfold pwentadd
  rw [hset]
  refine ⟨_, rfl, ⟨?_, [x], a, by simp, rfl⟩, ?_⟩
  · simp [ha]
  · rw [namesOf_wf]

/-! ## Lookups in an updated table -/

theorem foundEnt_null (P : Params) (q : List Byte) (i : Nat) :
    foundEnt P q pwent.null i = some none := rfl

theorem foundEnt_leaf (P : Params) (q : List Byte) (i : Nat) (names : List (Option Name))
    (namesz : Nat) (d : List Byte) :
    foundEnt P q (pwent.leaf names namesz d) i =
      some (if d.take P.DIGSZ = q.take P.DIGSZ then some (namesOf names) else none) := by
  unfold foundEnt pwchk_loop
  by_cases h : d.take P.DIGSZ = q.take P.DIGSZ <;> simp [h]

theorem found_eq (P : Params) (tab : Table) (i : Nat) (q : List Byte) :
    found P tab i q = (idxs P q i).bind fun idx => foundEnt P q (tab idx) i := by
  unfold found walkFrom foundEnt
  cases idxs P q i <;> rfl

theorem foundEnt_node (P : Params) (q : List Byte) (i : Nat) (next : Table)
    (names : List (Option Name)) (namesz : Nat) (d : List Byte) :
    foundEnt P q (pwent.node next names namesz d) i = found P next (i + 1) q := by
  rw [found_eq]
  unfold foundEnt
  rw [pwchk_loop]
  cases idxs P q (i + 1) <;> rfl

/-- Replacing one slot by an entry that answers `q` as the old one did
leaves the lookup of `q` unchanged. -/
theorem found_setSlot_frame (P : Params) (tab : Table) (idx : idx_t) (e : pwent) (i : Nat)
    (q : List Byte) (h : foundEnt P q e i = foundEnt P q (tab idx) i) :
    found P (setSlot tab idx e) i q = found P tab i q := by
  rw [found_eq, found_eq]
  cases hq : idxs P q i with
  | none => rfl
  | some iq =>
    simp only [Option.some_bind, setSlot]
    by_cases hj : iq = idx
    · rw [if_pos hj, h, hj]
    · rw [if_neg hj]

theorem found_setSlot_same (P : Params) (tab : Table) (idx : idx_t) (e : pwent) (i : Nat)
    (q : List Byte) (h : idxs P q i = some idx) :
    found P (setSlot tab idx e) i q = foundEnt P q e i := by
  rw [found_eq, h]
  simp [setSlot]

theorem found_at (P : Params) (tab : Table) (idx : idx_t) (i : Nat)
    (q : List Byte) (h : idxs P q i = some idx) :
    found P tab i q = foundEnt P q (tab idx) i := by
  rw [found_eq, h]; rfl

theorem tabInv_setSlot (P : Params) (tab : Table) (idx : idx_t) (e : pwent) (path : List idx_t)
    (ht : TabInv P tab path) (he : EntInv P e (path ++ [idx])) :
    TabInv P (setSlot tab idx e) path := by
  intro j
  unfold setSlot
  by_cases hj : j = idx
  · rw [if_pos hj, hj]; exact he
  · rw [if_neg hj]; exact ht j

theorem tabInv_empty (P : Params) (path : List idx_t) : TabInv P emptyTab path := by
  intro j
  simp [emptyTab, EntInv]

/-! ## One insertion -/

/-- Specification of the loop of `tabadd` at level `i`: it leaves the loop
by the successful add at a level below `IDXS_PER_DIG`, changes the slot
`idx` only, keeps the invariant, appends the name to the answer for `dig`
and changes no other answer. -/
theorem tabadd_loop_spec (P : Params) (hP : P.Valid) (name : Name) (dig : List Byte)
    (hd : dig.length = P.DIGSZ) :
    ∀ (fuel i : Nat) (idx : idx_t) (tab : Table) (path : List idx_t),
      fuel + i = P.IDXS_PER_DIG → 0 < fuel → path.length = i →
      idxs P dig i = some idx →
      (∀ k, k < i → idxs P dig k = path[k]?) →
      EntInv P (tab idx) (path ++ [idx]) →
      ∃ e k, tabadd_loop P name dig fuel i idx tab = some (setSlot tab idx e, k) ∧
        i ≤ k ∧ k < P.IDXS_PER_DIG ∧ EntInv P e (path ++ [idx]) ∧
        foundEnt P dig e i =
          some (some (((foundEnt P dig (tab idx) i).getD none).getD [] ++ [name])) ∧
        ∀ q, q.length = P.DIGSZ → q ≠ dig → foundEnt P q e i = foundEnt P q (tab idx) i := by
  intro fuel
  induction fuel with
  | zero => intro i idx tab path _ h0; omega
  | succ fuel ih =>
    intro i idx tab path hfi _ hpl hidx hpath hinv
    have hdigt : dig.take P.DIGSZ = dig := List.take_of_length_le (by omega)
    have hpath1 : ∀ k, k < (path ++ [idx]).length → idxs P dig k = (path ++ [idx])[k]? := by
      intro k hk
      rw [List.length_append, List.length_singleton] at hk
      by_cases hki : k < i
      · rw [hpath k hki, path_init path idx k (by omega)]
      · have : k = i := by omega
        subst this
        rw [hidx, ← hpl, path_last]
    rw [tabadd_loop]
    cases hslot : tab idx with
    | null =>
      obtain ⟨names1, hadd, hwf, hno⟩ := pwentadd_null P hP.2.2 dig name
      rw [hdigt] at hadd
      rw [hadd]
      refine ⟨_, i, rfl, le_refl _, by omega, ?_, ?_, ?_⟩
      · exact ⟨hd, hwf, hpath1⟩
      · rw [foundEnt_leaf, foundEnt_null, if_pos rfl, hno]; rfl
      · intro q hq hne
        rw [foundEnt_leaf, foundEnt_null, if_neg]
        intro h
        apply hne
        rw [List.take_of_length_le (by omega), List.take_of_length_le (by omega)] at h
        exact h.symm
    | leaf names namesz d =>
      rw [hslot] at hinv
      obtain ⟨hdl, hwf, hdp⟩ := hinv
      by_cases heq : d.take P.DIGSZ = dig.take P.DIGSZ
      · obtain ⟨names1, namesz1, hadd, hwf1, hno⟩ :=
          pwentadd_leaf_same P (by have := hP.2.2; omega) names namesz d dig name hwf heq
        rw [hadd]
        refine ⟨_, i, rfl, le_refl _, by omega, ⟨hdl, hwf1, hdp⟩, ?_, ?_⟩
        · rw [foundEnt_leaf, foundEnt_leaf, if_pos heq, if_pos heq, hno]; rfl
        · intro q _ _
          rw [foundEnt_leaf, foundEnt_leaf]
          by_cases hq : d.take P.DIGSZ = q.take P.DIGSZ
          · rw [if_pos hq, if_pos hq]
            exfalso
            rename_i hql hqne
            apply hqne
            have := hq.symm.trans heq
            rwa [List.take_of_length_le (by omega), List.take_of_length_le (by omega)] at this
          · rw [if_neg hq, if_neg hq]
      · have hadd : pwentadd P (pwent.leaf names namesz d) name dig = none := by
          simp only [pwentadd, if_neg heq]
        have hne : d ≠ dig := fun h => heq (by rw [h])
        have hlt : i + 1 < P.IDXS_PER_DIG := by
          by_contra hcon
          apply hne
          apply eq_of_idxs_eq P P.IDXS_PER_DIG d dig (by rw [hdl, hP.1]) (by rw [hd, hP.1])
          intro k hk
          have hk1 : k < (path ++ [idx]).length := by
            rw [List.length_append, List.length_singleton]; omega
          rw [hdp k hk1, hpath1 k hk1]
        obtain ⟨j, hj⟩ := idxs_isSome P d (i + 1) (by rw [hdl, hP.1]; omega)
        obtain ⟨idx1, hidx1⟩ := idxs_isSome P dig (i + 1) (by rw [hd, hP.1]; omega)
        have hdt : d.take P.DIGSZ = d := List.take_of_length_le (by omega)
        rw [hadd]
        simp only [hj, hidx1, Option.some_bind, hdt]
        have hnext : EntInv P
            (setSlot emptyTab j (pwent.leaf names namesz d) idx1) ((path ++ [idx]) ++ [idx1]) := by
          unfold setSlot
          by_cases h1 : idx1 = j
          · rw [if_pos h1]
            refine ⟨hdl, hwf, ?_⟩
            intro k hk
            simp only [List.length_append, List.length_singleton] at hk
            have hl : (path ++ [idx]).length = i + 1 := by simp [hpl]
            by_cases hki : k < i + 1
            · rw [hdp k (by omega), path_init _ idx1 k (by omega)]
            · have : k = (path ++ [idx]).length := by omega
              subst this
              rw [hl, hj, h1, ← hl, path_last]
          · rw [if_neg h1]; trivial
        obtain ⟨e1, k, hrun, hik, hk, hinv1, hsame, hframe⟩ :=
          ih (i + 1) idx1 (setSlot emptyTab j (pwent.leaf names namesz d)) (path ++ [idx])
            (by omega) (by omega) (by simp [hpl]) hidx1
            (by intro k hk; exact hpath1 k (by simp; omega)) hnext
        rw [hrun]
        have hsameE : foundEnt P dig
            (pwent.node (setSlot (setSlot emptyTab j (pwent.leaf names namesz d)) idx1 e1)
              names namesz d) i = some (some ([] ++ [name])) := by
          rw [foundEnt_node, found_setSlot_same P _ idx1 e1 (i + 1) dig hidx1, hsame]
          have h1 : foundEnt P dig (setSlot emptyTab j (pwent.leaf names namesz d) idx1) (i + 1)
              = some none := by
            unfold setSlot
            by_cases h1 : idx1 = j
            · rw [if_pos h1, foundEnt_leaf, if_neg heq]
            · rw [if_neg h1]; rfl
          rw [h1]; rfl
        have hframeE : ∀ q : List Byte, q.length = P.DIGSZ → q ≠ dig → foundEnt P q
            (pwent.node (setSlot (setSlot emptyTab j (pwent.leaf names namesz d)) idx1 e1)
              names namesz d) i = foundEnt P q (pwent.leaf names namesz d) i := by
          intro q hq hqne
          rw [foundEnt_node, found_setSlot_frame P _ idx1 e1 (i + 1) q (hframe q hq hqne)]
          obtain ⟨iq, hiq⟩ := idxs_isSome P q (i + 1) (by rw [hq, hP.1]; omega)
          rw [found_at P _ iq (i + 1) q hiq, foundEnt_leaf]
          unfold setSlot
          by_cases hdq : d.take P.DIGSZ = q.take P.DIGSZ
          · have hdq1 : d = q := by
              rwa [List.take_of_length_le (by omega), List.take_of_length_le (by omega)] at hdq
            have : iq = j := by
              rw [hdq1, hiq] at hj
              exact Option.some.inj hj
            rw [if_pos this, foundEnt_leaf]
          · by_cases h2 : iq = j
            · rw [if_pos h2, foundEnt_leaf]
            · rw [if_neg h2, if_neg hdq]; rfl
        have hli : (path ++ [idx]).length - 1 = i := by simp [hpl]
        refine ⟨_, k, rfl, by omega, hk, ?_, ?_, hframeE⟩
        · refine ⟨by simp [hpl]; omega, ?_, d, dig, hne, ⟨hdl, hdp, ?_⟩, ⟨hd, hpath1, ?_⟩⟩
          rotate_left
          · rw [hli, hframeE d hdl hne, foundEnt_leaf, if_pos rfl]; exact ⟨_, rfl⟩
          · rw [hli, hsameE]; exact ⟨_, rfl⟩
          intro j1
          exact tabInv_setSlot P _ idx1 e1 (path ++ [idx])
            (tabInv_setSlot P emptyTab j (pwent.leaf names namesz d) (path ++ [idx])
              (tabInv_empty P _)
              (show EntInv P (pwent.leaf names namesz d) (path ++ [idx] ++ [j]) from ⟨hdl, hwf, by
                intro k hk
                simp only [List.length_append, List.length_singleton] at hk
                have hl : (path ++ [idx]).length = i + 1 := by simp [hpl]
                by_cases hki : k < i + 1
                · rw [hdp k (by omega), path_init _ j k (by omega)]
                · have : k = (path ++ [idx]).length := by omega
                  subst this
                  rw [hl, hj, ← hl, path_last]⟩)) hinv1 j1
        · rw [hsameE, foundEnt_leaf, if_neg heq]; rfl
    | node next names namesz d =>
      rw [hslot] at hinv
      obtain ⟨hlen, hsub, a, b, hab, hua, hub⟩ := hinv
      have hlt : i + 1 < P.IDXS_PER_DIG := by
        rw [List.length_append, List.length_singleton, hpl] at hlen; exact hlen
      obtain ⟨idx1, hidx1⟩ := idxs_isSome P dig (i + 1) (by rw [hd, hP.1]; omega)
      have hadd : pwentadd P (pwent.node next names namesz d) name dig = none := rfl
      rw [hadd]
      simp only [hidx1, Option.some_bind]
      obtain ⟨e1, k, hrun, hik, hk, hinv1, hsame, hframe⟩ :=
        ih (i + 1) idx1 next (path ++ [idx]) (by omega) (by omega) (by simp [hpl]) hidx1
          (by intro k hk; exact hpath1 k (by simp; omega)) (hsub idx1)
      rw [hrun]
      have hsameE : foundEnt P dig (pwent.node (setSlot next idx1 e1) names namesz d) i =
          some (some (((foundEnt P dig (pwent.node next names namesz d) i).getD none).getD []
            ++ [name])) := by
        rw [foundEnt_node, found_setSlot_same P _ idx1 e1 (i + 1) dig hidx1, hsame,
          foundEnt_node, found_at P next idx1 (i + 1) dig hidx1]
      have hframeE : ∀ q : List Byte, q.length = P.DIGSZ → q ≠ dig →
          foundEnt P q (pwent.node (setSlot next idx1 e1) names namesz d) i =
            foundEnt P q (pwent.node next names namesz d) i := by
        intro q hq hqne
        rw [foundEnt_node, foundEnt_node,
          found_setSlot_frame P _ idx1 e1 (i + 1) q (hframe q hq hqne)]
      have hli : (path ++ [idx]).length - 1 = i := by simp [hpl]
      have hkeep : ∀ w : List Byte, Under P w (path ++ [idx]) (pwent.node next names namesz d) →
          Under P w (path ++ [idx]) (pwent.node (setSlot next idx1 e1) names namesz d) := by
        intro w hw
        obtain ⟨hwl, hwp, l, hwf⟩ := hw
        refine ⟨hwl, hwp, ?_⟩
        rw [hli] at hwf ⊢
        by_cases hwd : w = dig
        · rw [hwd, hsameE]; exact ⟨_, rfl⟩
        · rw [hframeE w hwl hwd, hwf]; exact ⟨_, rfl⟩
      refine ⟨_, k, rfl, by omega, hk, ?_, hsameE, hframeE⟩
      exact ⟨hlen, fun j1 => tabInv_setSlot P next idx1 e1 (path ++ [idx]) hsub hinv1 j1,
        a, b, hab, hkeep a hua, hkeep b hub⟩

/-! ## `tabadd`, the walk of `pwchk`, and `parse_passwd` -/

theorem valid_hashcrack_c (be : Bool) : (hashcrack_c be).Valid := by
  refine ⟨rfl, ?_, ?_⟩ <;> simp [hashcrack_c]

theorem valid_salt_c (be : Bool) : (salt_c be).Valid := by
  refine ⟨rfl, ?_, ?_⟩ <;> simp [salt_c]

/-- A chunk at or beyond `IDXS_PER_DIG` lies outside a full-width digest. -/
theorem idxs_none_of_le (P : Params) (hP : P.Valid) (d : List Byte) (hd : d.length = P.DIGSZ)
    (i : Nat) (hi : P.IDXS_PER_DIG ≤ i) : idxs P d i = none := by
  unfold idxs
  have h1 : d[2 * i + 1]? = none := List.getElem?_eq_none (by rw [hd, hP.1]; omega)
  rw [h1]
  cases d[2 * i]? <;> rfl

/-- Specification of `tabadd` on a table that satisfies the invariant. -/
theorem tabadd_spec (P : Params) (hP : P.Valid) (tab : Table) (dig : List Byte) (name : Name)
    (hd : dig.length = P.DIGSZ) (hinv : TabInv P tab []) :
    ∃ tab1 k, tabadd P tab dig name = some (tab1, k) ∧ k < P.IDXS_PER_DIG ∧
      TabInv P tab1 [] ∧
      found P tab1 0 dig = some (some (((found P tab 0 dig).getD none).getD [] ++ [name])) ∧
      ∀ q, q.length = P.DIGSZ → q ≠ dig → found P tab1 0 q = found P tab 0 q := by
  obtain ⟨idx, hidx⟩ := idxs_isSome P dig 0 (by rw [hd, hP.1]; have := hP.2.1; omega)
  obtain ⟨e, k, hrun, _, hk, hinv1, hsame, hframe⟩ :=
    tabadd_loop_spec P hP name dig hd P.IDXS_PER_DIG 0 idx tab [] (by omega) hP.2.1 rfl hidx
      (by intro k hk; omega) (hinv idx)
  refine ⟨setSlot tab idx e, k, ?_, hk, tabInv_setSlot P tab idx e [] hinv hinv1, ?_, ?_⟩
  · unfold tabadd; rw [hidx]; exact hrun
  · rw [found_setSlot_same P tab idx e 0 dig hidx, hsame, found_at P tab idx 0 dig hidx]
  · intro q hq hne
    exact found_setSlot_frame P tab idx e 0 q (hframe q hq hne)

/-- On a slot that satisfies the invariant the walk of `pwchk` ends, at a
level below `IDXS_PER_DIG`, having read only chunks of the digest. -/
theorem pwchk_loop_bound (P : Params) (hP : P.Valid) (q : List Byte) (hq : q.length = P.DIGSZ)
    (e : pwent) :
    ∀ (i : Nat) (path : List idx_t), path.length = i + 1 → i < P.IDXS_PER_DIG →
      EntInv P e path → ∃ r k, pwchk_loop P q e i = some (r, k) ∧ i ≤ k ∧ k < P.IDXS_PER_DIG := by
  induction e with
  | null => intro i path _ hi _; exact ⟨none, i, rfl, le_refl _, hi⟩
  | leaf names namesz d => intro i path _ hi _; exact ⟨_, i, rfl, le_refl _, hi⟩
  | node next names namesz d ih =>
    intro i path hpl hi hinv
    obtain ⟨hlen, hsub, _⟩ := hinv
    obtain ⟨idx, hidx⟩ := idxs_isSome P q (i + 1) (by rw [hq, hP.1]; omega)
    obtain ⟨r, k, hrun, hik, hk⟩ := ih idx (i + 1) (path ++ [idx]) (by simp [hpl]) (by omega)
      (hsub idx)
    refine ⟨r, k, ?_, by omega, hk⟩
    rw [pwchk_loop, hidx]; exact hrun

theorem pwchk_walk_bound (P : Params) (hP : P.Valid) (tab : Table) (hinv : TabInv P tab [])
    (q : List Byte) (hq : q.length = P.DIGSZ) :
    ∃ r k, pwchk_walk P tab q = some (r, k) ∧ k < P.IDXS_PER_DIG := by
  obtain ⟨idx, hidx⟩ := idxs_isSome P q 0 (by rw [hq, hP.1]; have := hP.2.1; omega)
  obtain ⟨r, k, hrun, _, hk⟩ := pwchk_loop_bound P hP q hq (tab idx) 0 [idx] rfl hP.2.1 (hinv idx)
  refine ⟨r, k, ?_, hk⟩
  unfold pwchk_walk walkFrom; rw [hidx]; exact hrun

theorem inserted_append (ops : List (List Byte × Name)) (d : List Byte) (n : Name)
    (q : List Byte) :
    inserted (ops ++ [(d, n)]) q = if d = q then inserted ops q ++ [n] else inserted ops q := by
  unfold inserted
  by_cases h : d = q <;> simp [List.filter_append, List.filter_cons, h]

theorem optList_getD (l : List Name) : ((some (optList l)).getD none).getD [] = l := by
  unfold optList
  by_cases h : l = [] <;> simp [h]

/-- Loading records keeps the invariant and makes every lookup answer with
the names stored under the digest asked for. -/
theorem load_spec (P : Params) (hP : P.Valid) :
    ∀ (rs ops0 : List (List Byte × Name)) (tab : Table),
      TabInv P tab [] →
      (∀ q, q.length = P.DIGSZ → found P tab 0 q = some (optList (inserted ops0 q))) →
      (∀ r ∈ rs, r.1.length = P.DIGSZ) →
      ∃ tab1, parse_passwd P tab rs = some tab1 ∧ TabInv P tab1 [] ∧
        ∀ q, q.length = P.DIGSZ → found P tab1 0 q = some (optList (inserted (ops0 ++ rs) q)) := by
  intro rs
  induction rs with
  | nil =>
    intro ops0 tab hinv hf _
    exact ⟨tab, rfl, hinv, by simpa using hf⟩
  | cons r rs ih =>
    intro ops0 tab hinv hf hrs
    have hr : r.1.length = P.DIGSZ := hrs r (List.mem_cons_self _ _)
    obtain ⟨tab1, k, hadd, _, hinv1, hsame, hframe⟩ := tabadd_spec P hP tab r.1 r.2 hr hinv
    have hf1 : ∀ q, q.length = P.DIGSZ →
        found P tab1 0 q = some (optList (inserted (ops0 ++ [r]) q)) := by
      intro q hq
      have hre : r = (r.1, r.2) := rfl
      rw [hre, inserted_append]
      by_cases hqr : r.1 = q
      · rw [if_pos hqr, ← hqr, hsame, hf r.1 hr, optList_getD]
        simp [optList]
      · rw [if_neg hqr, hframe q hq (fun h => hqr h.symm), hf q hq]
    obtain ⟨tab2, hl, hinv2, hf2⟩ := ih (ops0 ++ [r]) tab1 hinv1 hf1
      (fun x hx => hrs x (List.mem_cons_of_mem _ hx))
    refine ⟨tab2, ?_, hinv2, ?_⟩
    · rw [parse_passwd, hadd]; exact hl
    · intro q hq
      have := hf2 q hq
      rwa [List.append_assoc, List.singleton_append] at this

theorem found_empty (P : Params) (hP : P.Valid) (q : List Byte) (hq : q.length = P.DIGSZ) :
    found P emptyTab 0 q = some none := by
  obtain ⟨idx, hidx⟩ := idxs_isSome P q 0 (by rw [hq, hP.1]; have := hP.2.1; omega)
  rw [found_at P emptyTab idx 0 q hidx]; rfl

/-- Every reachable table satisfies the invariant. -/
theorem reachable_inv (P : Params) (hP : P.Valid) (tab : Table) (h : Reachable P tab) :
    TabInv P tab [] := by
  obtain ⟨ops, hops, hl⟩ := h
  obtain ⟨tab1, hl1, hinv, _⟩ := load_spec P hP ops [] emptyTab (tabInv_empty P [])
    (fun q hq => by rw [found_empty P hP q hq]; rfl) hops
  rw [hl] at hl1
  cases hl1
  exact hinv

/-- C1: for every finite sequence of insertions of 20-byte digests into the
empty index the loading succeeds, and the walk of `pwchk` on any 20-byte
digest `d` returns the names stored under `d`, in insertion order, or
`NULL` when nothing was stored under `d`. -/
theorem C1_lookup_after_inserts (be : Bool) (ops : List (List Byte × Name))
    (hops : ∀ op ∈ ops, op.1.length = 20) :
    ∃ tab, parse_passwd (hashcrack_c be) emptyTab ops = some tab ∧
      ∀ d : List Byte, d.length = 20 →
        (pwchk_walk (hashcrack_c be) tab d).map (fun r => r.1.map namesOf) =
          some (if inserted ops d = [] then none else some (inserted ops d)) := by
  obtain ⟨tab, hl, _, hf⟩ := load_spec (hashcrack_c be) (valid_hashcrack_c be) ops [] emptyTab
    (tabInv_empty _ []) (fun q hq => by rw [found_empty _ (valid_hashcrack_c be) q hq]; rfl) hops
  refine ⟨tab, hl, ?_⟩
  intro d hd
  have := hf d hd
  rw [List.nil_append] at this
  exact this

/-- Three insertions under two digests that differ in the last byte. -/
theorem C1_lookup_after_inserts_witness :
    (∀ op ∈ [(List.replicate 20 (1 : Byte), str "ann"), (List.replicate 19 1 ++ [2], str "bob"),
        (List.replicate 20 (1 : Byte), str "cy")], op.1.length = 20) ∧
    ∃ tab, parse_passwd (hashcrack_c false) emptyTab
        [(List.replicate 20 (1 : Byte), str "ann"), (List.replicate 19 1 ++ [2], str "bob"),
          (List.replicate 20 (1 : Byte), str "cy")] = some tab ∧
      ∀ d : List Byte, d.length = 20 →
        (pwchk_walk (hashcrack_c false) tab d).map (fun r => r.1.map namesOf) =
          some (if inserted [(List.replicate 20 (1 : Byte), str "ann"),
              (List.replicate 19 1 ++ [2], str "bob"),
              (List.replicate 20 (1 : Byte), str "cy")] d = [] then none
            else some (inserted [(List.replicate 20 (1 : Byte), str "ann"),
              (List.replicate 19 1 ++ [2], str "bob"),
              (List.replicate 20 (1 : Byte), str "cy")] d)) :=
  ⟨by decide, C1_lookup_after_inserts false _ (by decide)⟩

/-! ## Depth bound and duplicate insertions -/

/-- A `names` array returned by the walk of `pwchk` is well formed. -/
theorem pwchk_loop_wf (P : Params) (q : List Byte) (e : pwent) :
    ∀ (i : Nat) (path : List idx_t) (arr : List (Option Name)) (k : Nat),
      EntInv P e path → pwchk_loop P q e i = some (some arr, k) →
      ∃ namesz, NamesWF arr namesz := by
  induction e with
  | null => intro i path arr k _ h; simp [pwchk_loop] at h
  | leaf names namesz d =>
    intro i path arr k hinv h
    rw [pwchk_loop] at h
    by_cases hc : d.take P.DIGSZ = q.take P.DIGSZ
    · simp only [if_pos hc, Option.some.injEq, Prod.mk.injEq] at h
      obtain ⟨h1, _⟩ := h
      subst h1
      exact ⟨namesz, hinv.2.1⟩
    · simp [if_neg hc] at h
  | node next names namesz d ih =>
    intro i path arr k hinv h
    rw [pwchk_loop] at h
    cases hidx : idxs P q (i + 1) with
    | none => simp [hidx] at h
    | some idx =>
      rw [hidx] at h
      exact ih idx (i + 1) (path ++ [idx]) arr k (hinv.2.1 idx) h

theorem pwchk_walk_wf (P : Params) (tab : Table) (hinv : TabInv P tab []) (q : List Byte)
    (arr : List (Option Name)) (k : Nat) (h : pwchk_walk P tab q = some (some arr, k)) :
    ∃ namesz, NamesWF arr namesz := by
  unfold pwchk_walk walkFrom at h
  cases hidx : idxs P q 0 with
  | none => simp [hidx] at h
  | some idx =>
    rw [hidx] at h
    exact pwchk_loop_wf P q (tab idx) 0 ([] ++ [idx]) arr k (hinv idx) h

/-- Loading from the empty table: success, invariant and answers. -/
theorem load_empty_spec (P : Params) (hP : P.Valid) (ops : List (List Byte × Name))
    (hops : ∀ op ∈ ops, op.1.length = P.DIGSZ) :
    ∃ tab, parse_passwd P emptyTab ops = some tab ∧ TabInv P tab [] ∧
      ∀ q, q.length = P.DIGSZ → found P tab 0 q = some (optList (inserted ops q)) := by
  obtain ⟨tab, hl, hinv, hf⟩ := load_spec P hP ops [] emptyTab (tabInv_empty P [])
    (fun q hq => by rw [found_empty P hP q hq]; rfl) hops
  exact ⟨tab, hl, hinv, by simpa using hf⟩

/-- C6: for either program, after any sequence of insertions of full-width
digests into the empty index (which all succeed), a further `tabadd` of a
full-width digest leaves its loop by the successful add at a level
`i < IDXS_PER_DIG`, every walk of `pwchk` on a full-width digest ends at a
level `k` with `k + 1 ≤ IDXS_PER_DIG` chunks read, and neither reads a
chunk at an index `≥ IDXS_PER_DIG` (such a read makes the embedded
functions return `none`). -/
theorem C6_depth_bound (be : Bool) (P : Params) (hP : P = hashcrack_c be ∨ P = salt_c be)
    (ops : List (List Byte × Name)) (hops : ∀ op ∈ ops, op.1.length = P.DIGSZ) :
    ∃ tab, parse_passwd P emptyTab ops = some tab ∧
      (∀ (dig : List Byte) (name : Name), dig.length = P.DIGSZ →
        ∃ tab1 i, tabadd P tab dig name = some (tab1, i) ∧ i < P.IDXS_PER_DIG) ∧
      (∀ q : List Byte, q.length = P.DIGSZ →
        ∃ r k, pwchk_walk P tab q = some (r, k) ∧ k + 1 ≤ P.IDXS_PER_DIG) ∧
      (∀ (d : List Byte) (i : Nat), d.length = P.DIGSZ → P.IDXS_PER_DIG ≤ i →
        idxs P d i = none) := by
  have hV : P.Valid := by
    rcases hP with h | h
    · rw [h]; exact valid_hashcrack_c be
    · rw [h]; exact valid_salt_c be
  obtain ⟨tab, hl, hinv, _⟩ := load_empty_spec P hV ops hops
  refine ⟨tab, hl, ?_, ?_, ?_⟩
  · intro dig name hd
    obtain ⟨tab1, i, hadd, hi, _⟩ := tabadd_spec P hV tab dig name hd hinv
    exact ⟨tab1, i, hadd, hi⟩
  · intro q hq
    obtain ⟨r, k, hw, hk⟩ := pwchk_walk_bound P hV tab hinv q hq
    exact ⟨r, k, hw, hk⟩
  · intro d i hd hi
    exact idxs_none_of_le P hV d hd i hi

/-- Two salted records whose 28-byte keys differ only in the last chunk. -/
theorem C6_depth_bound_witness :
    (salt_c true = hashcrack_c true ∨ salt_c true = salt_c true) ∧
    (∀ op ∈ [(List.replicate 28 (7 : Byte), str "ann"), (List.replicate 27 7 ++ [8], str "bob")],
      op.1.length = (salt_c true).DIGSZ) ∧
    ∃ tab, parse_passwd (salt_c true) emptyTab
        [(List.replicate 28 (7 : Byte), str "ann"), (List.replicate 27 7 ++ [8], str "bob")]
          = some tab ∧
      (∀ (dig : List Byte) (name : Name), dig.length = (salt_c true).DIGSZ →
        ∃ tab1 i, tabadd (salt_c true) tab dig name = some (tab1, i) ∧
          i < (salt_c true).IDXS_PER_DIG) ∧
      (∀ q : List Byte, q.length = (salt_c true).DIGSZ →
        ∃ r k, pwchk_walk (salt_c true) tab q = some (r, k) ∧
          k + 1 ≤ (salt_c true).IDXS_PER_DIG) ∧
      (∀ (d : List Byte) (i : Nat), d.length = (salt_c true).DIGSZ →
        (salt_c true).IDXS_PER_DIG ≤ i → idxs (salt_c true) d i = none) :=
  ⟨Or.inr rfl, by decide, C6_depth_bound true (salt_c true) (Or.inr rfl) _ (by decide)⟩

theorem inserted_append_list (ops rs : List (List Byte × Name)) (q : List Byte) :
    inserted (ops ++ rs) q = inserted ops q ++ inserted rs q := by
  simp [inserted, List.filter_append]

theorem inserted_replicate_same (d : List Byte) (n : Name) (m : Nat) :
    inserted (List.replicate m (d, n)) d = List.replicate m n := by
  induction m with
  | zero => rfl
  | succ m ih =>
    rw [List.replicate_succ, List.replicate_succ]
    simp only [inserted, List.filter_cons, decide_True, if_true, List.map_cons] at ih ⊢
    rw [ih]

theorem inserted_replicate_other (d q : List Byte) (n : Name) (m : Nat) (h : d ≠ q) :
    inserted (List.replicate m (d, n)) q = [] := by
  induction m with
  | zero => rfl
  | succ m ih =>
    rw [List.replicate_succ]
    simp only [inserted, List.filter_cons, h, decide_False, Bool.false_eq_true, if_false] at ih ⊢
    exact ih

/-- C7: `Insert` does not deduplicate and duplicates do not corrupt the
index.  After any insertions `ops`, inserting `(d, n)` another `m` times
succeeds; the names found for `d` are the earlier ones followed by `m`
copies of `n` (so `n` occurs exactly `m` more times), a returned `names`
array is still its names followed by at least one `NULL` cell, the index
satisfies the directory invariant, and every other digest is answered as
before. -/
theorem C7_duplicates (be : Bool) (ops : List (List Byte × Name))
    (hops : ∀ op ∈ ops, op.1.length = 20) (d : List Byte) (hd : d.length = 20)
    (n : Name) (m : Nat) :
    ∃ tab tab1 before after,
      parse_passwd (hashcrack_c be) emptyTab ops = some tab ∧
      parse_passwd (hashcrack_c be) tab (List.replicate m (d, n)) = some tab1 ∧
      (pwchk_walk (hashcrack_c be) tab d).map (fun r => r.1.map namesOf) = some (optList before) ∧
      (pwchk_walk (hashcrack_c be) tab1 d).map (fun r => r.1.map namesOf) = some (optList after) ∧
      after = before ++ List.replicate m n ∧
      after.count n = before.count n + m ∧
      (∀ arr k, pwchk_walk (hashcrack_c be) tab1 d = some (some arr, k) →
        ∃ ns z, ns ≠ [] ∧ arr = ns.map some ++ List.replicate (z + 1) none) ∧
      TabInv (hashcrack_c be) tab1 [] ∧
      ∀ q : List Byte, q.length = 20 → q ≠ d →
        (pwchk_walk (hashcrack_c be) tab1 q).map (fun r => r.1.map namesOf) =
          (pwchk_walk (hashcrack_c be) tab q).map (fun r => r.1.map namesOf) := by
  have hV := valid_hashcrack_c be
  obtain ⟨tab, hl, hinv, hf⟩ := load_empty_spec (hashcrack_c be) hV ops hops
  obtain ⟨tab1, hl1, hinv1, hf1⟩ := load_spec (hashcrack_c be) hV (List.replicate m (d, n)) ops
    tab hinv hf (by intro r hr; rw [(List.mem_replicate.1 hr).2]; exact hd)
  refine ⟨tab, tab1, inserted ops d, inserted ops d ++ List.replicate m n, hl, hl1, hf d hd, ?_,
    rfl, ?_, ?_, hinv1, ?_⟩
  · have := hf1 d hd
    rw [inserted_append_list, inserted_replicate_same] at this
    exact this
  · simp [List.count_append, List.count_replicate]
  · intro arr k hw
    obtain ⟨z, _, ns, k1, hne, harr⟩ := pwchk_walk_wf (hashcrack_c be) tab1 hinv1 d arr k hw
    exact ⟨ns, k1, hne, harr⟩
  · intro q hq hqd
    have h1 := hf1 q hq
    rw [inserted_append_list, inserted_replicate_other d q n m (fun h => hqd h.symm),
      List.append_nil] at h1
    exact h1.trans (hf q hq).symm

/-- The pair stored three more times under a digest that already has it. -/
theorem C7_duplicates_witness :
    (∀ op ∈ [(List.replicate 20 (1 : Byte), str "ann"), (List.replicate 19 1 ++ [2], str "bob")],
      op.1.length = 20) ∧ (List.replicate 20 (1 : Byte)).length = 20 ∧
    ∃ tab tab1 before after,
      parse_passwd (hashcrack_c false) emptyTab
        [(List.replicate 20 (1 : Byte), str "ann"), (List.replicate 19 1 ++ [2], str "bob")]
          = some tab ∧
      parse_passwd (hashcrack_c false) tab (List.replicate 3 (List.replicate 20 (1 : Byte), str "ann"))
        = some tab1 ∧
      (pwchk_walk (hashcrack_c false) tab (List.replicate 20 (1 : Byte))).map
        (fun r => r.1.map namesOf) = some (optList before) ∧
      (pwchk_walk (hashcrack_c false) tab1 (List.replicate 20 (1 : Byte))).map
        (fun r => r.1.map namesOf) = some (optList after) ∧
      after = before ++ List.replicate 3 (str "ann") ∧
      after.count (str "ann") = before.count (str "ann") + 3 ∧
      (∀ arr k, pwchk_walk (hashcrack_c false) tab1 (List.replicate 20 (1 : Byte))
          = some (some arr, k) →
        ∃ ns z, ns ≠ [] ∧ arr = ns.map some ++ List.replicate (z + 1) none) ∧
      TabInv (hashcrack_c false) tab1 [] ∧
      ∀ q : List Byte, q.length = 20 → q ≠ List.replicate 20 (1 : Byte) →
        (pwchk_walk (hashcrack_c false) tab1 q).map (fun r => r.1.map namesOf) =
          (pwchk_walk (hashcrack_c false) tab q).map (fun r => r.1.map namesOf) :=
  ⟨by decide, by decide,
    C7_duplicates false _ (by decide) (List.replicate 20 (1 : Byte)) (by decide) (str "ann") 3⟩

/-! ## Slots on the path of a digest -/

theorem foundEnt_via_slot (P : Params) (q : List Byte) :
    ∀ (n i : Nat) (e s : pwent), slotBelow P q n i e = some s →
      foundEnt P q e i = foundEnt P q s (i + n) := by
  intro n
  induction n with
  | zero => intro i e s h; simp only [slotBelow, Option.some.injEq] at h; rw [h]; rfl
  | succ n ih =>
    intro i e s h
    cases e with
    | null => simp [slotBelow] at h
    | leaf names namesz d => simp [slotBelow] at h
    | node next names namesz d =>
      rw [slotBelow] at h
      cases hidx : idxs P q (i + 1) with
      | none => simp [hidx] at h
      | some idx =>
        rw [hidx] at h
        rw [foundEnt_node, found_at P next idx (i + 1) q hidx, ih (i + 1) (next idx) s h]
        congr 1; omega

theorem slotBelow_congr (P : Params) (a b : List Byte) :
    ∀ (n i : Nat) (e : pwent), (∀ j, i < j → j ≤ i + n → idxs P a j = idxs P b j) →
      slotBelow P a n i e = slotBelow P b n i e := by
  intro n
  induction n with
  | zero => intro i e _; rfl
  | succ n ih =>
    intro i e h
    cases e with
    | null => rfl
    | leaf names namesz d => rfl
    | node next names namesz d =>
      rw [slotBelow, slotBelow, h (i + 1) (by omega) (by omega)]
      cases idxs P b (i + 1) with
      | none => rfl
      | some idx =>
        exact ih (i + 1) (next idx) (fun j h1 h2 => h j (by omega) (by omega))

/-- The slot reached by following a digest satisfies the invariant for the
path made of the chunks followed. -/
theorem slotBelow_inv (P : Params) (q : List Byte) :
    ∀ (n i : Nat) (e s : pwent) (path : List idx_t), path.length = i + 1 →
      EntInv P e path → slotBelow P q n i e = some s →
      ∃ path1, EntInv P s path1 ∧ path1.length = i + n + 1 ∧
        (∀ k, k < i + 1 → path1[k]? = path[k]?) ∧
        ∀ k, i + 1 ≤ k → k < i + n + 1 → path1[k]? = idxs P q k := by
  intro n
  induction n with
  | zero =>
    intro i e s path hpl hinv h
    simp only [slotBelow, Option.some.injEq] at h
    subst h
    exact ⟨path, hinv, by omega, fun _ _ => rfl, fun k h1 h2 => by omega⟩
  | succ n ih =>
    intro i e s path hpl hinv h
    cases e with
    | null => simp [slotBelow] at h
    | leaf names namesz d => simp [slotBelow] at h
    | node next names namesz d =>
      rw [slotBelow] at h
      cases hidx : idxs P q (i + 1) with
      | none => simp [hidx] at h
      | some idx =>
        rw [hidx] at h
        obtain ⟨path1, hinv1, hl1, hlow, hhigh⟩ :=
          ih (i + 1) (next idx) s (path ++ [idx]) (by simp [hpl]) (hinv.2.1 idx) h
        refine ⟨path1, hinv1, by omega, ?_, ?_⟩
        · intro k hk
          rw [hlow k (by omega), path_init path idx k (by omega)]
        · intro k h1 h2
          by_cases hk : k = i + 1
          · rw [hlow k (by omega), hk, ← hpl, path_last, hpl, hidx]
          · exact hhigh k (by omega) (by omega)

/-- Two different digests that are both found below a slot and agree on the
next `n` chunks share `n + 1` child directories and are both found below
the slots that follow. -/
theorem shared_path_nodes (P : Params) (d1 d2 : List Byte) (l1 l2 : List Name)
    (hne : d1.take P.DIGSZ ≠ d2.take P.DIGSZ) :
    ∀ (n i : Nat) (e : pwent),
      (∀ j, i < j → j ≤ i + n → idxs P d1 j = idxs P d2 j) →
      foundEnt P d1 e i = some (some l1) → foundEnt P d2 e i = some (some l2) →
      (∀ m, m ≤ n → ∃ next names namesz d,
        slotBelow P d1 m i e = some (pwent.node next names namesz d) ∧
        slotBelow P d2 m i e = some (pwent.node next names namesz d)) ∧
      ∃ s1 s2, slotBelow P d1 (n + 1) i e = some s1 ∧ slotBelow P d2 (n + 1) i e = some s2 ∧
        foundEnt P d1 s1 (i + n + 1) = some (some l1) ∧
        foundEnt P d2 s2 (i + n + 1) = some (some l2) := by
  have hnode : ∀ (i : Nat) (e : pwent), foundEnt P d1 e i = some (some l1) →
      foundEnt P d2 e i = some (some l2) →
      ∃ next names namesz d i1 i2, e = pwent.node next names namesz d ∧
        idxs P d1 (i + 1) = some i1 ∧ idxs P d2 (i + 1) = some i2 ∧
        foundEnt P d1 (next i1) (i + 1) = some (some l1) ∧
        foundEnt P d2 (next i2) (i + 1) = some (some l2) := by
    intro i e h1 h2
    cases e with
    | null => rw [foundEnt_null] at h1; cases h1
    | leaf names namesz d =>
      rw [foundEnt_leaf] at h1 h2
      by_cases c1 : d.take P.DIGSZ = d1.take P.DIGSZ
      · by_cases c2 : d.take P.DIGSZ = d2.take P.DIGSZ
        · exact absurd (c1.symm.trans c2) hne
        · rw [if_neg c2] at h2; cases h2
      · rw [if_neg c1] at h1; cases h1
    | node next names namesz d =>
      rw [foundEnt_node, found_eq] at h1 h2
      cases hi1 : idxs P d1 (i + 1) with
      | none => rw [hi1] at h1; cases h1
      | some i1 =>
        cases hi2 : idxs P d2 (i + 1) with
        | none => rw [hi2] at h2; cases h2
        | some i2 =>
          rw [hi1] at h1; rw [hi2] at h2
          exact ⟨next, names, namesz, d, i1, i2, rfl, rfl, rfl, h1, h2⟩
  intro n
  induction n with
  | zero =>
    intro i e _ h1 h2
    obtain ⟨next, names, namesz, d, i1, i2, he, hi1, hi2, hf1, hf2⟩ := hnode i e h1 h2
    subst he
    refine ⟨?_, next i1, next i2, ?_, ?_, hf1, hf2⟩
    · intro m hm
      have : m = 0 := by omega
      subst this
      exact ⟨next, names, namesz, d, rfl, rfl⟩
    · rw [slotBelow, hi1]; rfl
    · rw [slotBelow, hi2]; rfl
  | succ n ih =>
    intro i e hag h1 h2
    obtain ⟨next, names, namesz, d, i1, i2, he, hi1, hi2, hf1, hf2⟩ := hnode i e h1 h2
    subst he
    have hi12 : i1 = i2 := by
      have := hag (i + 1) (by omega) (by omega)
      rw [hi1, hi2] at this
      exact Option.some.inj this
    subst hi12
    obtain ⟨hA, s1, s2, hs1, hs2, hg1, hg2⟩ := ih (i + 1) (next i1)
      (fun j ha hb => hag j (by omega) (by omega)) hf1 hf2
    refine ⟨?_, s1, s2, ?_, ?_, ?_, ?_⟩
    · intro m hm
      cases m with
      | zero => exact ⟨next, names, namesz, d, rfl, rfl⟩
      | succ m =>
        obtain ⟨nx, nm, nz, dd, ha, hb⟩ := hA m (by omega)
        refine ⟨nx, nm, nz, dd, ?_, ?_⟩
        · rw [slotBelow, hi1]; exact ha
        · rw [slotBelow, hi2]; exact hb
    · rw [slotBelow, hi1]; exact hs1
    · rw [slotBelow, hi2]; exact hs2
    · rw [show i + (n + 1) + 1 = i + 1 + n + 1 by omega]; exact hg1
    · rw [show i + (n + 1) + 1 = i + 1 + n + 1 by omega]; exact hg2

theorem mem_of_inserted_ne_nil (ops : List (List Byte × Name)) (a : List Byte)
    (h : inserted ops a ≠ []) : a ∈ ops.map Prod.fst := by
  unfold inserted at h
  obtain ⟨x, hx⟩ := List.exists_mem_of_ne_nil _ h
  obtain ⟨op, hop, _⟩ := List.mem_map.1 hx
  have hm := List.mem_filter.1 hop
  have : op.1 = a := by simpa using hm.2
  exact List.mem_map.2 ⟨op, hm.1, this⟩

theorem inserted_ne_nil_of_mem (ops : List (List Byte × Name)) (a : List Byte)
    (h : a ∈ ops.map Prod.fst) : inserted ops a ≠ [] := by
  obtain ⟨op, hop, hfst⟩ := List.mem_map.1 h
  unfold inserted
  intro hnil
  have hmem : op ∈ ops.filter (fun op => op.1 = a) := List.mem_filter.2 ⟨hop, by simpa using hfst⟩
  have : op.2 ∈ (ops.filter (fun op => op.1 = a)).map (fun op => op.2) :=
    List.mem_map.2 ⟨op, hmem, rfl⟩
  rw [hnil] at this
  cases this

/-- A slot on the path of an inserted digest, below which the digest is
found, holds it in the sense of `StoredAt`. -/
theorem storedAt_of_found (P : Params) (ops : List (List Byte × Name))
    (tab : Table) (hinv : TabInv P tab [])
    (hf : ∀ q, q.length = P.DIGSZ → found P tab 0 q = some (optList (inserted ops q)))
    (d : List Byte) (hd : d.length = P.DIGSZ) (n : Nat) (s : pwent) (l : List Name)
    (hs : slotAt P tab d n = some s) (hfs : foundEnt P d s n = some (some l)) :
    StoredAt P ops n d s := by
  unfold slotAt at hs
  cases hidx : idxs P d 0 with
  | none => simp [hidx] at hs
  | some idx =>
    rw [hidx] at hs
    simp only [Option.some_bind] at hs
    obtain ⟨path1, hinv1, hl1, hlow, hhigh⟩ :=
      slotBelow_inv P d n 0 (tab idx) s [idx] rfl (hinv idx) hs
    have hpath : ∀ k, k < path1.length → path1[k]? = idxs P d k := by
      intro k hk
      by_cases h0 : k = 0
      · subst h0
        rw [hlow 0 (by omega), hidx]; rfl
      · exact hhigh k (by omega) (by omega)
    cases s with
    | null => rw [foundEnt_null] at hfs; cases hfs
    | leaf names namesz e =>
      left
      rw [foundEnt_leaf] at hfs
      by_cases c : e.take P.DIGSZ = d.take P.DIGSZ
      · have hel : e.length = P.DIGSZ := hinv1.1
        rw [List.take_of_length_le (by omega), List.take_of_length_le (by omega)] at c
        exact ⟨names, namesz, by rw [c]⟩
      · rw [if_neg c] at hfs; cases hfs
    | node next names namesz e =>
      right
      obtain ⟨_, _, a, b, hab, hua, hub⟩ := hinv1
      have key : ∀ w : List Byte, w ≠ d → Under P w path1 (pwent.node next names namesz e) →
          ∃ a ∈ ops.map Prod.fst, a ≠ d ∧ ∀ j, j ≤ n → idxs P a j = idxs P d j := by
        intro w hwd hw
        obtain ⟨hwl, hwp, lw, hwf⟩ := hw
        have hagree : ∀ j, j ≤ n → idxs P w j = idxs P d j := by
          intro j hj
          rw [hwp j (by omega), hpath j (by omega)]
        refine ⟨w, ?_, hwd, hagree⟩
        apply mem_of_inserted_ne_nil
        have hidxw : idxs P w 0 = some idx := by rw [hagree 0 (by omega), hidx]
        have hsw : slotBelow P w n 0 (tab idx) = some (pwent.node next names namesz e) := by
          rw [slotBelow_congr P w d n 0 (tab idx) (fun j _ h2 => hagree j (by omega))]
          exact hs
        have h1 := hf w hwl
        rw [found_at P tab idx 0 w hidxw, foundEnt_via_slot P w n 0 _ _ hsw] at h1
        have hn : 0 + n = path1.length - 1 := by omega
        rw [hn, hwf] at h1
        intro hnil
        rw [hnil] at h1
        simp [optList] at h1
      by_cases had : a = d
      · have hbd : b ≠ d := fun h => hab (had.trans h.symm)
        exact ⟨next, names, namesz, e, rfl, key b hbd hub⟩
      · exact ⟨next, names, namesz, e, rfl, key a had hua⟩

/-- C5 (as amended): when the insertions contain two 20-byte digests `d1`,
`d2` that agree on chunks `0..k` and differ at chunk `k+1`, then in the
resulting index every slot on their shared path at depths `0..k` is a child
directory; at depth `k+1` they lie in two different slots, each slot being
the leaf of its digest, or a child directory when a further inserted digest
shares chunks `0..k+1` with it; and the lookup of each returns its own
names. -/
theorem C5_collision_amended (be : Bool) (ops : List (List Byte × Name))
    (hops : ∀ op ∈ ops, op.1.length = 20) (d1 d2 : List Byte)
    (h1 : d1 ∈ ops.map Prod.fst) (h2 : d2 ∈ ops.map Prod.fst) (k : Nat)
    (hag : ∀ j, j ≤ k → idxs (hashcrack_c be) d1 j = idxs (hashcrack_c be) d2 j)
    (hdf : idxs (hashcrack_c be) d1 (k + 1) ≠ idxs (hashcrack_c be) d2 (k + 1)) :
    ∃ tab, parse_passwd (hashcrack_c be) emptyTab ops = some tab ∧
      (∀ j, j ≤ k → ∃ next names namesz d,
        slotAt (hashcrack_c be) tab d1 j = some (pwent.node next names namesz d) ∧
        slotAt (hashcrack_c be) tab d2 j = some (pwent.node next names namesz d)) ∧
      (∃ i1 i2 s1 s2, idxs (hashcrack_c be) d1 (k + 1) = some i1 ∧
        idxs (hashcrack_c be) d2 (k + 1) = some i2 ∧ i1 ≠ i2 ∧
        slotAt (hashcrack_c be) tab d1 (k + 1) = some s1 ∧
        slotAt (hashcrack_c be) tab d2 (k + 1) = some s2 ∧
        StoredAt (hashcrack_c be) ops (k + 1) d1 s1 ∧
        StoredAt (hashcrack_c be) ops (k + 1) d2 s2) ∧
      (pwchk_walk (hashcrack_c be) tab d1).map (fun r => r.1.map namesOf) =
        some (some (inserted ops d1)) ∧ inserted ops d1 ≠ [] ∧
      (pwchk_walk (hashcrack_c be) tab d2).map (fun r => r.1.map namesOf) =
        some (some (inserted ops d2)) ∧ inserted ops d2 ≠ [] := by
  have hV := valid_hashcrack_c be
  have hd1 : d1.length = 20 := by
    obtain ⟨op, hop, hfst⟩ := List.mem_map.1 h1
    rw [← hfst]; exact hops op hop
  have hd2 : d2.length = 20 := by
    obtain ⟨op, hop, hfst⟩ := List.mem_map.1 h2
    rw [← hfst]; exact hops op hop
  have hn1 := inserted_ne_nil_of_mem ops d1 h1
  have hn2 := inserted_ne_nil_of_mem ops d2 h2
  obtain ⟨tab, hl, hinv, hf⟩ := load_empty_spec (hashcrack_c be) hV ops hops
  have hf1 : found (hashcrack_c be) tab 0 d1 = some (some (inserted ops d1)) := by
    rw [hf d1 hd1, optList, if_neg hn1]
  have hf2 : found (hashcrack_c be) tab 0 d2 = some (some (inserted ops d2)) := by
    rw [hf d2 hd2, optList, if_neg hn2]
  have hw1 := hf1
  have hw2 := hf2
  have hne : d1.take (hashcrack_c be).DIGSZ ≠ d2.take (hashcrack_c be).DIGSZ := by
    intro h
    apply hdf
    have e1 : d1.take (hashcrack_c be).DIGSZ = d1 := List.take_of_length_le (by rw [hd1]; rfl)
    have e2 : d2.take (hashcrack_c be).DIGSZ = d2 := List.take_of_length_le (by rw [hd2]; rfl)
    rw [e1, e2] at h
    rw [h]
  obtain ⟨idx, hidx⟩ := idxs_isSome (hashcrack_c be) d1 0 (by rw [hd1]; decide)
  have hidx2 : idxs (hashcrack_c be) d2 0 = some idx := by rw [← hag 0 (by omega), hidx]
  rw [found_at _ tab idx 0 d1 hidx] at hf1
  rw [found_at _ tab idx 0 d2 hidx2] at hf2
  obtain ⟨hA, s1, s2, hs1, hs2, hg1, hg2⟩ :=
    shared_path_nodes (hashcrack_c be) d1 d2 _ _ hne k 0 (tab idx)
      (fun j _ hj => hag j (by omega)) hf1 hf2
  have hsl1 : ∀ n, slotAt (hashcrack_c be) tab d1 n = slotBelow (hashcrack_c be) d1 n 0 (tab idx) := by
    intro n; unfold slotAt; rw [hidx]; rfl
  have hsl2 : ∀ n, slotAt (hashcrack_c be) tab d2 n = slotBelow (hashcrack_c be) d2 n 0 (tab idx) := by
    intro n; unfold slotAt; rw [hidx2]; rfl
  rw [Nat.zero_add] at hg1 hg2
  refine ⟨tab, hl, ?_, ?_, hw1, hn1, hw2, hn2⟩
  · intro j hj
    obtain ⟨nx, nm, nz, dd, ha, hb⟩ := hA j hj
    exact ⟨nx, nm, nz, dd, by rw [hsl1]; exact ha, by rw [hsl2]; exact hb⟩
  · cases hi1 : idxs (hashcrack_c be) d1 (k + 1) with
    | none =>
      have := foundEnt_via_slot (hashcrack_c be) d1 k 0 (tab idx)
      obtain ⟨nx, nm, nz, dd, ha, _⟩ := hA k (le_refl _)
      have hx := this _ ha
      rw [hf1, foundEnt_node, found_eq, Nat.zero_add, hi1] at hx
      cases hx
    | some i1 =>
      cases hi2 : idxs (hashcrack_c be) d2 (k + 1) with
      | none =>
        have := foundEnt_via_slot (hashcrack_c be) d2 k 0 (tab idx)
        obtain ⟨nx, nm, nz, dd, _, hb⟩ := hA k (le_refl _)
        have hx := this _ hb
        rw [hf2, foundEnt_node, found_eq, Nat.zero_add, hi2] at hx
        cases hx
      | some i2 =>
        refine ⟨i1, i2, s1, s2, rfl, rfl, ?_, by rw [hsl1]; exact hs1, by rw [hsl2]; exact hs2,
          ?_, ?_⟩
        · intro h
          apply hdf
          rw [hi1, hi2, h]
        · exact storedAt_of_found (hashcrack_c be) ops tab hinv hf d1 hd1 (k + 1) s1 _
            (by rw [hsl1]; exact hs1) hg1
        · exact storedAt_of_found (hashcrack_c be) ops tab hinv hf d2 hd2 (k + 1) s2 _
            (by rw [hsl2]; exact hs2) hg2

/-- Three digests, the first two agreeing on chunk 0 only (`k = 0`). -/
theorem C5_collision_amended_witness :
    (∀ op ∈ [(digA, str "ann"), (digB, str "bob"), (digC, str "cy")], op.1.length = 20) ∧
    digA ∈ [(digA, str "ann"), (digB, str "bob"), (digC, str "cy")].map Prod.fst ∧
    digB ∈ [(digA, str "ann"), (digB, str "bob"), (digC, str "cy")].map Prod.fst ∧
    (∀ j, j ≤ 0 → idxs (hashcrack_c false) digA j = idxs (hashcrack_c false) digB j) ∧
    idxs (hashcrack_c false) digA (0 + 1) ≠ idxs (hashcrack_c false) digB (0 + 1) ∧
    ∃ tab, parse_passwd (hashcrack_c false) emptyTab
        [(digA, str "ann"), (digB, str "bob"), (digC, str "cy")] = some tab ∧
      (∀ j, j ≤ 0 → ∃ next names namesz d,
        slotAt (hashcrack_c false) tab digA j = some (pwent.node next names namesz d) ∧
        slotAt (hashcrack_c false) tab digB j = some (pwent.node next names namesz d)) ∧
      (∃ i1 i2 s1 s2, idxs (hashcrack_c false) digA (0 + 1) = some i1 ∧
        idxs (hashcrack_c false) digB (0 + 1) = some i2 ∧ i1 ≠ i2 ∧
        slotAt (hashcrack_c false) tab digA (0 + 1) = some s1 ∧
        slotAt (hashcrack_c false) tab digB (0 + 1) = some s2 ∧
        StoredAt (hashcrack_c false) [(digA, str "ann"), (digB, str "bob"), (digC, str "cy")]
          (0 + 1) digA s1 ∧
        StoredAt (hashcrack_c false) [(digA, str "ann"), (digB, str "bob"), (digC, str "cy")]
          (0 + 1) digB s2) ∧
      (pwchk_walk (hashcrack_c false) tab digA).map (fun r => r.1.map namesOf) =
        some (some (inserted [(digA, str "ann"), (digB, str "bob"), (digC, str "cy")] digA)) ∧
      inserted [(digA, str "ann"), (digB, str "bob"), (digC, str "cy")] digA ≠ [] ∧
      (pwchk_walk (hashcrack_c false) tab digB).map (fun r => r.1.map namesOf) =
        some (some (inserted [(digA, str "ann"), (digB, str "bob"), (digC, str "cy")] digB)) ∧
      inserted [(digA, str "ann"), (digB, str "bob"), (digC, str "cy")] digB ≠ [] :=
  ⟨by decide, by decide, by decide,
    by intro j hj; rw [Nat.le_zero.1 hj]; decide, by decide,
    C5_collision_amended false _ (by decide) digA digB (by decide) (by decide) 0
      (by intro j hj; rw [Nat.le_zero.1 hj]; decide) (by decide)⟩

/-- C5 as stated fails: `digA` and `digB` agree on chunk 0 and differ at
chunk 1, yet after inserting them and `digC` the slot of `digA` in the
directory at depth 1 is a child directory, not a leaf (the slot of `digB`
there is a leaf). -/
theorem C5_counterexample :
    (∀ op ∈ [(digA, str "ann"), (digB, str "bob"), (digC, str "cy")], op.1.length = 20) ∧
    idxs (hashcrack_c false) digA 0 = idxs (hashcrack_c false) digB 0 ∧
    idxs (hashcrack_c false) digA 1 ≠ idxs (hashcrack_c false) digB 1 ∧
    ((parse_passwd (hashcrack_c false) emptyTab
        [(digA, str "ann"), (digB, str "bob"), (digC, str "cy")]).bind fun tab =>
      (slotAt (hashcrack_c false) tab digA 1).map fun s => (s.isLeaf, s.isNode)) =
        some (false, true) ∧
    ((parse_passwd (hashcrack_c false) emptyTab
        [(digA, str "ann"), (digB, str "bob"), (digC, str "cy")]).bind fun tab =>
      (slotAt (hashcrack_c false) tab digB 1).map fun s => (s.isLeaf, s.isNode)) =
        some (true, false) := by
  refine ⟨by decide, by decide, by decide, by decide, by decide⟩

/-! ## Buffers and C strings -/

theorem bytesAt_succ (buf : Buf) (p n : Nat) :
    bytesAt buf p (n + 1) = bytesAt buf p n ++ [buf (p + n)] := by
  simp [bytesAt, List.range_succ]

theorem bytesAt_cons (buf : Buf) (p n : Nat) :
    bytesAt buf p (n + 1) = buf p :: bytesAt buf (p + 1) n := by
  simp only [bytesAt, List.range_succ_eq_map, List.map_cons, List.map_map, Nat.add_zero]
  congr 1
  apply List.map_congr_left
  intro k _
  simp only [Function.comp, Nat.succ_eq_add_one]
  congr 1; omega

theorem bytesAt_poke (buf : Buf) (p n q : Nat) (c : Byte) (h : q < p ∨ p + n ≤ q) :
    bytesAt (poke buf q c) p n = bytesAt buf p n := by
  unfold bytesAt
  apply List.map_congr_left
  intro k hk
  have hk1 := List.mem_range.1 hk
  unfold poke
  rw [if_neg (by omega)]

theorem poke_same (buf : Buf) (q : Nat) (c : Byte) : poke buf q c q = c := by
  simp [poke]

theorem poke_other (buf : Buf) (q k : Nat) (c : Byte) (h : k ≠ q) : poke buf q c k = buf k := by
  simp [poke, h]

/-- Function `strlen` finds the first NUL when it lies within the bytes looked at. -/
theorem strlen_eq (buf : Buf) :
    ∀ (n p fuel : Nat), (∀ b ∈ bytesAt buf p n, b ≠ 0) → buf (p + n) = 0 → n < fuel →
      strlen buf p fuel = n := by
  intro n
  induction n with
  | zero =>
    intro p fuel _ h0 hf
    obtain ⟨f, rfl⟩ : ∃ f, fuel = f + 1 := ⟨fuel - 1, by omega⟩
    rw [strlen, if_pos (by simpa using h0)]
  | succ n ih =>
    intro p fuel hnz h0 hf
    obtain ⟨f, rfl⟩ : ∃ f, fuel = f + 1 := ⟨fuel - 1, by omega⟩
    rw [bytesAt_cons] at hnz
    have hp : buf p ≠ 0 := hnz _ (List.mem_cons_self _ _)
    rw [strlen, if_neg hp, ih (p + 1) f (fun b hb => hnz b (List.mem_cons_of_mem _ hb))
      (by rw [← h0]; congr 1; omega) (by omega)]

theorem holds_poke_suffix (rpw : Buf) (w : List Byte) (c c1 : Byte) (h : Holds rpw w c) :
    Holds (poke rpw (w.length + 1) c1) w c1 := by
  obtain ⟨h1, _, h3⟩ := h
  refine ⟨?_, poke_same _ _ _, ?_⟩
  · rw [bytesAt_poke _ _ _ _ _ (Or.inr (by omega))]; exact h1
  · rw [poke_other _ _ _ _ (by omega)]; exact h3

theorem holds_poke_zero (rpw : Buf) (w : List Byte) (c c1 : Byte) (h : Holds rpw w c) :
    Holds (poke rpw 0 c1) w c := by
  obtain ⟨h1, h2, h3⟩ := h
  refine ⟨?_, ?_, ?_⟩
  · rw [bytesAt_poke _ _ _ _ _ (Or.inl (by omega))]; exact h1
  · rw [poke_other _ _ _ _ (by omega)]; exact h2
  · rw [poke_other _ _ _ _ (by omega)]; exact h3

/-- The string at `rpw + 1`: the word, and the byte after it unless NUL. -/
theorem holds_strlen (rpw : Buf) (w : List Byte) (c : Byte) (h : Holds rpw w c)
    (hw : ∀ b ∈ w, b ≠ 0) (hlen : w.length ≤ 253) :
    strlen rpw 1 256 = (if c = 0 then w.length else w.length + 1) := by
  obtain ⟨h1, h2, h3⟩ := h
  by_cases hc : c = 0
  · rw [if_pos hc]
    apply strlen_eq rpw w.length 1 256 (by rw [h1]; exact hw) (by rw [Nat.add_comm, h2, hc])
      (by omega)
  · rw [if_neg hc]
    apply strlen_eq rpw (w.length + 1) 1 256 ?_ (by rw [← h3]; congr 1; omega) (by omega)
    intro b hb
    rw [bytesAt_succ, h1, Nat.add_comm 1, h2] at hb
    rcases List.mem_append.1 hb with hb | hb
    · exact hw b hb
    · rw [List.mem_singleton.1 hb]; exact hc

theorem holds_bytes1 (rpw : Buf) (w : List Byte) (c : Byte) (h : Holds rpw w c) :
    bytesAt rpw 1 (w.length + 1) = w ++ [c] := by
  obtain ⟨h1, h2, _⟩ := h
  rw [bytesAt_succ, h1, Nat.add_comm 1, h2]

theorem holds_bytes0 (rpw : Buf) (w : List Byte) (c : Byte) (h : Holds rpw w c) :
    bytesAt rpw 0 (w.length + 2) = rpw 0 :: w ++ [c] := by
  rw [bytesAt_cons, Nat.zero_add, holds_bytes1 rpw w c h]; rfl

/-- The string at `rpw + 0`, for a first byte that is not NUL. -/
theorem holds_cstr0 (rpw : Buf) (w : List Byte) (c : Byte) (h : Holds rpw w c)
    (hw : ∀ b ∈ w, b ≠ 0) (hlen : w.length ≤ 253) (h0 : rpw 0 ≠ 0) :
    cstr rpw 0 = rpw 0 :: w ++ (if c = 0 then [] else [c]) := by
  unfold cstr
  have hb1 : bytesAt rpw 0 (w.length + 1) = rpw 0 :: w := by
    rw [bytesAt_cons, Nat.zero_add, h.1]
  by_cases hc : c = 0
  · have hs : strlen rpw 0 256 = w.length + 1 := by
      apply strlen_eq rpw (w.length + 1) 0 256 ?_ (by rw [Nat.zero_add, h.2.1, hc]) (by omega)
      intro b hb
      rw [hb1] at hb
      rcases List.mem_cons.1 hb with hb | hb
      · rw [hb]; exact h0
      · exact hw b hb
    rw [hs, hb1, if_pos hc, List.append_nil]
  · have hs : strlen rpw 0 256 = w.length + 2 := by
      apply strlen_eq rpw (w.length + 2) 0 256 ?_ (by rw [Nat.zero_add, h.2.2]) (by omega)
      intro b hb
      rw [holds_bytes0 rpw w c h] at hb
      rcases List.mem_cons.1 hb with hb | hb
      · rw [hb]; exact h0
      · rcases List.mem_append.1 hb with hb | hb
        · exact hw b hb
        · rw [List.mem_singleton.1 hb]; exact hc
    rw [hs, holds_bytes0 rpw w c h, if_neg hc]

theorem holds_cstr1 (rpw : Buf) (w : List Byte) (c : Byte) (h : Holds rpw w c)
    (hw : ∀ b ∈ w, b ≠ 0) (hlen : w.length ≤ 253) :
    cstr rpw 1 = w ++ (if c = 0 then [] else [c]) := by
  unfold cstr
  rw [holds_strlen rpw w c h hw hlen]
  by_cases hc : c = 0
  · rw [if_pos hc, if_pos hc, h.1, List.append_nil]
  · rw [if_neg hc, if_neg hc, holds_bytes1 rpw w c h]

/-! ## The sweeps of `parse_dict` (`hashcrack.c`) -/

theorem punctAt_nat (E : Env) (k : Nat) : punctAt E (k : Int) = (E.punct[k]?).getD 0 := by
  unfold punctAt
  rw [if_neg (by omega)]
  simp

theorem punctAt_pred (E : Env) (k : Nat) :
    punctAt E (((k + 1 : Nat) : Int) - 1) = (E.punct[k]?).getD 0 := by
  rw [← punctAt_nat]
  congr 1
  omega

theorem punctAt_end (E : Env) : punctAt E (E.punct.length : Int) = 0 := by
  rw [punctAt_nat, List.getElem?_eq_none (le_refl _)]; rfl

theorem take_succ_reverse (l : List Byte) (k : Nat) (h : k < l.length) :
    (l.take (k + 1)).reverse = l[k] :: (l.take k).reverse := by
  rw [List.take_succ, List.getElem?_eq_getElem h]
  simp

/-- One test, when `pwchk` does not read outside its digest. -/
theorem probe_spec (E : Env) (hok : ∀ x, ∃ r, pwchk E x = some r) (w : Worker) (off len : Nat) :
    probe E w off len = some
      ⟨w.rpw, (logMatches (cstr w.rpw off) (hits E (bytesAt w.rpw off len)) (w.ofp, w.cnt)).1,
        (logMatches (cstr w.rpw off) (hits E (bytesAt w.rpw off len)) (w.ofp, w.cnt)).2,
        w.hashed ++ [bytesAt w.rpw off len]⟩ := by
  obtain ⟨r, hr⟩ := hok (bytesAt w.rpw off len)
  unfold probe hits
  rw [hr]
  obtain ⟨m, k⟩ := r
  cases m with
  | none => rfl
  | some arr => rfl

/-- The suffix iterations `i = k-1, ..., 0` of the first sweep. -/
theorem sweep1_spec (E : Env) (hok : ∀ x, ∃ r, pwchk E x = some r) (w : List Byte)
    (hw : ∀ b ∈ w, b ≠ 0) (hlen : w.length ≤ 253) (hp : ∀ c ∈ E.punct, c ≠ 0) :
    ∀ (k : Nat) (st : Worker) (rl : Nat), k ≤ E.punct.length →
      (1 ≤ k → Holds st.rpw w (punctAt E ((k : Int) - 1))) →
      ∃ st1, sweep1 E (w.length + 1) k (st, rl) = some (st1, if k = 0 then rl else w.length + 1) ∧
        st1.hashed = st.hashed ++ (E.punct.take k).reverse.map (fun s => w ++ [s]) ∧
        (st1.ofp, st1.cnt) =
          runProbes E ((E.punct.take k).reverse.map fun s => (w ++ [s], w ++ [s]))
            (st.ofp, st.cnt) ∧
        (1 ≤ k → Holds st1.rpw w E.junk) ∧ (k = 0 → st1 = st) := by
  intro k
  induction k with
  | zero =>
    intro st rl _ _
    exact ⟨st, rfl, by simp, by simp [runProbes], by omega, fun _ => rfl⟩
  | succ k ih =>
    intro st rl hk hh
    have hc : punctAt E (((k + 1 : Nat) : Int) - 1) = E.punct[k] := by
      rw [punctAt_pred, List.getElem?_eq_getElem (by omega)]; rfl
    have hH := hh (by omega)
    rw [hc] at hH
    have hcz : E.punct[k] ≠ 0 := hp _ (List.getElem_mem _)
    have hsl : strlen st.rpw 1 256 = w.length + 1 := by
      rw [holds_strlen st.rpw w _ hH hw hlen, if_neg hcz]
    have hnext : 1 ≤ k → Holds (poke st.rpw (w.length + 1) (punctAt E ((k : Int) - 1))) w
        (punctAt E ((k : Int) - 1)) := fun _ => holds_poke_suffix st.rpw w _ _ hH
    rw [sweep1, hsl, probe_spec E hok, holds_bytes1 st.rpw w _ hH, holds_cstr1 st.rpw w _ hH hw hlen,
      if_neg hcz]
    simp only [Option.some_bind]
    obtain ⟨st1, hrun, hhash, hlog, hholds, hzero⟩ := ih
      ⟨poke st.rpw (w.length + 1) (punctAt E ((k : Int) - 1)),
        (logMatches (w ++ [E.punct[k]]) (hits E (w ++ [E.punct[k]])) (st.ofp, st.cnt)).1,
        (logMatches (w ++ [E.punct[k]]) (hits E (w ++ [E.punct[k]])) (st.ofp, st.cnt)).2,
        st.hashed ++ [w ++ [E.punct[k]]]⟩ (w.length + 1) (by omega) hnext
    refine ⟨st1, ?_, ?_, ?_, ?_, by omega⟩
    · rw [hrun]
      by_cases hk0 : k = 0 <;> simp [hk0]
    · rw [hhash, take_succ_reverse _ _ (by omega)]
      simp
    · rw [hlog, take_succ_reverse _ _ (by omega)]
      simp [runProbes]
    · intro _
      by_cases hk0 : k = 0
      · rw [hzero hk0]
        subst hk0
        have : punctAt E (((0 : Nat) : Int) - 1) = E.junk := by simp [punctAt]
        rw [← this]
        exact holds_poke_suffix st.rpw w _ _ hH
      · exact hholds (by omega)

/-- The suffix iterations `j = k-1, ..., 0` of the inner loop of the second
sweep, with the prefix `p` in `rpw[0]`. -/
theorem sweep2_inner_spec (E : Env) (hok : ∀ x, ∃ r, pwchk E x = some r) (w : List Byte)
    (hw : ∀ b ∈ w, b ≠ 0) (hlen : w.length ≤ 253) (hp : ∀ c ∈ E.punct, c ≠ 0)
    (p : Byte) (hp0 : p ≠ 0) :
    ∀ (k : Nat) (st : Worker), k ≤ E.punct.length → st.rpw 0 = p →
      (1 ≤ k → Holds st.rpw w (punctAt E ((k : Int) - 1))) →
      ∃ st1, sweep2_inner E (w.length + 1) (w.length + 2) k st = some st1 ∧
        st1.hashed = st.hashed ++ (E.punct.take k).reverse.map (fun s => p :: w ++ [s]) ∧
        (st1.ofp, st1.cnt) =
          runProbes E ((E.punct.take k).reverse.map fun s => (p :: w ++ [s], p :: w ++ [s]))
            (st.ofp, st.cnt) ∧
        (1 ≤ k → ∃ c, Holds st1.rpw w c) ∧ (k = 0 → st1 = st) := by
  intro k
  induction k with
  | zero =>
    intro st _ _ _
    exact ⟨st, rfl, by simp, by simp [runProbes], by omega, fun _ => rfl⟩
  | succ k ih =>
    intro st hk h0 hh
    have hc : punctAt E (((k + 1 : Nat) : Int) - 1) = E.punct[k] := by
      rw [punctAt_pred, List.getElem?_eq_getElem (by omega)]; rfl
    have hH := hh (by omega)
    rw [hc] at hH
    have hcz : E.punct[k] ≠ 0 := hp _ (List.getElem_mem _)
    have hnext : 1 ≤ k → Holds (poke st.rpw (w.length + 1) (punctAt E ((k : Int) - 1))) w
        (punctAt E ((k : Int) - 1)) := fun _ => holds_poke_suffix st.rpw w _ _ hH
    have hr0 : st.rpw 0 ≠ 0 := by rw [h0]; exact hp0
    rw [sweep2_inner, probe_spec E hok, holds_bytes0 st.rpw w _ hH,
      holds_cstr0 st.rpw w _ hH hw hlen hr0, if_neg hcz, h0]
    simp only [Option.some_bind]
    obtain ⟨st1, hrun, hhash, hlog, hholds, hzero⟩ := ih
      ⟨poke st.rpw (w.length + 1) (punctAt E ((k : Int) - 1)),
        (logMatches (p :: w ++ [E.punct[k]]) (hits E (p :: w ++ [E.punct[k]])) (st.ofp, st.cnt)).1,
        (logMatches (p :: w ++ [E.punct[k]]) (hits E (p :: w ++ [E.punct[k]])) (st.ofp, st.cnt)).2,
        st.hashed ++ [p :: w ++ [E.punct[k]]]⟩ (by omega)
      ((poke_other st.rpw (w.length + 1) 0 (punctAt E ((k : Int) - 1)) (by omega)).trans h0) hnext
    refine ⟨st1, hrun, ?_, ?_, ?_, by omega⟩
    · rw [hhash, take_succ_reverse _ _ (by omega)]
      simp
    · rw [hlog, take_succ_reverse _ _ (by omega)]
      simp [runProbes]
    · intro _
      by_cases hk0 : k = 0
      · rw [hzero hk0]
        exact ⟨_, holds_poke_suffix st.rpw w _ _ hH⟩
      · exact hholds (by omega)

theorem runProbes_append (E : Env) (a b : List (List Byte × List Byte))
    (s : List Record × Nat) : runProbes E (a ++ b) s = runProbes E b (runProbes E a s) := by
  induction a generalizing s with
  | nil => rfl
  | cons x t ih => simp only [List.cons_append, runProbes]; exact ih _

/-- The whole inner loop of the second sweep for the prefix `p`. -/
theorem sweep2_inner_full (E : Env) (hok : ∀ x, ∃ r, pwchk E x = some r) (w : List Byte)
    (hw : ∀ b ∈ w, b ≠ 0) (hlen : w.length ≤ 253) (hp : ∀ c ∈ E.punct, c ≠ 0)
    (p : Byte) (hp0 : p ≠ 0) (st : Worker) (h0 : st.rpw 0 = p) (c : Byte)
    (hH : Holds st.rpw w c) :
    ∃ st1, sweep2_inner E (w.length + 1) (w.length + 2) (E.punct.length + 1)
        { st with rpw := poke st.rpw (w.length + 1) (punctAt E E.punct.length) } = some st1 ∧
      st1.hashed = st.hashed ++ (prefixProbes E.punct w p).map Prod.fst ∧
      (st1.ofp, st1.cnt) = runProbes E (prefixProbes E.punct w p) (st.ofp, st.cnt) ∧
      ∃ c1, Holds st1.rpw w c1 := by
  have hH0 : Holds (poke st.rpw (w.length + 1) (punctAt E E.punct.length)) w 0 := by
    rw [punctAt_end]
    exact holds_poke_suffix st.rpw w c 0 hH
  have hr0 : poke st.rpw (w.length + 1) (punctAt E E.punct.length) 0 = p := by
    rw [poke_other _ _ _ _ (by omega)]; exact h0
  have hr0' : poke st.rpw (w.length + 1) (punctAt E E.punct.length) 0 ≠ 0 := by
    rw [hr0]; exact hp0
  rw [sweep2_inner, probe_spec E hok]
  simp only [Option.some_bind]
  rw [holds_bytes0 _ w _ hH0, holds_cstr0 _ w _ hH0 hw hlen hr0', if_pos rfl, hr0,
    List.append_nil]
  obtain ⟨st1, hrun, hhash, hlog, hholds, hzero⟩ :=
    sweep2_inner_spec E hok w hw hlen hp p hp0 E.punct.length
      ⟨poke (poke st.rpw (w.length + 1) (punctAt E E.punct.length)) (w.length + 1)
          (punctAt E ((E.punct.length : Int) - 1)),
        (logMatches (p :: w) (hits E (p :: w ++ [0])) (st.ofp, st.cnt)).1,
        (logMatches (p :: w) (hits E (p :: w ++ [0])) (st.ofp, st.cnt)).2,
        st.hashed ++ [p :: w ++ [0]]⟩ (le_refl _)
      ((poke_other (poke st.rpw (w.length + 1) (punctAt E E.punct.length)) (w.length + 1) 0
        (punctAt E ((E.punct.length : Int) - 1)) (by omega)).trans hr0)
      (fun _ => holds_poke_suffix _ w _ _ hH0)
  refine ⟨st1, hrun, ?_, ?_, ?_⟩
  · rw [hhash, List.take_length]
    simp [prefixProbes]
  · rw [hlog, List.take_length]
    simp [prefixProbes, runProbes]
  · by_cases hk0 : E.punct.length = 0
    · rw [hzero hk0]
      exact ⟨_, holds_poke_suffix _ w _ _ hH0⟩
    · exact hholds (by omega)

/-- The iterations `i = k-1, ..., 0` of the second sweep. -/
theorem sweep2_spec (E : Env) (hok : ∀ x, ∃ r, pwchk E x = some r) (w : List Byte)
    (hw : ∀ b ∈ w, b ≠ 0) (hlen : w.length ≤ 253) (hp : ∀ c ∈ E.punct, c ≠ 0) :
    ∀ (k : Nat) (st : Worker), k ≤ E.punct.length →
      (1 ≤ k → st.rpw 0 = punctAt E ((k : Int) - 1)) → (∃ c, Holds st.rpw w c) →
      ∃ st1, sweep2 E (w.length + 1) (w.length + 2) k st = some st1 ∧
        st1.hashed = st.hashed ++
          ((E.punct.take k).reverse.flatMap (prefixProbes E.punct w)).map Prod.fst ∧
        (st1.ofp, st1.cnt) =
          runProbes E ((E.punct.take k).reverse.flatMap (prefixProbes E.punct w))
            (st.ofp, st.cnt) := by
  intro k
  induction k with
  | zero =>
    intro st _ _ _
    exact ⟨st, rfl, by simp, by simp [runProbes]⟩
  | succ k ih =>
    intro st hk h0 hH
    obtain ⟨c, hH⟩ := hH
    have hc : punctAt E (((k + 1 : Nat) : Int) - 1) = E.punct[k] := by
      rw [punctAt_pred, List.getElem?_eq_getElem (by omega)]; rfl
    have hr0 := h0 (by omega)
    rw [hc] at hr0
    have hcz : E.punct[k] ≠ 0 := hp _ (List.getElem_mem _)
    obtain ⟨st1, hrun, hhash, hlog, c1, hH1⟩ :=
      sweep2_inner_full E hok w hw hlen hp E.punct[k] hcz st hr0 c hH
    rw [sweep2, hrun]
    simp only [Option.some_bind]
    obtain ⟨st2, hrun2, hhash2, hlog2⟩ := ih
      { st1 with rpw := poke st1.rpw 0 (punctAt E ((k : Int) - 1)) } (by omega)
      (fun _ => poke_same st1.rpw 0 (punctAt E ((k : Int) - 1))) ⟨c1, holds_poke_zero st1.rpw w c1 _ hH1⟩
    refine ⟨st2, hrun2, ?_, ?_⟩
    · rw [hhash2, take_succ_reverse _ _ (by omega)]
      show st1.hashed ++ _ = _
      rw [hhash]
      simp
    · rw [hlog2, take_succ_reverse _ _ (by omega)]
      show runProbes E _ (st1.ofp, st1.cnt) = _
      rw [hlog, List.flatMap_cons, runProbes_append]

/-- Both sweeps on a buffer that holds the word followed by NUL. -/
theorem sweeps_spec (E : Env) (hok : ∀ x, ∃ r, pwchk E x = some r) (w : List Byte)
    (hw : ∀ b ∈ w, b ≠ 0) (hlen : w.length ≤ 253) (hp : ∀ c ∈ E.punct, c ≠ 0)
    (st : Worker) (hH : Holds st.rpw w 0) :
    ∃ st1, ((sweep1 E (w.length + 1) (E.punct.length + 1) (st, 0)).bind fun s =>
        sweep2 E (w.length + 1) (s.2 + 1) E.punct.length
          { s.1 with rpw := poke s.1.rpw 0 (punctAt E ((E.punct.length : Int) - 1)) })
          = some st1 ∧
      st1.hashed = st.hashed ++ (probesFor E.punct w).map Prod.fst ∧
      (st1.ofp, st1.cnt) = runProbes E (probesFor E.punct w) (st.ofp, st.cnt) := by
  have hsl : strlen st.rpw 1 256 = w.length := by
    rw [holds_strlen st.rpw w 0 hH hw hlen, if_pos rfl]
  rw [sweep1, hsl, probe_spec E hok, hH.1]
  simp only [Option.some_bind]
  have hcs : cstr st.rpw 1 = w := by
    rw [holds_cstr1 st.rpw w 0 hH hw hlen, if_pos rfl, List.append_nil]
  rw [hcs]
  obtain ⟨st1, hrun, hhash, hlog, hholds, hzero⟩ :=
    sweep1_spec E hok w hw hlen hp E.punct.length
      ⟨poke st.rpw (w.length + 1) (punctAt E ((E.punct.length : Int) - 1)),
        (logMatches w (hits E w) (st.ofp, st.cnt)).1, (logMatches w (hits E w) (st.ofp, st.cnt)).2,
        st.hashed ++ [w]⟩ w.length (le_refl _) (fun _ => holds_poke_suffix st.rpw w _ _ hH)
  rw [hrun]
  simp only [Option.some_bind]
  by_cases hk0 : E.punct.length = 0
  · have hnil : E.punct = [] := List.length_eq_zero.1 hk0
    have hz : ∀ (a b : Nat) (x : Worker), sweep2 E a b E.punct.length x = some x := by
      intro a b x; rw [hk0]; rfl
    rw [hz]
    refine ⟨_, rfl, ?_, ?_⟩
    · show st1.hashed = _
      rw [hhash, hnil]; simp [probesFor]
    · show (st1.ofp, st1.cnt) = _
      rw [hlog, hnil]; simp [probesFor, runProbes]
  · rw [if_neg hk0]
    obtain ⟨st2, hrun2, hhash2, hlog2⟩ := sweep2_spec E hok w hw hlen hp E.punct.length
      { st1 with rpw := poke st1.rpw 0 (punctAt E ((E.punct.length : Int) - 1)) } (le_refl _)
      (fun _ => poke_same st1.rpw 0 (punctAt E ((E.punct.length : Int) - 1))) ⟨_, holds_poke_zero st1.rpw w _ _ (hholds (by omega))⟩
    refine ⟨st2, hrun2, ?_, ?_⟩
    · rw [hhash2]
      show st1.hashed ++ _ = _
      rw [hhash, List.take_length]
      simp [probesFor]
    · rw [hlog2]
      show runProbes E _ (st1.ofp, st1.cnt) = _
      rw [hlog, List.take_length]
      unfold probesFor
      rw [runProbes_append]
      simp [runProbes]

/-! ## One dictionary line -/

theorem store_get (buf : Buf) (p : Nat) (s : List Byte) (k : Nat) (h : k < s.length) :
    store buf p s (p + k) = s[k] := by
  unfold store
  rw [if_neg (by omega), if_neg (by omega)]
  have : p + k - p = k := by omega
  rw [this, List.getElem?_eq_getElem h]; rfl

theorem store_end (buf : Buf) (p : Nat) (s : List Byte) : store buf p s (p + s.length) = 0 := by
  unfold store
  rw [if_neg (by omega), if_pos rfl]

theorem bytesAt_store (buf : Buf) (p : Nat) (s : List Byte) (n : Nat) (h : n ≤ s.length) :
    bytesAt (store buf p s) p n = s.take n := by
  apply List.ext_getElem
  · simp [bytesAt, h]
  · intro k h1 h2
    have hk : k < n := by simpa [bytesAt] using h1
    simp only [bytesAt, List.getElem_map, List.getElem_range, List.getElem_take]
    exact store_get buf p s k (by omega)

/-- After `fgets` has stored a line holding the word `w` (with its newline,
or without one at the end of the file), `pwlen` is `len(w) + 1` and after
the two assignments the buffer holds the word followed by the byte stored
at `rpw[pwlen]` and a NUL. -/
theorem line_setup (rpw : Buf) (w line : List Byte) (hw : ∀ b ∈ w, b ≠ 0 ∧ b ≠ 10)
    (hlen : w.length ≤ 253) (hline : line = w ++ [10] ∨ (line = w ∧ w ≠ [])) (c : Byte) :
    (if store rpw 1 line (strlen (store rpw 1 line) 1 256) ≠ 10
      then strlen (store rpw 1 line) 1 256 + 1 else strlen (store rpw 1 line) 1 256)
        = w.length + 1 ∧
    Holds (poke (poke (store rpw 1 line) (w.length + 1 + 1) 0) (w.length + 1) c) w c := by
  have hw0 : ∀ b ∈ w, b ≠ 0 := fun b hb => (hw b hb).1
  rcases hline with hl | ⟨hl, hne⟩
  · subst hl
    have hb : bytesAt (store rpw 1 (w ++ [10])) 1 w.length = w := by
      rw [bytesAt_store _ _ _ _ (by simp), List.take_left']
      rfl
    have h10 : store rpw 1 (w ++ [10]) (w.length + 1) = 10 := by
      have := store_get rpw 1 (w ++ [10]) w.length (by simp)
      rw [Nat.add_comm 1] at this
      rw [this]; simp
    have h0 : store rpw 1 (w ++ [10]) (w.length + 2) = 0 := by
      have := store_end rpw 1 (w ++ [10])
      rw [List.length_append, List.length_singleton] at this
      rw [← this]; congr 1; omega
    have hH : Holds (store rpw 1 (w ++ [10])) w 10 := ⟨hb, h10, h0⟩
    have hs : strlen (store rpw 1 (w ++ [10])) 1 256 = w.length + 1 := by
      rw [holds_strlen _ w 10 hH hw0 hlen, if_neg (by decide)]
    rw [hs, h10]
    refine ⟨by simp, ?_⟩
    have h1 : Holds (poke (store rpw 1 (w ++ [10])) (w.length + 1 + 1) 0) w 10 :=
      ⟨by rw [bytesAt_poke _ _ _ _ _ (Or.inr (by omega))]; exact hb,
        by rw [poke_other _ _ _ _ (by omega)]; exact h10, poke_same _ _ _⟩
    exact holds_poke_suffix _ w 10 c h1
  · subst hl
    have hb : bytesAt (store rpw 1 line) 1 line.length = line := by
      rw [bytesAt_store _ _ _ _ (le_refl _), List.take_length]
    have h0 : store rpw 1 line (1 + line.length) = 0 := store_end rpw 1 line
    have hs : strlen (store rpw 1 line) 1 256 = line.length :=
      strlen_eq _ line.length 1 256 (by rw [hb]; exact hw0) h0 (by omega)
    have hpos : 0 < line.length := List.length_pos.2 hne
    have hlast : store rpw 1 line line.length ≠ 10 := by
      have := store_get rpw 1 line (line.length - 1) (by omega)
      have he : 1 + (line.length - 1) = line.length := by omega
      rw [he] at this
      rw [this]
      exact (hw _ (List.getElem_mem _)).2
    rw [hs, if_pos hlast]
    refine ⟨rfl, ?_⟩
    have h1 : Holds (poke (store rpw 1 line) (line.length + 1 + 1) 0) line 0 :=
      ⟨by rw [bytesAt_poke _ _ _ _ _ (Or.inr (by omega))]; exact hb,
        by rw [poke_other _ _ _ _ (by omega), Nat.add_comm]; exact h0, poke_same _ _ _⟩
    exact holds_poke_suffix _ line 0 c h1

/-- The body of the `while` of `parse_dict` for a line that holds the word
`w`: the tests made are `probesFor punct w`, in order. -/
theorem parse_dict_line_spec (E : Env) (hok : ∀ x, ∃ r, pwchk E x = some r) (w line : List Byte)
    (hw : ∀ b ∈ w, b ≠ 0 ∧ b ≠ 10) (hlen : w.length ≤ 253) (hp : ∀ c ∈ E.punct, c ≠ 0)
    (hline : line = w ++ [10] ∨ (line = w ∧ w ≠ [])) (st : Worker) :
    ∃ st1, parse_dict_line E st line = some st1 ∧
      st1.hashed = st.hashed ++ (probesFor E.punct w).map Prod.fst ∧
      (st1.ofp, st1.cnt) = runProbes E (probesFor E.punct w) (st.ofp, st.cnt) := by
  obtain ⟨h1, h2⟩ := line_setup st.rpw w line hw hlen hline (punctAt E E.punct.length)
  have hfit : ¬ (254 < line.length ∨ 254 < w.length + 1) := by
    rcases hline with h | ⟨h, _⟩ <;> rw [h] <;> simp <;> omega
  unfold parse_dict_line
  simp only [h1]
  rw [if_neg hfit]
  rw [punctAt_end] at h2 ⊢
  exact sweeps_spec E hok w (fun b hb => (hw b hb).1) hlen hp
    { st with rpw := poke (poke (store st.rpw 1 line) (w.length + 1 + 1) 0) (w.length + 1) 0 } h2

theorem readLine_line (w : List Byte) (hw : ∀ b ∈ w, b ≠ 10) :
    ∀ n, w.length < n → readLine n (w ++ [10]) = (w ++ [10], []) := by
  induction w with
  | nil =>
    intro n hn
    obtain ⟨m, rfl⟩ : ∃ m, n = m + 1 := ⟨n - 1, by simp at hn; omega⟩
    simp [readLine]
  | cons a t ih =>
    intro n hn
    obtain ⟨m, rfl⟩ : ∃ m, n = m + 1 := ⟨n - 1, by simp at hn; omega⟩
    have ha : a ≠ 10 := hw a (List.mem_cons_self _ _)
    have := ih (fun b hb => hw b (List.mem_cons_of_mem _ hb)) m (by simp at hn; omega)
    simp [readLine, ha, this]

theorem readLine_noeol (w : List Byte) (hw : ∀ b ∈ w, b ≠ 10) :
    ∀ n, w.length ≤ n → readLine n w = (w, []) := by
  induction w with
  | nil => intro n _; cases n <;> rfl
  | cons a t ih =>
    intro n hn
    obtain ⟨m, rfl⟩ : ∃ m, n = m + 1 := ⟨n - 1, by simp at hn; omega⟩
    have ha : a ≠ 10 := hw a (List.mem_cons_self _ _)
    have := ih (fun b hb => hw b (List.mem_cons_of_mem _ hb)) m (by simp at hn; omega)
    simp [readLine, ha, this]

/-- Function `parse_dict` on a dictionary that is the single word `w`, with or
without a final newline. -/
theorem parse_dict_one_word (E : Env) (hok : ∀ x, ∃ r, pwchk E x = some r) (w dict : List Byte)
    (hw : ∀ b ∈ w, b ≠ 0 ∧ b ≠ 10) (hlen : w.length ≤ 253) (hp : ∀ c ∈ E.punct, c ≠ 0)
    (hdict : dict = w ++ [10] ∨ (dict = w ∧ w ≠ [])) (st : Worker) :
    ∃ st1, parse_dict E st dict = some st1 ∧
      st1.hashed = st.hashed ++ (probesFor E.punct w).map Prod.fst ∧
      (st1.ofp, st1.cnt) = runProbes E (probesFor E.punct w) (st.ofp, st.cnt) := by
  obtain ⟨st1, hrun, hh, hl⟩ := parse_dict_line_spec E hok w dict hw hlen hp hdict st
  refine ⟨st1, ?_, hh, hl⟩
  have hne : dict ≠ [] := by
    rcases hdict with h | ⟨h, h1⟩
    · rw [h]; simp
    · rw [h]; exact h1
  have hfg : fgets 256 dict = some (dict, []) := by
    unfold fgets
    rw [if_neg hne]
    rcases hdict with h | ⟨h, _⟩
    · rw [h, readLine_line w (fun b hb => (hw b hb).2) _ (by omega)]
    · rw [h, readLine_noeol w (fun b hb => (hw b hb).2) _ (by omega)]
  obtain ⟨n, hn⟩ : ∃ n, dict.length = n + 1 :=
    ⟨dict.length - 1, by have := List.length_pos.2 hne; omega⟩
  unfold parse_dict
  rw [hn, parse_dict_loop, hfg]
  simp only [hrun, Option.some_bind]
  rw [parse_dict_loop]
  rfl

theorem hashedFor_eq (punct w : List Byte) :
    hashedFor punct w = (probesFor punct w).map Prod.fst := by
  unfold hashedFor probesFor prefixProbes
  simp [List.map_flatMap, Function.comp_def]

/-! ## SHA1: test vectors and digest length -/

theorem SHA1_length (msg : List Byte) : (SHA1 msg).length = 20 := by
  simp [SHA1]

/-- FIPS 180 test vector: SHA1("abc"). -/
theorem SHA1_abc : SHA1 (str "abc") =
    [0xa9, 0x99, 0x3e, 0x36, 0x47, 0x06, 0x81, 0x6a, 0xba, 0x3e,
     0x25, 0x71, 0x78, 0x50, 0xc2, 0x6c, 0x9c, 0xd0, 0xd8, 0x9d] := by decide

/-- FIPS 180 test vector: SHA1 of the empty string. -/
theorem SHA1_empty : SHA1 [] =
    [0xda, 0x39, 0xa3, 0xee, 0x5e, 0x6b, 0x4b, 0x0d, 0x32, 0x55,
     0xbf, 0xef, 0x95, 0x60, 0x18, 0x90, 0xaf, 0xd8, 0x07, 0x09] := by decide

/-- FIPS 180 test vector with two blocks. -/
theorem SHA1_two_blocks :
    SHA1 (str "abcdbcdecdefdefgefghfghighijhijkijkljklmklmnlmnomnopnopq") =
    [0x84, 0x98, 0x3e, 0x44, 0x1c, 0x3b, 0xd2, 0x6e, 0xba, 0xae,
     0x4a, 0xa1, 0xf9, 0x51, 0x29, 0xe5, 0xe5, 0x46, 0x70, 0xf1] := by decide

/-! ## The unsalted worker on a loaded index -/

/-- On an index that satisfies the invariant `pwchk` never reads outside
the digest it computed. -/
theorem pwchk_total (E : Env) (hP : E.P.Valid) (hinv : TabInv E.P E.tab [])
    (hsha : ∀ x, (E.sha x).length = E.P.DIGSZ) : ∀ x, ∃ r, pwchk E x = some r := by
  intro x
  obtain ⟨r, k, h, _⟩ := pwchk_walk_bound E.P hP E.tab hinv (E.sha x) (hsha x)
  exact ⟨(r, k), h⟩

/-- The symbol string of `parse_dict` has 36 different symbols, none NUL. -/
theorem punct36_ok : punct36.length = 36 ∧ punct36.Nodup ∧ ∀ c ∈ punct36, c ≠ 0 := by
  refine ⟨by decide, by decide, by decide⟩

/-- C2 evaluated on the fixture: for the word `test` the worker hashes nine
byte strings with the symbols `!@` and `37 * 37` with its own 36 symbols,
but the prefix-only candidates are hashed with the terminating NUL
included (`!test\0`, six bytes), so that `!test` and `@test` of the
specified candidate set are never hashed. -/
theorem C2_fixture_evaluated :
    (parse_dict ⟨hashcrack_c false, SHA1, emptyTab, str "!@", 0⟩ (Worker.init fun _ => 0)
        (str "test" ++ [10])).map (fun st => st.hashed) =
      some [str "test", str "test@", str "test!", str "@test" ++ [0], str "@test@", str "@test!",
        str "!test" ++ [0], str "!test@", str "!test!"] ∧
    (parse_dict ⟨hashcrack_c false, SHA1, emptyTab, punct36, 0⟩ (Worker.init fun _ => 0)
        (str "test" ++ [10])).map (fun st => st.hashed) = some (hashedFor punct36 (str "test")) ∧
    (hashedFor punct36 (str "test")).length = 37 * 37 ∧
    str "!test" ∈ specCandidates punct36 (str "test") ∧
    str "!test" ∉ hashedFor punct36 (str "test") ∧
    str "!test" ++ [0] ∈ hashedFor punct36 (str "test") ∧
    str "!test" ++ [0] ∉ specCandidates punct36 (str "test") := by
  have hrun : ∀ punct : List Byte, (∀ c ∈ punct, c ≠ 0) →
      (parse_dict ⟨hashcrack_c false, SHA1, emptyTab, punct, 0⟩ (Worker.init fun _ => 0)
        (str "test" ++ [10])).map (fun st => st.hashed) = some (hashedFor punct (str "test")) := by
    intro punct hp
    obtain ⟨st1, h1, h2, _⟩ := parse_dict_one_word ⟨hashcrack_c false, SHA1, emptyTab, punct, 0⟩
      (pwchk_total _ (valid_hashcrack_c false) (tabInv_empty _ []) SHA1_length) (str "test")
      (str "test" ++ [10]) (by decide) (by decide) hp (Or.inl rfl) (Worker.init fun _ => 0)
    rw [h1, hashedFor_eq]
    simp only [Option.map_some']
    rw [h2]
    rfl
  refine ⟨?_, hrun punct36 punct36_ok.2.2, by decide, by decide, by decide, by decide, by decide⟩
  rw [hrun (str "!@") (by decide)]
  decide

/-! ## `salt.c`: the loader and the salt list -/

/-- Function `tabadd` changes the top-level slot indexed by the leading chunk of the
digest, and leaves an entry there. -/
theorem tabadd_top (P : Params) (hP : P.Valid) (tab : Table) (dig : List Byte) (name : Name)
    (hd : dig.length = P.DIGSZ) (hinv : TabInv P tab []) :
    ∃ idx e k, idxs P dig 0 = some idx ∧ tabadd P tab dig name = some (setSlot tab idx e, k) ∧
      e ≠ pwent.null := by
  obtain ⟨idx, hidx⟩ := idxs_isSome P dig 0 (by rw [hd, hP.1]; have := hP.2.1; omega)
  obtain ⟨e, k, hrun, _, _, _, hsame, _⟩ :=
    tabadd_loop_spec P hP name dig hd P.IDXS_PER_DIG 0 idx tab [] (by omega) hP.2.1 rfl hidx
      (by intro k hk; omega) (hinv idx)
  refine ⟨idx, e, k, hidx, ?_, ?_⟩
  · unfold tabadd; rw [hidx]; exact hrun
  · intro he
    rw [he, foundEnt_null] at hsame
    cases hsame

/-- Loading salted records: success, the index invariant, the answers of
the index, which top-level slots are in use, and the salt list. -/
theorem salt_load_spec (P : Params) (hP : P.Valid) :
    ∀ (rs seen : List (List Byte × Name)) (tab : Table) (head : List (List Byte)),
      TabInv P tab [] →
      (∀ q, q.length = P.DIGSZ → found P tab 0 q = some (optList (inserted seen q))) →
      (∀ idx, tab idx ≠ pwent.null ↔ ∃ q ∈ seen, Salt.chunk0 P q = some idx) →
      (∀ r ∈ rs, r.1.length = P.DIGSZ) →
      ∃ tab1 head1, Salt.parse_passwd P (tab, head) rs = some (tab1, head1) ∧ TabInv P tab1 [] ∧
        (∀ q, q.length = P.DIGSZ →
          found P tab1 0 q = some (optList (inserted (seen ++ rs) q))) ∧
        head1 = ((Salt.firstOfChunk P seen rs).map fun r => r.1.take Salt.SALTSZ).reverse
          ++ head := by
  intro rs
  induction rs with
  | nil =>
    intro seen tab head hinv hf _ _
    exact ⟨tab, head, rfl, hinv, by simpa using hf, by simp [Salt.firstOfChunk]⟩
  | cons r rs ih =>
    intro seen tab head hinv hf htop hrs
    have hr : r.1.length = P.DIGSZ := hrs r (List.mem_cons_self _ _)
    obtain ⟨idx, e, k, hidx, hadd, hene⟩ := tabadd_top P hP tab r.1 r.2 hr hinv
    obtain ⟨tab1, k1, hadd1, _, hinv1, hsame, hframe⟩ := tabadd_spec P hP tab r.1 r.2 hr hinv
    have htab1 : tab1 = setSlot tab idx e := by
      rw [hadd] at hadd1
      exact (congrArg Prod.fst (Option.some.inj hadd1)).symm
    have hf1 : ∀ q, q.length = P.DIGSZ →
        found P tab1 0 q = some (optList (inserted (seen ++ [r]) q)) := by
      intro q hq
      have hre : r = (r.1, r.2) := rfl
      rw [hre, inserted_append]
      by_cases hqr : r.1 = q
      · rw [if_pos hqr, ← hqr, hsame, hf r.1 hr, optList_getD]
        simp [optList]
      · rw [if_neg hqr, hframe q hq (fun h => hqr h.symm), hf q hq]
    have htop1 : ∀ j, tab1 j ≠ pwent.null ↔ ∃ q ∈ seen ++ [r], Salt.chunk0 P q = some j := by
      intro j
      rw [htab1]
      unfold setSlot
      by_cases hj : j = idx
      · rw [if_pos hj]
        constructor
        · intro _
          exact ⟨r, by simp, by rw [hj]; exact hidx⟩
        · intro _; exact hene
      · rw [if_neg hj, htop j]
        constructor
        · rintro ⟨q, hq, hc⟩
          exact ⟨q, List.mem_append_left _ hq, hc⟩
        · rintro ⟨q, hq, hc⟩
          rcases List.mem_append.1 hq with hq | hq
          · exact ⟨q, hq, hc⟩
          · rw [List.mem_singleton.1 hq] at hc
            unfold Salt.chunk0 at hc
            rw [hidx] at hc
            exact absurd (Option.some.inj hc).symm hj
    have hany : (seen.any fun q => decide (Salt.chunk0 P q = Salt.chunk0 P r)) = true ↔
        tab idx ≠ pwent.null := by
      rw [htop idx, List.any_eq_true]
      constructor
      · rintro ⟨q, hq, hc⟩
        refine ⟨q, hq, ?_⟩
        have := of_decide_eq_true hc
        rw [this]; exact hidx
      · rintro ⟨q, hq, hc⟩
        refine ⟨q, hq, decide_eq_true ?_⟩
        rw [hc]; exact hidx.symm
    by_cases hnull : tab idx = pwent.null
    · have hsa : Salt.saltadd P r.1 head tab = some (r.1.take Salt.SALTSZ :: head) := by
        unfold Salt.saltadd
        rw [hidx]
        simp only [Option.map_some', hnull]
      have hno : ¬ ((seen.any fun q => decide (Salt.chunk0 P q = Salt.chunk0 P r)) = true) := by
        rw [hany]; exact fun h => h hnull
      obtain ⟨tab2, head2, hl, hinv2, hf2, hh2⟩ := ih (seen ++ [r]) tab1
        (r.1.take Salt.SALTSZ :: head) hinv1 hf1 htop1
        (fun x hx => hrs x (List.mem_cons_of_mem _ hx))
      refine ⟨tab2, head2, ?_, hinv2, ?_, ?_⟩
      · rw [Salt.parse_passwd, hsa]
        simp only [Option.some_bind, hadd1]
        exact hl
      · intro q hq
        have := hf2 q hq
        rwa [List.append_assoc, List.singleton_append] at this
      · rw [hh2, Salt.firstOfChunk, if_neg hno]
        simp
    · have hsa : Salt.saltadd P r.1 head tab = some head := by
        unfold Salt.saltadd
        rw [hidx]
        cases hte : tab idx with
        | null => exact absurd hte hnull
        | leaf _ _ _ => simp only [Option.map_some', hte]
        | node _ _ _ _ => simp only [Option.map_some', hte]
      have hyes : (seen.any fun q => decide (Salt.chunk0 P q = Salt.chunk0 P r)) = true := by
        rw [hany]; exact hnull
      obtain ⟨tab2, head2, hl, hinv2, hf2, hh2⟩ := ih (seen ++ [r]) tab1 head hinv1 hf1 htop1
        (fun x hx => hrs x (List.mem_cons_of_mem _ hx))
      refine ⟨tab2, head2, ?_, hinv2, ?_, ?_⟩
      · rw [Salt.parse_passwd, hsa]
        simp only [Option.some_bind, hadd1]
        exact hl
      · intro q hq
        have := hf2 q hq
        rwa [List.append_assoc, List.singleton_append] at this
      · rw [hh2, Salt.firstOfChunk, if_pos hyes]

/-- Loading salted records into the empty index. -/
theorem salt_load_empty (P : Params) (hP : P.Valid) (rs : List (List Byte × Name))
    (hrs : ∀ r ∈ rs, r.1.length = P.DIGSZ) :
    ∃ tab head, Salt.parse_passwd P (emptyTab, []) rs = some (tab, head) ∧ TabInv P tab [] ∧
      (∀ q, q.length = P.DIGSZ → found P tab 0 q = some (optList (inserted rs q))) ∧
      head = ((Salt.firstOfChunk P [] rs).map fun r => r.1.take Salt.SALTSZ).reverse := by
  obtain ⟨tab, head, hl, hinv, hf, hh⟩ := salt_load_spec P hP rs [] emptyTab [] (tabInv_empty P [])
    (fun q hq => by rw [found_empty P hP q hq]; rfl)
    (fun idx => by simp [emptyTab]) hrs
  exact ⟨tab, head, hl, hinv, by simpa using hf, by simpa using hh⟩

theorem idxs_take (P : Params) (d : List Byte) (n : Nat) (hn : 2 ≤ n) :
    idxs P (d.take n) 0 = idxs P d 0 := by
  unfold idxs
  rw [List.getElem?_take_of_lt (by omega), List.getElem?_take_of_lt (by omega)]

/-- The records kept by `firstOfChunk` have pairwise different leading
chunks, none of which is the leading chunk of an earlier record. -/
theorem firstOfChunk_nodup (P : Params) :
    ∀ (rs seen : List (List Byte × Name)),
      ((Salt.firstOfChunk P seen rs).map (Salt.chunk0 P)).Nodup ∧
      ∀ x ∈ Salt.firstOfChunk P seen rs, ∀ q ∈ seen, Salt.chunk0 P q ≠ Salt.chunk0 P x := by
  intro rs
  induction rs with
  | nil => intro seen; simp [Salt.firstOfChunk]
  | cons r rs ih =>
    intro seen
    obtain ⟨hn, hs⟩ := ih (seen ++ [r])
    rw [Salt.firstOfChunk]
    by_cases hany : (seen.any fun q => decide (Salt.chunk0 P q = Salt.chunk0 P r)) = true
    · rw [if_pos hany]
      exact ⟨hn, fun x hx q hq => hs x hx q (List.mem_append_left _ hq)⟩
    · rw [if_neg hany]
      refine ⟨?_, ?_⟩
      · rw [List.map_cons, List.nodup_cons]
        refine ⟨?_, hn⟩
        intro hmem
        obtain ⟨x, hx, hxc⟩ := List.mem_map.1 hmem
        exact hs x hx r (by simp) hxc.symm
      · intro x hx q hq
        rcases List.mem_cons.1 hx with hx | hx
        · rw [hx]
          intro hc
          apply hany
          rw [List.any_eq_true]
          exact ⟨q, hq, decide_eq_true hc⟩
        · exact hs x hx q (List.mem_append_left _ hq)

/-- Every record has its leading chunk among the kept or the earlier ones. -/
theorem firstOfChunk_cover (P : Params) :
    ∀ (rs seen : List (List Byte × Name)) (r : List Byte × Name), r ∈ rs →
      (∃ x ∈ Salt.firstOfChunk P seen rs, Salt.chunk0 P x = Salt.chunk0 P r) ∨
      ∃ q ∈ seen, Salt.chunk0 P q = Salt.chunk0 P r := by
  intro rs
  induction rs with
  | nil => intro seen r hr; cases hr
  | cons a rs ih =>
    intro seen r hr
    rw [Salt.firstOfChunk]
    by_cases hany : (seen.any fun q => decide (Salt.chunk0 P q = Salt.chunk0 P a)) = true
    · rw [if_pos hany]
      rcases List.mem_cons.1 hr with hr | hr
      · right
        rw [List.any_eq_true] at hany
        obtain ⟨q, hq, hc⟩ := hany
        exact ⟨q, hq, by rw [hr]; exact of_decide_eq_true hc⟩
      · rcases ih (seen ++ [a]) r hr with h | ⟨q, hq, hc⟩
        · exact Or.inl h
        · rcases List.mem_append.1 hq with hq | hq
          · exact Or.inr ⟨q, hq, hc⟩
          · right
            rw [List.any_eq_true] at hany
            obtain ⟨q1, hq1, hc1⟩ := hany
            rw [List.mem_singleton.1 hq] at hc
            exact ⟨q1, hq1, (of_decide_eq_true hc1).trans hc⟩
    · rw [if_neg hany]
      rcases List.mem_cons.1 hr with hr | hr
      · left
        exact ⟨a, List.mem_cons_self _ _, by rw [hr]⟩
      · rcases ih (seen ++ [a]) r hr with ⟨x, hx, hc⟩ | ⟨q, hq, hc⟩
        · exact Or.inl ⟨x, List.mem_cons_of_mem _ hx, hc⟩
        · rcases List.mem_append.1 hq with hq | hq
          · exact Or.inr ⟨q, hq, hc⟩
          · left
            rw [List.mem_singleton.1 hq] at hc
            exact ⟨a, List.mem_cons_self _ _, hc⟩

/-- What one record contributes depends on the records before it only. -/
theorem firstOfChunk_split (P : Params) :
    ∀ (pre seen : List (List Byte × Name)) (r : List Byte × Name)
      (post : List (List Byte × Name)),
      Salt.firstOfChunk P seen (pre ++ r :: post) =
        Salt.firstOfChunk P seen pre ++
          (if ((seen ++ pre).any fun q => decide (Salt.chunk0 P q = Salt.chunk0 P r)) = true
            then [] else [r]) ++
          Salt.firstOfChunk P (seen ++ pre ++ [r]) post := by
  intro pre
  induction pre with
  | nil =>
    intro seen r post
    simp only [List.nil_append, List.append_nil, Salt.firstOfChunk]
    by_cases h : (seen.any fun q => decide (Salt.chunk0 P q = Salt.chunk0 P r)) = true
    · rw [if_pos h, if_pos h]; rfl
    · rw [if_neg h, if_neg h]; rfl
  | cons a pre ih =>
    intro seen r post
    rw [List.cons_append, Salt.firstOfChunk, Salt.firstOfChunk, ih (seen ++ [a]) r post]
    have e1 : seen ++ [a] ++ pre = seen ++ a :: pre := by simp
    rw [e1]
    by_cases h : (seen.any fun q => decide (Salt.chunk0 P q = Salt.chunk0 P a)) = true
    · rw [if_pos h, if_pos h]
    · rw [if_neg h, if_neg h]; simp

/-- C8: loading the salted records `r1..rn` succeeds and leaves a salt list
that holds, in reverse file order, the salt of `ri` exactly for those `i`
for which no earlier record has a salt with the same leading 16-bit chunk
(the contribution of each record is spelled out for every split of the
file); so the list has one salt for every leading chunk that occurs, the
leading chunks of its salts are pairwise different and it has no
duplicates. -/
theorem C8_salt_set (be : Bool) (rs : List (List Byte × Name))
    (hrs : ∀ r ∈ rs, r.1.length = 28) :
    ∃ tab head, Salt.parse_passwd (salt_c be) (emptyTab, []) rs = some (tab, head) ∧
      head.reverse = (Salt.firstOfChunk (salt_c be) [] rs).map (fun r => r.1.take 8) ∧
      (∀ pre r post, rs = pre ++ r :: post →
        head.reverse =
          (Salt.firstOfChunk (salt_c be) [] pre).map (fun r => r.1.take 8) ++
            (if ∃ q ∈ pre, idxs (salt_c be) q.1 0 = idxs (salt_c be) r.1 0 then []
              else [r.1.take 8]) ++
            (Salt.firstOfChunk (salt_c be) (pre ++ [r]) post).map (fun r => r.1.take 8)) ∧
      (head.map fun s => idxs (salt_c be) s 0).Nodup ∧ head.Nodup ∧
      ∀ r ∈ rs, ∃ s ∈ head, idxs (salt_c be) s 0 = idxs (salt_c be) r.1 0 := by
  obtain ⟨tab, head, hl, _, _, hh⟩ := salt_load_empty (salt_c be) (valid_salt_c be) rs hrs
  have hrev : head.reverse = (Salt.firstOfChunk (salt_c be) [] rs).map (fun r => r.1.take 8) := by
    rw [hh, List.reverse_reverse]; rfl
  have hchunk : ∀ r : List Byte × Name,
      idxs (salt_c be) (r.1.take 8) 0 = Salt.chunk0 (salt_c be) r :=
    fun r => idxs_take (salt_c be) r.1 8 (by omega)
  have hmapc : head.reverse.map (fun s => idxs (salt_c be) s 0) =
      (Salt.firstOfChunk (salt_c be) [] rs).map (Salt.chunk0 (salt_c be)) := by
    rw [hrev, List.map_map]
    apply List.map_congr_left
    intro r _
    exact hchunk r
  have hnd : (head.map fun s => idxs (salt_c be) s 0).Nodup := by
    have := (firstOfChunk_nodup (salt_c be) rs []).1
    rw [← hmapc, List.map_reverse, List.nodup_reverse] at this
    exact this
  refine ⟨tab, head, hl, hrev, ?_, hnd, List.Nodup.of_map _ hnd, ?_⟩
  · intro pre r post hsplit
    rw [hrev, hsplit, firstOfChunk_split (salt_c be) pre [] r post]
    simp only [List.nil_append, List.map_append]
    congr 2
    by_cases h : ∃ q ∈ pre, idxs (salt_c be) q.1 0 = idxs (salt_c be) r.1 0
    · have h1 : (pre.any fun q => decide (Salt.chunk0 (salt_c be) q = Salt.chunk0 (salt_c be) r))
          = true := by
        rw [List.any_eq_true]
        obtain ⟨q, hq, hc⟩ := h
        exact ⟨q, hq, decide_eq_true hc⟩
      rw [if_pos h, if_pos h1]; rfl
    · have h1 : ¬ ((pre.any fun q =>
          decide (Salt.chunk0 (salt_c be) q = Salt.chunk0 (salt_c be) r)) = true) := by
        rw [List.any_eq_true]
        rintro ⟨q, hq, hc⟩
        exact h ⟨q, hq, of_decide_eq_true hc⟩
      rw [if_neg h, if_neg h1]; rfl
  · intro r hr
    rcases firstOfChunk_cover (salt_c be) rs [] r hr with ⟨x, hx, hc⟩ | ⟨q, hq, _⟩
    · refine ⟨x.1.take 8, ?_, ?_⟩
      · rw [← List.mem_reverse, hrev]
        exact List.mem_map.2 ⟨x, hx, rfl⟩
      · rw [hchunk x]; exact hc
    · cases hq

/-- Three salted records; the salts of the first two share their leading
chunk `aa bb`, the third starts with `cc dd`. -/
theorem C8_salt_set_witness :
    (∀ r ∈ [([0xaa, 0xbb, 1, 1, 1, 1, 1, 1] ++ List.replicate 20 (5 : Byte), str "ann"),
        ([0xaa, 0xbb, 2, 2, 2, 2, 2, 2] ++ List.replicate 20 (6 : Byte), str "bob"),
        ([0xcc, 0xdd, 3, 3, 3, 3, 3, 3] ++ List.replicate 20 (7 : Byte), str "cy")],
      r.1.length = 28) ∧
    ∃ tab head, Salt.parse_passwd (salt_c false) (emptyTab, [])
        [([0xaa, 0xbb, 1, 1, 1, 1, 1, 1] ++ List.replicate 20 (5 : Byte), str "ann"),
          ([0xaa, 0xbb, 2, 2, 2, 2, 2, 2] ++ List.replicate 20 (6 : Byte), str "bob"),
          ([0xcc, 0xdd, 3, 3, 3, 3, 3, 3] ++ List.replicate 20 (7 : Byte), str "cy")]
          = some (tab, head) ∧
      head.reverse = (Salt.firstOfChunk (salt_c false) []
        [([0xaa, 0xbb, 1, 1, 1, 1, 1, 1] ++ List.replicate 20 (5 : Byte), str "ann"),
          ([0xaa, 0xbb, 2, 2, 2, 2, 2, 2] ++ List.replicate 20 (6 : Byte), str "bob"),
          ([0xcc, 0xdd, 3, 3, 3, 3, 3, 3] ++ List.replicate 20 (7 : Byte), str "cy")]).map
          (fun r => r.1.take 8) ∧
      (∀ pre r post,
        [([0xaa, 0xbb, 1, 1, 1, 1, 1, 1] ++ List.replicate 20 (5 : Byte), str "ann"),
          ([0xaa, 0xbb, 2, 2, 2, 2, 2, 2] ++ List.replicate 20 (6 : Byte), str "bob"),
          ([0xcc, 0xdd, 3, 3, 3, 3, 3, 3] ++ List.replicate 20 (7 : Byte), str "cy")]
          = pre ++ r :: post →
        head.reverse =
          (Salt.firstOfChunk (salt_c false) [] pre).map (fun r => r.1.take 8) ++
            (if ∃ q ∈ pre, idxs (salt_c false) q.1 0 = idxs (salt_c false) r.1 0 then []
              else [r.1.take 8]) ++
            (Salt.firstOfChunk (salt_c false) (pre ++ [r]) post).map (fun r => r.1.take 8)) ∧
      (head.map fun s => idxs (salt_c false) s 0).Nodup ∧ head.Nodup ∧
      ∀ r ∈ [([0xaa, 0xbb, 1, 1, 1, 1, 1, 1] ++ List.replicate 20 (5 : Byte), str "ann"),
          ([0xaa, 0xbb, 2, 2, 2, 2, 2, 2] ++ List.replicate 20 (6 : Byte), str "bob"),
          ([0xcc, 0xdd, 3, 3, 3, 3, 3, 3] ++ List.replicate 20 (7 : Byte), str "cy")],
        ∃ s ∈ head, idxs (salt_c false) s 0 = idxs (salt_c false) r.1 0 :=
  ⟨by decide, C8_salt_set false _ (by decide)⟩

/-! ## `salt.c`: the dictionary loop -/

/-- One sweep over the salt list for the string `pw`. -/
theorem salt_sweep_spec (P : Params) (sha : List Byte → List Byte) (tab : Table)
    (hok : ∀ pw sdig, 8 ≤ sdig.length → ∃ r, Salt.pwchk P sha tab pw sdig = some r)
    (pw : List Byte) :
    ∀ (head : List (List Byte)) (st : Salt.State), (∀ s ∈ head, 8 ≤ s.length) →
      ∃ st1, Salt.sweep P sha tab pw head st = some st1 ∧
        st1.hashed = st.hashed ++ head.map (fun s => pw ++ s.take Salt.SALTSZ) ∧
        (st1.ofp, st1.cnt) =
          Salt.runEvents P sha tab (head.map fun s => (pw, s)) (st.ofp, st.cnt) := by
  intro head
  induction head with
  | nil => intro st _; exact ⟨st, rfl, by simp, rfl⟩
  | cons s rest ih =>
    intro st hhead
    obtain ⟨r, hr⟩ := hok pw s (hhead s (List.mem_cons_self _ _))
    have hrest : ∀ x ∈ rest, 8 ≤ x.length := fun x hx => hhead x (List.mem_cons_of_mem _ hx)
    obtain ⟨m, k⟩ := r
    cases m with
    | none =>
      obtain ⟨st1, hrun, hh, hl⟩ := ih { st with hashed := st.hashed ++ [pw ++ s.take Salt.SALTSZ] }
        hrest
      refine ⟨st1, ?_, ?_, ?_⟩
      · rw [Salt.sweep, hr]; exact hrun
      · rw [hh]; simp
      · rw [hl, List.map_cons, Salt.runEvents]
        have : Salt.hits P sha tab pw s = [] := by unfold Salt.hits; rw [hr]
        rw [this]; rfl
    | some arr =>
      obtain ⟨st1, hrun, hh, hl⟩ := ih
        ⟨(logMatches pw (namesOf arr) (st.ofp, st.cnt)).1,
          (logMatches pw (namesOf arr) (st.ofp, st.cnt)).2,
          st.hashed ++ [pw ++ s.take Salt.SALTSZ]⟩ hrest
      refine ⟨st1, ?_, ?_, ?_⟩
      · rw [Salt.sweep, hr]; exact hrun
      · rw [hh]; simp
      · rw [hl, List.map_cons, Salt.runEvents]
        have : Salt.hits P sha tab pw s = namesOf arr := by unfold Salt.hits; rw [hr]
        rw [this]

theorem readLine_split (l rest : List Byte) (hl : ∀ b ∈ l, b ≠ 10) :
    ∀ n, l.length < n → readLine n (l ++ 10 :: rest) = (l ++ [10], rest) := by
  induction l with
  | nil =>
    intro n hn
    obtain ⟨m, rfl⟩ : ∃ m, n = m + 1 := ⟨n - 1, by simp at hn; omega⟩
    simp [readLine]
  | cons a t ih =>
    intro n hn
    obtain ⟨m, rfl⟩ : ∃ m, n = m + 1 := ⟨n - 1, by simp at hn; omega⟩
    have ha : a ≠ 10 := hl a (List.mem_cons_self _ _)
    have := ih (fun b hb => hl b (List.mem_cons_of_mem _ hb)) m (by simp at hn; omega)
    simp [readLine, ha, this]

theorem runEvents_append (P : Params) (sha : List Byte → List Byte) (tab : Table)
    (a b : List (List Byte × List Byte)) (s : List Record × Nat) :
    Salt.runEvents P sha tab (a ++ b) s = Salt.runEvents P sha tab b (Salt.runEvents P sha tab a s) := by
  induction a generalizing s with
  | nil => rfl
  | cons x t ih => simp only [List.cons_append, Salt.runEvents]; exact ih _

/-- The dictionary loop of `salt.c` on newline-terminated lines: every line
is tested once with every salt of the list, in order. -/
theorem salt_parse_dict_loop_spec (P : Params) (sha : List Byte → List Byte) (tab : Table)
    (hok : ∀ pw sdig, 8 ≤ sdig.length → ∃ r, Salt.pwchk P sha tab pw sdig = some r)
    (head : List (List Byte)) (hhead : ∀ s ∈ head, 8 ≤ s.length) :
    ∀ (lines : List (List Byte)) (fuel : Nat) (st : Salt.State),
      (∀ l ∈ lines, ∀ b ∈ l, b ≠ 10) →
      (lines.flatMap fun l => l ++ [10]).length ≤ fuel →
      ∃ st1, Salt.parse_dict_loop P sha tab head fuel (lines.flatMap fun l => l ++ [10]) st
          = some st1 ∧
        st1.hashed = st.hashed ++
          (Salt.events head lines).map (fun e => e.1 ++ e.2.take Salt.SALTSZ) ∧
        (st1.ofp, st1.cnt) = Salt.runEvents P sha tab (Salt.events head lines) (st.ofp, st.cnt) := by
  intro lines
  induction lines with
  | nil =>
    intro fuel st _ _
    refine ⟨st, ?_, by simp [Salt.events], rfl⟩
    rw [Salt.parse_dict_loop]
    rfl
  | cons l lines ih =>
    intro fuel st hl hfuel
    have hll : ∀ b ∈ l, b ≠ 10 := hl l (List.mem_cons_self _ _)
    have hflat : ((l :: lines).flatMap fun l => l ++ [10]) =
        l ++ 10 :: (lines.flatMap fun l => l ++ [10]) := by simp
    rw [hflat] at hfuel ⊢
    have hgl : getline (l ++ 10 :: (lines.flatMap fun l => l ++ [10])) =
        some (l ++ [10], lines.flatMap fun l => l ++ [10]) := by
      unfold getline
      rw [if_neg (by simp), readLine_split l _ hll _ (by simp)]
    obtain ⟨f, rfl⟩ : ∃ f, fuel = f + 1 := ⟨fuel - 1, by simp at hfuel; omega⟩
    obtain ⟨st1, hrun1, hh1, hl1⟩ := salt_sweep_spec P sha tab hok (Salt.cstrOf l) head st hhead
    obtain ⟨st2, hrun2, hh2, hl2⟩ := ih f st1 (fun x hx => hl x (List.mem_cons_of_mem _ hx))
      (by simp at hfuel ⊢; omega)
    refine ⟨st2, ?_, ?_, ?_⟩
    · rw [Salt.parse_dict_loop, hgl]
      simp only [List.dropLast_concat, hrun1, Option.some_bind]
      exact hrun2
    · rw [hh2, hh1]
      simp [Salt.events, Function.comp_def]
    · rw [hl2, hl1]
      unfold Salt.events
      rw [List.flatMap_cons, runEvents_append]

theorem logMatches_mono (cand : List Byte) (x : Record) :
    ∀ (names : List Name) (s : List Record × Nat), x ∈ s.1 → x ∈ (logMatches cand names s).1 := by
  intro names
  induction names with
  | nil => intro s h; exact h
  | cons n ns ih =>
    intro s h
    rw [logMatches]
    exact ih _ (List.mem_append_left _ h)

theorem logMatches_mem (cand : List Byte) (name : Name) :
    ∀ (names : List Name) (s : List Record × Nat), name ∈ names →
      ∃ n, (⟨n, name, cand⟩ : Record) ∈ (logMatches cand names s).1 := by
  intro names
  induction names with
  | nil => intro s h; cases h
  | cons a ns ih =>
    intro s h
    rw [logMatches]
    rcases List.mem_cons.1 h with h | h
    · subst h
      exact ⟨s.2 + 1, logMatches_mono cand _ ns _ (by simp)⟩
    · exact ih _ h

theorem runEvents_mono (P : Params) (sha : List Byte → List Byte) (tab : Table) (x : Record) :
    ∀ (es : List (List Byte × List Byte)) (s : List Record × Nat), x ∈ s.1 →
      x ∈ (Salt.runEvents P sha tab es s).1 := by
  intro es
  induction es with
  | nil => intro s h; exact h
  | cons e es ih =>
    intro s h
    rw [Salt.runEvents]
    exact ih _ (logMatches_mono _ x _ s h)

/-- A test that finds a name leaves a record with that name and the string
tested in the log. -/
theorem runEvents_mem (P : Params) (sha : List Byte → List Byte) (tab : Table)
    (pw sdig : List Byte) (name : Name) (hn : name ∈ Salt.hits P sha tab pw sdig) :
    ∀ (es : List (List Byte × List Byte)) (s : List Record × Nat), (pw, sdig) ∈ es →
      ∃ n, (⟨n, name, pw⟩ : Record) ∈ (Salt.runEvents P sha tab es s).1 := by
  intro es
  induction es with
  | nil => intro s h; cases h
  | cons e es ih =>
    intro s h
    rw [Salt.runEvents]
    rcases List.mem_cons.1 h with h | h
    · obtain ⟨n, hmem⟩ := logMatches_mem pw name _ s hn
      refine ⟨n, runEvents_mono P sha tab _ es _ ?_⟩
      rw [← h]; exact hmem
    · exact ih _ h

theorem cstrOf_id (pw : List Byte) (h : ∀ b ∈ pw, b ≠ 0) : Salt.cstrOf pw = pw := by
  unfold Salt.cstrOf
  rw [List.takeWhile_eq_self_iff]
  intro b hb
  simpa using h b hb

/-- On an index that satisfies the invariant `pwchk` of `salt.c` never reads
outside its 28-byte key, for salts of at least 8 bytes. -/
theorem salt_pwchk_total (be : Bool) (sha : List Byte → List Byte)
    (hsha : ∀ x, (sha x).length = 20) (tab : Table) (hinv : TabInv (salt_c be) tab [])
    (pw sdig : List Byte) (hs : 8 ≤ sdig.length) :
    ∃ r, Salt.pwchk (salt_c be) sha tab pw sdig = some r := by
  obtain ⟨r, k, h, _⟩ := pwchk_walk_bound (salt_c be) (valid_salt_c be) tab hinv
    (Salt.saltdig sha pw sdig) (by
      unfold Salt.saltdig
      rw [List.length_append, hsha, List.length_take, Salt.SALTSZ, Nat.min_eq_left hs]; rfl)
  exact ⟨(r, k), h⟩

theorem firstOfChunk_subset (P : Params) :
    ∀ (rs seen : List (List Byte × Name)) (x : List Byte × Name),
      x ∈ Salt.firstOfChunk P seen rs → x ∈ rs := by
  intro rs
  induction rs with
  | nil => intro seen x hx; simp [Salt.firstOfChunk] at hx
  | cons a rs ih =>
    intro seen x hx
    rw [Salt.firstOfChunk] at hx
    by_cases hany : (seen.any fun q => decide (Salt.chunk0 P q = Salt.chunk0 P a)) = true
    · rw [if_pos hany] at hx
      exact List.mem_cons_of_mem _ (ih _ x hx)
    · rw [if_neg hany] at hx
      rcases List.mem_cons.1 hx with hx | hx
      · rw [hx]; exact List.mem_cons_self _ _
      · exact List.mem_cons_of_mem _ (ih _ x hx)

/-- The whole run of `salt.c` on records with 28-byte keys and a dictionary
of newline-terminated lines: the loader succeeds, and every line is tested
once with every salt of the salt list, in order. -/
theorem salt_run_spec (be : Bool) (sha : List Byte → List Byte) (hsha : ∀ x, (sha x).length = 20)
    (rs : List (List Byte × Name)) (hrs : ∀ r ∈ rs, r.1.length = 28)
    (lines : List (List Byte)) (hlines : ∀ l ∈ lines, ∀ b ∈ l, b ≠ 10) :
    ∃ tab head st, Salt.parse_passwd (salt_c be) (emptyTab, []) rs = some (tab, head) ∧
      Salt.main (salt_c be) sha rs (lines.flatMap fun l => l ++ [10]) = some st ∧
      TabInv (salt_c be) tab [] ∧
      (∀ q, q.length = 28 → found (salt_c be) tab 0 q = some (optList (inserted rs q))) ∧
      head = ((Salt.firstOfChunk (salt_c be) [] rs).map fun r => r.1.take 8).reverse ∧
      (∀ s ∈ head, s.length = 8) ∧
      st.hashed = (Salt.events head lines).map (fun e => e.1 ++ e.2) ∧
      (st.ofp, st.cnt) = Salt.runEvents (salt_c be) sha tab (Salt.events head lines) ([], 0) := by
  obtain ⟨tab, head, hl, hinv, hf, hh⟩ := salt_load_empty (salt_c be) (valid_salt_c be) rs hrs
  have hlen : ∀ s ∈ head, s.length = 8 := by
    intro s hs
    rw [hh, List.mem_reverse] at hs
    obtain ⟨r, hr, rfl⟩ := List.mem_map.1 hs
    have h28 : r.1.length = 28 := hrs r (firstOfChunk_subset (salt_c be) rs [] r hr)
    rw [List.length_take, Salt.SALTSZ, h28]; rfl
  obtain ⟨st, hrun, hhash, hlog⟩ := salt_parse_dict_loop_spec (salt_c be) sha tab
    (fun pw sdig h8 => salt_pwchk_total be sha hsha tab hinv pw sdig h8) head
    (fun s hs => by rw [hlen s hs]) lines _ ⟨[], 0, []⟩ hlines (le_refl _)
  refine ⟨tab, head, st, hl, ?_, hinv, hf, hh, hlen, ?_, hlog⟩
  · unfold Salt.main
    rw [hl]
    exact hrun
  · rw [hhash, List.nil_append]
    apply List.map_congr_left
    intro e he
    unfold Salt.events at he
    obtain ⟨l, _, hl2⟩ := List.mem_flatMap.1 he
    obtain ⟨s, hs, rfl⟩ := List.mem_map.1 hl2
    show _ ++ s.take Salt.SALTSZ = _ ++ s
    rw [List.take_of_length_le (by rw [hlen s hs]; decide)]

/-! ## `salt.c`: what is hashed and what is reported -/

/-- The names at the end of a walk of `pwchk` are the names stored under
the digest walked. -/
theorem walk_names (P : Params) (tab : Table) (ops : List (List Byte × Name)) (q : List Byte)
    (hf : found P tab 0 q = some (optList (inserted ops q))) :
    (match pwchk_walk P tab q with
      | some (some arr, _) => namesOf arr
      | _ => []) = inserted ops q := by
  unfold found at hf
  unfold pwchk_walk
  cases hw : walkFrom P tab 0 q with
  | none => rw [hw] at hf; cases hf
  | some r =>
    obtain ⟨m, k⟩ := r
    rw [hw] at hf
    simp only [Option.map_some', Option.some.injEq] at hf
    unfold optList at hf
    cases m with
    | none =>
      by_cases hn : inserted ops q = []
      · rw [hn]
      · rw [if_neg hn] at hf; cases hf
    | some arr =>
      by_cases hn : inserted ops q = []
      · rw [if_pos hn] at hf; cases hf
      · rw [if_neg hn] at hf
        exact Option.some.inj hf

theorem salt_hits_eq (be : Bool) (sha : List Byte → List Byte) (hsha : ∀ x, (sha x).length = 20)
    (tab : Table) (rs : List (List Byte × Name))
    (hf : ∀ q, q.length = 28 → found (salt_c be) tab 0 q = some (optList (inserted rs q)))
    (pw s : List Byte) (hs : s.length = 8) :
    Salt.hits (salt_c be) sha tab pw s = inserted rs (s ++ sha (pw ++ s)) := by
  have hkey : Salt.saltdig sha pw s = s ++ sha (pw ++ s) := by
    unfold Salt.saltdig
    rw [List.take_of_length_le (by rw [hs]; decide)]
  unfold Salt.hits Salt.pwchk
  rw [hkey]
  exact walk_names (salt_c be) tab rs _ (hf _ (by rw [List.length_append, hs, hsha]))

/-- C4 (as amended): in salted mode the 28-byte key looked up for a
candidate `pw` and an 8-byte salt `s` is `s ‖ sha (pw ‖ s)`: the salt is
appended to the hash input.  Hence, for records with 28-byte keys and a
dictionary of newline-terminated lines, a record `(name, s, sha (pw ‖ s))`
whose password `pw` is a dictionary line is reported with that name and
candidate `pw` whenever its salt is in the salt list; with that record
alone and `pw` the only line the log is exactly that one record. -/
theorem C4_salted_key_amended (be : Bool) (sha : List Byte → List Byte)
    (hsha : ∀ x, (sha x).length = 20) (rs : List (List Byte × Name))
    (hrs : ∀ r ∈ rs, r.1.length = 28) (lines : List (List Byte))
    (hlines : ∀ l ∈ lines, ∀ b ∈ l, b ≠ 10) (name : Name) (s pw : List Byte)
    (hs : s.length = 8) (hpw : ∀ b ∈ pw, b ≠ 0)
    (hmem : (s ++ sha (pw ++ s), name) ∈ rs) (hline : pw ∈ lines) :
    (∀ tab, Salt.pwchk (salt_c be) sha tab pw s =
      pwchk_walk (salt_c be) tab (s ++ sha (pw ++ s))) ∧
    ∃ tab head st, Salt.parse_passwd (salt_c be) (emptyTab, []) rs = some (tab, head) ∧
      Salt.main (salt_c be) sha rs (lines.flatMap fun l => l ++ [10]) = some st ∧
      (s ∈ head → ∃ n, (⟨n, name, pw⟩ : Record) ∈ st.ofp) ∧
      (rs = [(s ++ sha (pw ++ s), name)] → lines = [pw] → st.ofp = [⟨1, name, pw⟩]) := by
  have hkey : Salt.saltdig sha pw s = s ++ sha (pw ++ s) := by
    unfold Salt.saltdig
    rw [List.take_of_length_le (by rw [hs]; decide)]
  refine ⟨fun tab => by unfold Salt.pwchk; rw [hkey], ?_⟩
  obtain ⟨tab, head, st, hl, hrun, _, hf, hh, hlen, _, hlog⟩ :=
    salt_run_spec be sha hsha rs hrs lines hlines
  have hhit : Salt.hits (salt_c be) sha tab pw s = inserted rs (s ++ sha (pw ++ s)) :=
    salt_hits_eq be sha hsha tab rs hf pw s hs
  have hofp : st.ofp = (Salt.runEvents (salt_c be) sha tab (Salt.events head lines) ([], 0)).1 :=
    congrArg Prod.fst hlog
  refine ⟨tab, head, st, hl, hrun, ?_, ?_⟩
  · intro hsh
    have hname : name ∈ Salt.hits (salt_c be) sha tab pw s := by
      rw [hhit]
      unfold inserted
      exact List.mem_map.2 ⟨(s ++ sha (pw ++ s), name),
        List.mem_filter.2 ⟨hmem, by simp⟩, rfl⟩
    have hev : (pw, s) ∈ Salt.events head lines := by
      unfold Salt.events
      refine List.mem_flatMap.2 ⟨pw, hline, List.mem_map.2 ⟨s, hsh, ?_⟩⟩
      rw [cstrOf_id pw hpw]
    rw [hofp]
    exact runEvents_mem (salt_c be) sha tab pw s name hname _ _ hev
  · intro hrs1 hlines1
    have hhead : head = [s] := by
      rw [hh, hrs1]
      simp [Salt.firstOfChunk, List.take_left' hs]
    have hins : inserted rs (s ++ sha (pw ++ s)) = [name] := by
      rw [hrs1]; simp [inserted]
    rw [hofp, hhead, hlines1]
    simp only [Salt.events, List.flatMap_cons, List.flatMap_nil, List.map_cons, List.map_nil,
      List.append_nil, cstrOf_id pw hpw, Salt.runEvents, hhit, hins]
    rfl

/-- The salted end-to-end fixture with OpenSSL's SHA1: record `bob` with
salt `saltA` and the digest of `hunter2 ‖ saltA`, dictionary `hunter2`. -/
theorem C4_salted_key_amended_witness :
    (∀ x, (SHA1 x).length = 20) ∧
    (∀ r ∈ [(saltA ++ SHA1 (str "hunter2" ++ saltA), str "bob")], r.1.length = 28) ∧
    (∀ l ∈ [str "hunter2"], ∀ b ∈ l, b ≠ 10) ∧ saltA.length = 8 ∧
    (∀ b ∈ str "hunter2", b ≠ 0) ∧
    (saltA ++ SHA1 (str "hunter2" ++ saltA), str "bob") ∈
      [(saltA ++ SHA1 (str "hunter2" ++ saltA), str "bob")] ∧
    str "hunter2" ∈ [str "hunter2"] ∧
    ((∀ tab, Salt.pwchk (salt_c false) SHA1 tab (str "hunter2") saltA =
      pwchk_walk (salt_c false) tab (saltA ++ SHA1 (str "hunter2" ++ saltA))) ∧
    ∃ tab head st, Salt.parse_passwd (salt_c false) (emptyTab, [])
        [(saltA ++ SHA1 (str "hunter2" ++ saltA), str "bob")] = some (tab, head) ∧
      Salt.main (salt_c false) SHA1 [(saltA ++ SHA1 (str "hunter2" ++ saltA), str "bob")]
        ([str "hunter2"].flatMap fun l => l ++ [10]) = some st ∧
      (saltA ∈ head → ∃ n, (⟨n, str "bob", str "hunter2"⟩ : Record) ∈ st.ofp) ∧
      ([(saltA ++ SHA1 (str "hunter2" ++ saltA), str "bob")] =
          [(saltA ++ SHA1 (str "hunter2" ++ saltA), str "bob")] →
        [str "hunter2"] = [str "hunter2"] → st.ofp = [⟨1, str "bob", str "hunter2"⟩])) :=
  ⟨SHA1_length,
    fun r hr => by rw [List.mem_singleton.1 hr]; simp [saltA, SHA1_length],
    by decide, by decide, by decide, List.mem_singleton.2 rfl, List.mem_singleton.2 rfl,
    C4_salted_key_amended false SHA1 SHA1_length _
      (fun r hr => by rw [List.mem_singleton.1 hr]; simp [saltA, SHA1_length])
      [str "hunter2"] (by decide) (str "bob") saltA (str "hunter2") (by decide) (by decide)
      (List.mem_singleton.2 rfl) (List.mem_singleton.2 rfl)⟩

/-- C4 as stated fails: with OpenSSL's SHA1 the key that `pwchk` looks up
for `hunter2` and the salt `saltA` is not `saltA ‖ SHA1(saltA ‖ hunter2)`,
and the record `bob` that stores this salt-first digest is not reported
although `hunter2` is in the dictionary. -/
theorem C4_counterexample :
    Salt.saltdig SHA1 (str "hunter2") saltA ≠ saltA ++ SHA1 (saltA ++ str "hunter2") ∧
    (Salt.main (salt_c false) SHA1 [(saltA ++ SHA1 (saltA ++ str "hunter2"), str "bob")]
      (str "hunter2" ++ [10])).map (fun st => (st.ofp, st.hashed)) =
        some ([], [str "hunter2" ++ saltA]) := by
  refine ⟨by decide, by decide⟩

/-- C9: there are a salted credential file with two records whose salts are
different but share their leading 16-bit chunk, and a dictionary that
holds both passwords, such that the second salt is never put in the salt
list and the run (with OpenSSL's SHA1) reports the first record only. -/
theorem C9_salt_undercollected :
    ∃ (rs : List (List Byte × Name)) (dict s1 s2 pw1 pw2 : List Byte) (n1 n2 : Name),
      rs = [(s1 ++ SHA1 (pw1 ++ s1), n1), (s2 ++ SHA1 (pw2 ++ s2), n2)] ∧
      s1.length = 8 ∧ s2.length = 8 ∧ s1 ≠ s2 ∧
      idxs (salt_c false) s1 0 = idxs (salt_c false) s2 0 ∧
      dict = pw1 ++ [10] ++ pw2 ++ [10] ∧ n1 ≠ n2 ∧
      (Salt.parse_passwd (salt_c false) (emptyTab, []) rs).map (fun r => r.2) = some [s1] ∧
      s2 ∉ [s1] ∧
      (Salt.main (salt_c false) SHA1 rs dict).map (fun st => (st.ofp, st.hashed)) =
        some ([⟨1, n1, pw1⟩], [pw1 ++ s1, pw2 ++ s1]) :=
  ⟨_, _, saltA, saltB, str "letmein", str "hunter2", str "alice", str "bob",
    rfl, by decide, by decide, by decide, by decide, rfl, by decide, by decide, by decide,
    by decide⟩

/-- C10 as stated fails: `hunter2` is the candidate "word `hunter`, suffix
`2`" of the Candidate Generator, but for the dictionary word `hunter` the
salted worker hashes the bare word only, so the record `bob` with password
`hunter2` is not reported. -/
theorem C10_counterexample :
    str "hunter2" ∈ specCandidates punct36 (str "hunter") ∧
    (Salt.main (salt_c false) SHA1 [(saltA ++ SHA1 (str "hunter2" ++ saltA), str "bob")]
      (str "hunter" ++ [10])).map (fun st => (st.ofp, st.hashed)) =
        some ([], [str "hunter" ++ saltA]) := by
  refine ⟨by decide, by decide⟩

/-- C10 (as amended): in salted mode, for records with 28-byte keys and a
dictionary of newline-terminated lines, the byte strings hashed are exactly
the bare words, each followed by each salt of the salt list (line by line,
the salts in list order), and each is looked up in the index: no suffixed
or prefixed variant is generated. -/
theorem C10_salted_bare_words_amended (be : Bool) (sha : List Byte → List Byte)
    (hsha : ∀ x, (sha x).length = 20) (rs : List (List Byte × Name))
    (hrs : ∀ r ∈ rs, r.1.length = 28) (lines : List (List Byte))
    (hlines : ∀ l ∈ lines, ∀ b ∈ l, b ≠ 10) :
    ∃ tab head st, Salt.parse_passwd (salt_c be) (emptyTab, []) rs = some (tab, head) ∧
      Salt.main (salt_c be) sha rs (lines.flatMap fun l => l ++ [10]) = some st ∧
      st.hashed = lines.flatMap (fun l => head.map fun s => Salt.cstrOf l ++ s) ∧
      (st.ofp, st.cnt) =
        Salt.runEvents (salt_c be) sha tab
          (lines.flatMap fun l => head.map fun s => (Salt.cstrOf l, s)) ([], 0) ∧
      ∀ l ∈ lines, ∀ s ∈ head,
        Salt.cstrOf l ++ s ∈ st.hashed ∧
        Salt.pwchk (salt_c be) sha tab (Salt.cstrOf l) s =
          pwchk_walk (salt_c be) tab (s ++ sha (Salt.cstrOf l ++ s)) := by
  obtain ⟨tab, head, st, hl, hrun, _, _, _, hlen, hhash, hlog⟩ :=
    salt_run_spec be sha hsha rs hrs lines hlines
  have hh : st.hashed = lines.flatMap (fun l => head.map fun s => Salt.cstrOf l ++ s) := by
    rw [hhash]
    simp [Salt.events, List.map_flatMap, Function.comp_def]
  refine ⟨tab, head, st, hl, hrun, hh, hlog, ?_⟩
  intro l hl1 s hs1
  constructor
  · rw [hh]
    exact List.mem_flatMap.2 ⟨l, hl1, List.mem_map.2 ⟨s, hs1, rfl⟩⟩
  · unfold Salt.pwchk Salt.saltdig
    rw [List.take_of_length_le (by rw [hlen s hs1]; decide)]

/-- Two records and two dictionary words. -/
theorem C10_salted_bare_words_amended_witness :
    (∀ x, (SHA1 x).length = 20) ∧
    (∀ r ∈ [(saltA ++ List.replicate 20 (1 : Byte), str "ann"),
        ([1, 2, 3, 4, 5, 6, 7, 8] ++ List.replicate 20 (2 : Byte), str "bob")],
      r.1.length = 28) ∧
    (∀ l ∈ [str "hunter", str "secret"], ∀ b ∈ l, b ≠ 10) ∧
    ∃ tab head st, Salt.parse_passwd (salt_c false) (emptyTab, [])
        [(saltA ++ List.replicate 20 (1 : Byte), str "ann"),
          ([1, 2, 3, 4, 5, 6, 7, 8] ++ List.replicate 20 (2 : Byte), str "bob")]
          = some (tab, head) ∧
      Salt.main (salt_c false) SHA1
        [(saltA ++ List.replicate 20 (1 : Byte), str "ann"),
          ([1, 2, 3, 4, 5, 6, 7, 8] ++ List.replicate 20 (2 : Byte), str "bob")]
        ([str "hunter", str "secret"].flatMap fun l => l ++ [10]) = some st ∧
      st.hashed = [str "hunter", str "secret"].flatMap
        (fun l => head.map fun s => Salt.cstrOf l ++ s) ∧
      (st.ofp, st.cnt) =
        Salt.runEvents (salt_c false) SHA1 tab
          ([str "hunter", str "secret"].flatMap fun l => head.map fun s => (Salt.cstrOf l, s))
          ([], 0) ∧
      ∀ l ∈ [str "hunter", str "secret"], ∀ s ∈ head,
        Salt.cstrOf l ++ s ∈ st.hashed ∧
        Salt.pwchk (salt_c false) SHA1 tab (Salt.cstrOf l) s =
          pwchk_walk (salt_c false) tab (s ++ SHA1 (Salt.cstrOf l ++ s)) :=
  ⟨SHA1_length, by decide, by decide,
    C10_salted_bare_words_amended false SHA1 SHA1_length _ (by decide) _ (by decide)⟩

/-! ## Reading the credential file -/

theorem getdelim_split (delim : Byte) (nm rest : List Byte) (hnm : ∀ b ∈ nm, b ≠ delim) :
    getdelim delim (nm ++ delim :: rest) = some (nm ++ [delim], rest) := by
  induction nm with
  | nil => simp [getdelim]
  | cons a t ih =>
    have ha : a ≠ delim := hnm a (List.mem_cons_self _ _)
    simp [getdelim, ha, ih (fun b hb => hnm b (List.mem_cons_of_mem _ hb))]

theorem readLine_long :
    ∀ (n : Nat) (f rest : List Byte), (∀ b ∈ f, b ≠ 10) → n ≤ f.length →
      readLine n (f ++ rest) = (f.take n, f.drop n ++ rest) := by
  intro n
  induction n with
  | zero => intro f rest _ _; simp [readLine]
  | succ n ih =>
    intro f rest hf hn
    match f, hf, hn with
    | a :: t, hf, hn =>
      have ha : a ≠ 10 := hf a (List.mem_cons_self _ _)
      have := ih t rest (fun b hb => hf b (List.mem_cons_of_mem _ hb)) (by simp at hn; omega)
      simp [readLine, ha, this]

theorem cstrOf_of_no_nul (s : List Byte) (h : ∀ b ∈ s, b ≠ 0) : Salt.cstrOf s = s := by
  unfold Salt.cstrOf
  rw [List.takeWhile_eq_self_iff]
  intro b hb
  simpa using h b hb

/-- What `fake_getpwent` of `hashcrack.c` does with a record `nm <TAB> f <NL>`
whose digest field `f` has not 40 characters.  A field of more than 40
characters ends in the error.  A field of less than 40 characters ends in
the error when the file ends after the record or goes on with a character
other than a newline; when an empty line follows there is no error: the
call delivers a record or leaves the arrays. -/
theorem fake_getpwent_digest_field (be : Bool) (dig nm f rest : List Byte)
    (hnm : ∀ b ∈ nm, b ≠ 9 ∧ b ≠ 0) (hf : ∀ b ∈ f, b ≠ 10) :
    (40 < f.length →
      fake_getpwent (hashcrack_c be) dig (nm ++ 9 :: (f ++ 10 :: rest)) =
        Getpwent.error "Found a hash of abnormal size!") ∧
    (f.length < 40 → rest.head? ≠ some 10 →
      fake_getpwent (hashcrack_c be) dig (nm ++ 9 :: (f ++ 10 :: rest)) =
        Getpwent.error "Found a hash of abnormal size!") ∧
    (f.length < 40 → ∀ rest1, rest = 10 :: rest1 →
      fake_getpwent (hashcrack_c be) dig (nm ++ 9 :: (f ++ 10 :: rest)) =
        match hash2dig (f ++ [10] ++ [0]) dig 0 with
        | none => Getpwent.fault
        | some d => Getpwent.ok nm d rest1) := by
  have hc : Salt.cstrOf (nm ++ [9]) = nm ++ [9] :=
    cstrOf_of_no_nul _ (fun b hb => by
      rcases List.mem_append.1 hb with h | h
      · exact (hnm b h).2
      · rw [List.mem_singleton.1 h]; decide)
  have hstart : ∀ tail, fake_getpwent (hashcrack_c be) dig (nm ++ 9 :: tail) =
      match fgets 41 tail with
      | none => Getpwent.error "fgets()"
      | some (hash, fp2) =>
        match fp2 with
        | [] => Getpwent.error "Found a hash of abnormal size!"
        | c :: fp3 =>
          if c ≠ 10 then Getpwent.error "Found a hash of abnormal size!"
          else
            match hash2dig (hash ++ [0]) dig 0 with
            | none => Getpwent.fault
            | some d => Getpwent.ok nm d fp3 := by
    intro tail
    unfold fake_getpwent
    rw [getdelim_split 9 nm tail (fun b hb => (hnm b hb).1)]
    simp only [hc, List.dropLast_concat]
    rw [if_neg (by simp)]
    rfl
  refine ⟨fun hlong => ?_, fun hshort hrest => ?_, fun hshort rest1 hrest => ?_⟩
  · rw [hstart]
    have hfg : fgets 41 (f ++ 10 :: rest) = some (f.take 40, f.drop 40 ++ 10 :: rest) := by
      unfold fgets
      rw [if_neg (by simp), readLine_long 40 f _ hf (by omega)]
    rw [hfg]
    obtain ⟨c, t, hct⟩ : ∃ c t, f.drop 40 = c :: t := by
      cases hd : f.drop 40 with
      | nil => simp at hd; omega
      | cons c t => exact ⟨c, t, rfl⟩
    have hc10 : c ≠ 10 := hf c (List.mem_of_mem_drop (by rw [hct]; simp))
    simp [hct, hc10]
  · rw [hstart]
    have hfg : fgets 41 (f ++ 10 :: rest) = some (f ++ [10], rest) := by
      unfold fgets
      rw [if_neg (by simp), readLine_split f rest hf _ (by omega)]
    rw [hfg]
    cases rest with
    | nil => rfl
    | cons c t =>
      have hc10 : c ≠ 10 := by simpa using hrest
      simp [hc10]
  · rw [hstart]
    have hfg : fgets 41 (f ++ 10 :: rest) = some (f ++ [10], rest) := by
      unfold fgets
      rw [if_neg (by simp), readLine_split f rest hf _ (by omega)]
    rw [hfg, hrest]
    simp

/-- C11 evaluated: a record whose digest field has three characters and is
followed by an empty line is delivered by `fake_getpwent` as a record (its
digest being `ab 0c` and the bytes that `dig` held before), whatever comes
after the empty line; the same record followed by another record, by the
end of the file, or with a digest field of 41 characters, ends in the
error `Found a hash of abnormal size!`, and a field of 40 characters is
delivered as it should be. -/
theorem C11_short_digest_delivered :
    (∀ rest : List Byte,
      fake_getpwent (hashcrack_c false) (List.replicate 20 7) (str "alice\tabc\n\n" ++ rest) =
        Getpwent.ok (str "alice") ([0xab, 0x0c] ++ List.replicate 18 7) rest) ∧
    fake_getpwent (hashcrack_c false) (List.replicate 20 7)
        (str "alice\tabc\nbob\t000102030405060708090a0b0c0d0e0f10111213\n") =
      Getpwent.error "Found a hash of abnormal size!" ∧
    fake_getpwent (hashcrack_c false) (List.replicate 20 7) (str "alice\tabc\n") =
      Getpwent.error "Found a hash of abnormal size!" ∧
    fake_getpwent (hashcrack_c false) (List.replicate 20 7)
        (str "alice\t000102030405060708090a0b0c0d0e0f1011121314\n\n") =
      Getpwent.error "Found a hash of abnormal size!" ∧
    fake_getpwent (hashcrack_c false) (List.replicate 20 7)
        (str "alice\t000102030405060708090a0b0c0d0e0f10111213\nbob\t") =
      Getpwent.ok (str "alice")
        [0, 1, 2, 3, 4, 5, 6, 7, 8, 9, 10, 11, 12, 13, 14, 15, 16, 17, 18, 19] (str "bob\t") := by
  refine ⟨fun rest => ?_, by decide, by decide, by decide, by decide⟩
  rfl

/-! ## The invariant of the index, slot by slot -/

theorem slotVia_inv (P : Params) :
    ∀ (path : List idx_t) (tab : Table) (pre : List idx_t) (s : pwent),
      TabInv P tab pre → slotVia tab path = some s → EntInv P s (pre ++ path) := by
  intro path
  induction path with
  | nil => intro tab pre s _ h; simp [slotVia] at h
  | cons j rest ih =>
    intro tab pre s hinv h
    cases rest with
    | nil =>
      simp only [slotVia, Option.some.injEq] at h
      subst h
      exact hinv j
    | cons k rest =>
      rw [slotVia] at h
      have hj := hinv j
      cases htj : tab j with
      | null => simp [htj] at h
      | leaf names namesz d => simp [htj] at h
      | node next names namesz d =>
        rw [htj] at h hj
        simp only at h
        have := ih next (pre ++ [j]) s (fun x => hj.2.1 x) h
        simpa using this

/-- C13: in the index that `parse_passwd` builds from any records with
digests of the full width (20 bytes in `hashcrack.c`, 28 in `salt.c`), take
any slot, reached from the top table through the indices `path`.  It is
exactly one of empty, leaf and child directory; if it is a leaf with the
digest `d`, then `d` has the full width, the index used at every level
`k` of `path` (the last one included) is chunk `k` of `d`, and the name
list of the leaf is not empty and ends in a `NULL` cell. -/
theorem C13_index_invariant (be : Bool) (P : Params) (hP : P = hashcrack_c be ∨ P = salt_c be)
    (ops : List (List Byte × Name)) (hops : ∀ op ∈ ops, op.1.length = P.DIGSZ) :
    ∃ tab, parse_passwd P emptyTab ops = some tab ∧
      ∀ (path : List idx_t) (s : pwent), slotVia tab path = some s →
        ((s = pwent.null ∧ s.isLeaf = false ∧ s.isNode = false) ∨
          (s ≠ pwent.null ∧ s.isLeaf = true ∧ s.isNode = false) ∨
          (s ≠ pwent.null ∧ s.isLeaf = false ∧ s.isNode = true)) ∧
        ∀ names namesz d, s = pwent.leaf names namesz d →
          d.length = P.DIGSZ ∧ (∀ k, k < path.length → idxs P d k = path[k]?) ∧
          namesOf names ≠ [] ∧
          ∃ ns z, ns ≠ [] ∧ names = ns.map some ++ List.replicate (z + 1) none := by
  have hV : P.Valid := by
    rcases hP with h | h <;> rw [h]
    · exact valid_hashcrack_c be
    · exact valid_salt_c be
  obtain ⟨tab, hload, hinv, _⟩ := load_empty_spec P hV ops hops
  refine ⟨tab, hload, fun path s hs => ⟨?_, ?_⟩⟩
  · cases s <;> simp [pwent.isLeaf, pwent.isNode]
  · intro names namesz d hsd
    subst hsd
    have h := slotVia_inv P path tab [] _ hinv hs
    simp only [List.nil_append] at h
    obtain ⟨h1, ⟨_, ns, z, hns, hnames⟩, h3⟩ := h
    refine ⟨h1, h3, ?_, ns, z, hns, hnames⟩
    rw [hnames, namesOf_wf]
    exact hns

/-- Three digests, two of which share two chunks. -/
theorem C13_index_invariant_witness :
    (hashcrack_c false = hashcrack_c false ∨ hashcrack_c false = salt_c false) ∧
    (∀ op ∈ [(digA, str "ann"), (digB, str "bob"), (digC, str "cy")],
      op.1.length = (hashcrack_c false).DIGSZ) ∧
    ∃ tab, parse_passwd (hashcrack_c false) emptyTab
        [(digA, str "ann"), (digB, str "bob"), (digC, str "cy")] = some tab ∧
      ∀ (path : List idx_t) (s : pwent), slotVia tab path = some s →
        ((s = pwent.null ∧ s.isLeaf = false ∧ s.isNode = false) ∨
          (s ≠ pwent.null ∧ s.isLeaf = true ∧ s.isNode = false) ∨
          (s ≠ pwent.null ∧ s.isLeaf = false ∧ s.isNode = true)) ∧
        ∀ names namesz d, s = pwent.leaf names namesz d →
          d.length = (hashcrack_c false).DIGSZ ∧
          (∀ k, k < path.length → idxs (hashcrack_c false) d k = path[k]?) ∧
          namesOf names ≠ [] ∧
          ∃ ns z, ns ≠ [] ∧ names = ns.map some ++ List.replicate (z + 1) none :=
  ⟨Or.inl rfl, by decide,
    C13_index_invariant false (hashcrack_c false) (Or.inl rfl)
      [(digA, str "ann"), (digB, str "bob"), (digC, str "cy")] (by decide)⟩

/-! ## What an insertion leaves as it was -/

theorem tabadd_loop_other (P : Params) (name : Name) (dig : List Byte) (fuel i : Nat)
    (idx : idx_t) (tab : Table) (r : Table × Nat)
    (h : tabadd_loop P name dig fuel i idx tab = some r) (j : idx_t) (hj : j ≠ idx) :
    r.1 j = tab j := by
  cases fuel with
  | zero =>
    simp only [tabadd_loop, Option.some.injEq] at h
    rw [← h]
  | succ fuel =>
    rw [tabadd_loop] at h
    cases hadd : pwentadd P (tab idx) name dig with
    | some e =>
      simp only [hadd, Option.some.injEq] at h
      rw [← h]
      simp [setSlot, hj]
    | none =>
      simp only [hadd] at h
      cases hte : tab idx with
      | null => simp [hte] at h
      | leaf names namesz d =>
        simp only [hte, Option.bind_eq_some, Option.map_eq_some'] at h
        obtain ⟨_, _, _, _, _, _, h⟩ := h
        rw [← h]
        simp [setSlot, hj]
      | node next names namesz d =>
        simp only [hte, Option.bind_eq_some, Option.map_eq_some'] at h
        obtain ⟨_, _, _, _, h⟩ := h
        rw [← h]
        simp [setSlot, hj]

theorem endSlot_level (P : Params) (q : List Byte) (e : pwent) :
    ∀ (i : Nat) (s : pwent) (lvl : Nat), endSlot P q e i = some (s, lvl) → i ≤ lvl := by
  induction e with
  | null => intro i s lvl h; simp [endSlot] at h; omega
  | leaf names namesz d => intro i s lvl h; simp [endSlot] at h; omega
  | node next names namesz d ih =>
    intro i s lvl h
    simp only [endSlot, Option.bind_eq_some] at h
    obtain ⟨idx, _, h⟩ := h
    have := ih idx (i + 1) s lvl h
    omega

/-- The loop of `tabadd` for `dig` keeps the leaf of every other digest `q`
as it is (names array, capacity and digest): the walk for `q` stops at the
same leaf, at the same level or deeper, and deeper when `q` has the chunks
of `dig` up to the level of its leaf (the leaf lay in the way of the
insertion and was moved into a new child directory). -/
theorem tabadd_loop_keeps_leaf (P : Params) (name : Name) (dig q : List Byte)
    (hd : dig.length = P.DIGSZ) (hq : q.length = P.DIGSZ) (hne : q ≠ dig)
    (names : List (Option Name)) (namesz : Nat) :
    ∀ (fuel i : Nat) (idx : idx_t) (tab : Table) (r : Table × Nat) (lvl : Nat),
      tabadd_loop P name dig fuel i idx tab = some r → 0 < fuel →
      endSlot P q (tab idx) i = some (pwent.leaf names namesz q, lvl) →
      ∃ lvl1, lvl ≤ lvl1 ∧
        endSlot P q (r.1 idx) i = some (pwent.leaf names namesz q, lvl1) ∧
        ((∀ j, i < j → j ≤ lvl → idxs P q j = idxs P dig j) → lvl < i + fuel → lvl < lvl1) := by
  have htake : ∀ x : List Byte, x.length = P.DIGSZ → x.take P.DIGSZ = x :=
    fun x hx => List.take_of_length_le (le_of_eq hx)
  intro fuel
  induction fuel with
  | zero => intro i idx tab r lvl _ h0; omega
  | succ fuel ih =>
    intro i idx tab r lvl h _ hend
    rw [tabadd_loop] at h
    cases hte : tab idx with
    | null => rw [hte] at hend; simp [endSlot] at hend
    | leaf names0 namesz0 d0 =>
      rw [hte] at hend h
      simp only [endSlot, Option.some.injEq, Prod.mk.injEq, pwent.leaf.injEq] at hend
      obtain ⟨⟨rfl, rfl, rfl⟩, rfl⟩ := hend
      have hdiff : ¬ d0.take P.DIGSZ = dig.take P.DIGSZ := by
        rw [htake d0 hq, htake dig hd]; exact hne
      simp only [pwentadd, if_neg hdiff, Option.bind_eq_some, Option.map_eq_some'] at h
      obtain ⟨j, hj, idx1, hidx1, r1, hr1, h⟩ := h
      rw [← h]
      simp only [setSlot, if_true, endSlot, hj, Option.some_bind]
      by_cases hji : j = idx1
      · subst hji
        cases fuel with
        | zero =>
          simp only [tabadd_loop, Option.some.injEq] at hr1
          rw [← hr1]
          refine ⟨i + 1, by omega, ?_, fun _ h1 => by omega⟩
          simp [setSlot, endSlot, htake d0 hq]
        | succ fuel =>
          obtain ⟨lvl1, h1, h2, _⟩ := ih (i + 1) j _ r1 (i + 1) hr1 (by omega)
            (by simp [setSlot, endSlot, htake d0 hq])
          exact ⟨lvl1, by omega, h2, fun _ _ => by omega⟩
      · have := tabadd_loop_other P name dig fuel (i + 1) idx1 _ r1 hr1 j hji
        rw [this]
        refine ⟨i + 1, by omega, ?_, fun _ _ => by omega⟩
        simp [setSlot, endSlot, htake d0 hq]
    | node next names0 namesz0 d0 =>
      rw [hte] at hend h
      simp only [endSlot, Option.bind_eq_some] at hend
      obtain ⟨j, hj, hend⟩ := hend
      simp only [pwentadd, Option.bind_eq_some, Option.map_eq_some'] at h
      obtain ⟨idx1, hidx1, r1, hr1, h⟩ := h
      rw [← h]
      simp only [setSlot, if_true, endSlot, hj, Option.some_bind]
      have hlvl := endSlot_level P q _ _ _ _ hend
      by_cases hji : j = idx1
      · subst hji
        cases fuel with
        | zero =>
          simp only [tabadd_loop, Option.some.injEq] at hr1
          rw [← hr1]
          exact ⟨lvl, le_refl _, hend, fun _ h1 => by omega⟩
        | succ fuel =>
          obtain ⟨lvl1, h1, h2, h3⟩ := ih (i + 1) j _ r1 lvl hr1 (by omega) hend
          exact ⟨lvl1, h1, h2, fun hsh hl =>
            h3 (fun j1 hj1 hj2 => hsh j1 (by omega) hj2) (by omega)⟩
      · have := tabadd_loop_other P name dig fuel (i + 1) idx1 _ r1 hr1 j hji
        rw [this]
        refine ⟨lvl, le_refl _, hend, fun hsh _ => ?_⟩
        have := hsh (i + 1) (by omega) hlvl
        rw [hj, hidx1] at this
        exact absurd (Option.some.inj this) hji

theorem endSlot_lt (P : Params) (hP : P.Valid) (q : List Byte) (hq : q.length = P.DIGSZ)
    (e : pwent) :
    ∀ (i : Nat) (s : pwent) (lvl : Nat), endSlot P q e i = some (s, lvl) →
      i < P.IDXS_PER_DIG → lvl < P.IDXS_PER_DIG := by
  induction e with
  | null => intro i s lvl h hi; simp [endSlot] at h; omega
  | leaf names namesz d => intro i s lvl h hi; simp [endSlot] at h; omega
  | node next names namesz d ih =>
    intro i s lvl h hi
    simp only [endSlot, Option.bind_eq_some] at h
    obtain ⟨idx, hidx, h⟩ := h
    have hlt : i + 1 < P.IDXS_PER_DIG := by
      by_contra hc
      rw [idxs_none_of_le P hP q hq (i + 1) (by omega)] at hidx
      exact Option.noConfusion hidx
    exact ih idx (i + 1) s lvl h hlt

/-- The walk for a digest that is found stops at the leaf of that digest. -/
theorem endSlot_of_found (P : Params) (q : List Byte) (hq : q.length = P.DIGSZ) (e : pwent) :
    ∀ (i : Nat) (path : List idx_t) (l : List Name), EntInv P e path →
      foundEnt P q e i = some (some l) →
      ∃ names namesz lvl, endSlot P q e i = some (pwent.leaf names namesz q, lvl) ∧
        namesOf names = l ∧ NamesWF names namesz := by
  induction e with
  | null => intro i path l _ h; simp [foundEnt_null] at h
  | leaf names namesz d =>
    intro i path l hinv h
    rw [foundEnt_leaf] at h
    by_cases hc : d.take P.DIGSZ = q.take P.DIGSZ
    · rw [if_pos hc] at h
      rw [List.take_of_length_le (le_of_eq hinv.1), List.take_of_length_le (le_of_eq hq)] at hc
      subst hc
      exact ⟨names, namesz, i, rfl, by simpa using h, hinv.2.1⟩
    · simp [if_neg hc] at h
  | node next names namesz d ih =>
    intro i path l hinv h
    rw [foundEnt_node, found_eq] at h
    simp only [Option.bind_eq_some] at h
    obtain ⟨idx, hidx, h⟩ := h
    obtain ⟨names1, namesz1, lvl, h1, h2, h3⟩ := ih idx (i + 1) (path ++ [idx]) l (hinv.2.1 idx) h
    exact ⟨names1, namesz1, lvl, by simp [endSlot, hidx, h1], h2, h3⟩

theorem endOf_of_found (P : Params) (tab : Table) (hinv : TabInv P tab []) (q : List Byte)
    (hq : q.length = P.DIGSZ) (l : List Name) (h : found P tab 0 q = some (some l)) :
    ∃ names namesz lvl, endOf P tab q = some (pwent.leaf names namesz q, lvl) ∧
      namesOf names = l ∧ NamesWF names namesz := by
  rw [found_eq] at h
  simp only [Option.bind_eq_some] at h
  obtain ⟨idx, hidx, h⟩ := h
  obtain ⟨names, namesz, lvl, h1, h2, h3⟩ :=
    endSlot_of_found P q hq (tab idx) 0 ([] ++ [idx]) l (hinv idx) h
  exact ⟨names, namesz, lvl, by simp [endOf, hidx, h1], h2, h3⟩

/-- Function `tabadd` keeps the leaf of every digest other than the one stored. -/
theorem tabadd_keeps_leaf (P : Params) (hP : P.Valid) (tab tab1 : Table) (dig q : List Byte)
    (name : Name) (k : Nat) (hd : dig.length = P.DIGSZ) (hq : q.length = P.DIGSZ) (hne : q ≠ dig)
    (h : tabadd P tab dig name = some (tab1, k)) (names : List (Option Name)) (namesz lvl : Nat)
    (hend : endOf P tab q = some (pwent.leaf names namesz q, lvl)) :
    ∃ lvl1, lvl ≤ lvl1 ∧ endOf P tab1 q = some (pwent.leaf names namesz q, lvl1) ∧
      ((∀ j, j ≤ lvl → idxs P q j = idxs P dig j) → lvl < lvl1) := by
  simp only [tabadd, Option.bind_eq_some] at h
  obtain ⟨idx, hidx, h⟩ := h
  simp only [endOf, Option.bind_eq_some] at hend
  obtain ⟨j, hj, hend⟩ := hend
  have hpos : 0 < P.IDXS_PER_DIG := hP.2.1
  by_cases hji : j = idx
  · subst hji
    obtain ⟨lvl1, h1, h2, h3⟩ := tabadd_loop_keeps_leaf P name dig q hd hq hne names namesz
      P.IDXS_PER_DIG 0 j tab (tab1, k) lvl h hpos hend
    refine ⟨lvl1, h1, by simp [endOf, hj, h2], fun hsh => h3 (fun j1 _ hj2 => hsh j1 hj2) ?_⟩
    have := endSlot_lt P hP q hq _ _ _ _ hend hpos
    omega
  · have := tabadd_loop_other P name dig _ _ _ _ _ h j hji
    simp only at this
    refine ⟨lvl, le_refl _, by simp [endOf, hj, this, hend], fun hsh => ?_⟩
    have := hsh 0 (Nat.zero_le _)
    rw [hj, hidx] at this
    exact absurd (Option.some.inj this) hji

/-- C14: take the index loaded from any records with digests of the full
width, and store one more name under a digest `d`.  For every digest
`q ≠ d` the lookup returns the same name list after the insertion as
before.  If `q` had a leaf, the walk for `q` still stops at that leaf with
the same `names` array, the same capacity `namesz` and the same digest, at
the same level or deeper; it is deeper when `q` has the chunks of `d` up
to the level of its leaf, which is when the insertion meets this leaf
and moves it into a new child directory.  Every stored digest has a leaf. -/
theorem C14_insert_frame (be : Bool) (P : Params) (hP : P = hashcrack_c be ∨ P = salt_c be)
    (ops : List (List Byte × Name)) (hops : ∀ op ∈ ops, op.1.length = P.DIGSZ)
    (d : List Byte) (n : Name) (hd : d.length = P.DIGSZ) :
    ∃ tab tab1 k, parse_passwd P emptyTab ops = some tab ∧ tabadd P tab d n = some (tab1, k) ∧
      (∀ q : List Byte, q.length = P.DIGSZ → q ≠ d →
        (pwchk_walk P tab1 q).map (fun r => r.1.map namesOf) =
          (pwchk_walk P tab q).map (fun r => r.1.map namesOf)) ∧
      (∀ (q : List Byte) (names : List (Option Name)) (namesz lvl : Nat),
        q.length = P.DIGSZ → q ≠ d → endOf P tab q = some (pwent.leaf names namesz q, lvl) →
        ∃ lvl1, lvl ≤ lvl1 ∧ endOf P tab1 q = some (pwent.leaf names namesz q, lvl1) ∧
          ((∀ j, j ≤ lvl → idxs P q j = idxs P d j) → lvl < lvl1)) ∧
      (∀ q ∈ ops.map Prod.fst, ∃ names namesz lvl,
        endOf P tab q = some (pwent.leaf names namesz q, lvl) ∧
          namesOf names = inserted ops q) := by
  have hV : P.Valid := by
    rcases hP with h | h <;> rw [h]
    · exact valid_hashcrack_c be
    · exact valid_salt_c be
  obtain ⟨tab, hload, hinv, hf⟩ := load_empty_spec P hV ops hops
  obtain ⟨tab1, k, hadd, _, _, _, hframe⟩ := tabadd_spec P hV tab d n hd hinv
  refine ⟨tab, tab1, k, hload, hadd, fun q hq hne => hframe q hq hne, ?_, ?_⟩
  · intro q names namesz lvl hq hne hend
    exact tabadd_keeps_leaf P hV tab tab1 d q n k hd hq hne hadd names namesz lvl hend
  · intro q hqm
    have hq : q.length = P.DIGSZ := by
      obtain ⟨op, hop, rfl⟩ := List.mem_map.1 hqm
      exact hops op hop
    have hfq := hf q hq
    have hne := inserted_ne_nil_of_mem ops q hqm
    rw [optList, if_neg hne] at hfq
    obtain ⟨names, namesz, lvl, h1, h2, _⟩ := endOf_of_found P tab hinv q hq _ hfq
    exact ⟨names, namesz, lvl, h1, h2⟩

/-- The index holding `digA`; `digC`, which has the first two chunks of
`digA`, is stored: the leaf of `digA` moves from level 0 to level 2 with
its names array and its capacity 40. -/
theorem C14_insert_frame_witness :
    (hashcrack_c false = hashcrack_c false ∨ hashcrack_c false = salt_c false) ∧
    (∀ op ∈ [(digA, str "ann")], op.1.length = (hashcrack_c false).DIGSZ) ∧
    digC.length = (hashcrack_c false).DIGSZ ∧
    ((parse_passwd (hashcrack_c false) emptyTab [(digA, str "ann")]).bind fun tab =>
      (endOf (hashcrack_c false) tab digA).map fun r => (r.1.leafData, r.2)) =
        some (some (some (str "ann") :: List.replicate 39 none, 40, digA), 0) ∧
    ((parse_passwd (hashcrack_c false) emptyTab [(digA, str "ann"), (digC, str "cy")]).bind
      fun tab => (endOf (hashcrack_c false) tab digA).map fun r => (r.1.leafData, r.2)) =
        some (some (some (str "ann") :: List.replicate 39 none, 40, digA), 2) ∧
    ∃ tab tab1 k, parse_passwd (hashcrack_c false) emptyTab [(digA, str "ann")] = some tab ∧
      tabadd (hashcrack_c false) tab digC (str "cy") = some (tab1, k) ∧
      (∀ q : List Byte, q.length = (hashcrack_c false).DIGSZ → q ≠ digC →
        (pwchk_walk (hashcrack_c false) tab1 q).map (fun r => r.1.map namesOf) =
          (pwchk_walk (hashcrack_c false) tab q).map (fun r => r.1.map namesOf)) ∧
      (∀ (q : List Byte) (names : List (Option Name)) (namesz lvl : Nat),
        q.length = (hashcrack_c false).DIGSZ → q ≠ digC →
        endOf (hashcrack_c false) tab q = some (pwent.leaf names namesz q, lvl) →
        ∃ lvl1, lvl ≤ lvl1 ∧
          endOf (hashcrack_c false) tab1 q = some (pwent.leaf names namesz q, lvl1) ∧
          ((∀ j, j ≤ lvl → idxs (hashcrack_c false) q j = idxs (hashcrack_c false) digC j) →
            lvl < lvl1)) ∧
      (∀ q ∈ [(digA, str "ann")].map Prod.fst, ∃ names namesz lvl,
        endOf (hashcrack_c false) tab q = some (pwent.leaf names namesz q, lvl) ∧
          namesOf names = inserted [(digA, str "ann")] q) :=
  ⟨Or.inl rfl, by decide, by decide, by rfl, by rfl,
    C14_insert_frame false (hashcrack_c false) (Or.inl rfl) [(digA, str "ann")] (by decide)
      digC (str "cy") (by decide)⟩

/-! ## The order of the tests of the unsalted worker -/

/-- The dictionary loop of `hashcrack.c` on a dictionary of newline-terminated
lines followed by a last line `last` without newline (or nothing): every
word is tested with `probesFor`, the words in order. -/
theorem parse_dict_loop_spec (E : Env) (hok : ∀ x, ∃ r, pwchk E x = some r)
    (hp : ∀ c ∈ E.punct, c ≠ 0) (last : List Byte) (hlast : ∀ b ∈ last, b ≠ 0 ∧ b ≠ 10)
    (hlastlen : last.length ≤ 253) :
    ∀ (lines : List (List Byte)) (fuel : Nat) (st : Worker),
      (∀ l ∈ lines, (∀ b ∈ l, b ≠ 0 ∧ b ≠ 10) ∧ l.length ≤ 253) →
      ((lines.flatMap fun l => l ++ [10]) ++ last).length ≤ fuel →
      ∃ st1, parse_dict_loop E fuel ((lines.flatMap fun l => l ++ [10]) ++ last) st = some st1 ∧
        st1.hashed = st.hashed ++
          ((lines ++ if last = [] then [] else [last]).flatMap (probesFor E.punct)).map Prod.fst ∧
        (st1.ofp, st1.cnt) =
          runProbes E ((lines ++ if last = [] then [] else [last]).flatMap (probesFor E.punct))
            (st.ofp, st.cnt) := by
  intro lines
  induction lines with
  | nil =>
    intro fuel st _ hfuel
    simp only [List.flatMap_nil, List.nil_append] at hfuel ⊢
    by_cases hl : last = []
    · subst hl
      refine ⟨st, ?_, by simp, by simp [runProbes]⟩
      rw [parse_dict_loop]
      rfl
    · rw [if_neg hl]
      obtain ⟨f, rfl⟩ : ∃ f, fuel = f + 1 :=
        ⟨fuel - 1, by have := List.length_pos.2 hl; omega⟩
      obtain ⟨st1, hrun, hh, hlog⟩ :=
        parse_dict_line_spec E hok last last hlast hlastlen hp (Or.inr ⟨rfl, hl⟩) st
      have hfg : fgets 256 last = some (last, []) := by
        unfold fgets
        rw [if_neg hl, readLine_noeol last (fun b hb => (hlast b hb).2) _ (by omega)]
      refine ⟨st1, ?_, by simpa using hh, by simpa using hlog⟩
      rw [parse_dict_loop, hfg]
      simp only [hrun, Option.some_bind]
      rw [parse_dict_loop]
      rfl
  | cons l lines ih =>
    intro fuel st hl hfuel
    obtain ⟨hl0, hllen⟩ := hl l (List.mem_cons_self _ _)
    have hflat : ((l :: lines).flatMap fun l => l ++ [10]) ++ last =
        l ++ 10 :: ((lines.flatMap fun l => l ++ [10]) ++ last) := by simp
    rw [hflat] at hfuel ⊢
    have hfg : fgets 256 (l ++ 10 :: ((lines.flatMap fun l => l ++ [10]) ++ last)) =
        some (l ++ [10], (lines.flatMap fun l => l ++ [10]) ++ last) := by
      unfold fgets
      rw [if_neg (by simp), readLine_split l _ (fun b hb => (hl0 b hb).2) _ (by omega)]
    obtain ⟨f, rfl⟩ : ∃ f, fuel = f + 1 := ⟨fuel - 1, by simp at hfuel; omega⟩
    obtain ⟨st1, hrun1, hh1, hl1⟩ :=
      parse_dict_line_spec E hok l (l ++ [10]) hl0 hllen hp (Or.inl rfl) st
    obtain ⟨st2, hrun2, hh2, hl2⟩ := ih f st1 (fun x hx => hl x (List.mem_cons_of_mem _ hx))
      (by simp at hfuel ⊢; omega)
    refine ⟨st2, ?_, ?_, ?_⟩
    · rw [parse_dict_loop, hfg]
      simp only [hrun1, Option.some_bind]
      exact hrun2
    · rw [hh2, hh1]
      simp
    · rw [hl2, hl1, List.cons_append, List.flatMap_cons, runProbes_append]

/-- The strings shown by the tests for one word, written out with the
positions of the symbols: the word; the word with `punct[k]` appended for
`k = n-1, ..., 0`; then for `i = n-1, ..., 0` the word with `punct[i]` in
front, followed by that string with `punct[j]` appended for
`j = n-1, ..., 0`. -/
theorem probesFor_snd (punct w : List Byte) :
    (probesFor punct w).map Prod.snd =
      w :: ((List.range punct.length).reverse.map fun k => w ++ [punct.getD k 0]) ++
        (List.range punct.length).reverse.flatMap fun i =>
          (punct.getD i 0 :: w) ::
            (List.range punct.length).reverse.map fun j => punct.getD i 0 :: w ++ [punct.getD j 0] := by
  have hr : punct.reverse = (List.range punct.length).reverse.map fun k => punct.getD k 0 := by
    rw [List.map_reverse]
    congr 1
    apply List.ext_getElem
    · simp
    · intro i h1 h2
      simp at h2
      simp [List.getD_eq_getElem?_getD, List.getElem?_eq_getElem h2]
  unfold probesFor prefixProbes
  simp only [List.map_append, List.map_cons, List.map_map, List.map_flatMap, Function.comp_def]
  rw [hr]
  simp [List.map_map, List.flatMap_map, Function.comp_def, List.flatMap_def]

/-- The bytes hashed by the tests for one word, written out with the
positions of the symbols: as the strings shown, but the word with only
`punct[i]` in front is hashed together with the NUL that ends it. -/
theorem probesFor_fst (punct w : List Byte) :
    (probesFor punct w).map Prod.fst =
      w :: ((List.range punct.length).reverse.map fun k => w ++ [punct.getD k 0]) ++
        (List.range punct.length).reverse.flatMap fun i =>
          (punct.getD i 0 :: w ++ [0]) ::
            (List.range punct.length).reverse.map fun j => punct.getD i 0 :: w ++ [punct.getD j 0] := by
  have hr : punct.reverse = (List.range punct.length).reverse.map fun k => punct.getD k 0 := by
    rw [List.map_reverse]
    congr 1
    apply List.ext_getElem
    · simp
    · intro i h1 h2
      simp at h2
      simp [List.getD_eq_getElem?_getD, List.getElem?_eq_getElem h2]
  unfold probesFor prefixProbes
  simp only [List.map_append, List.map_cons, List.map_map, List.map_flatMap, Function.comp_def]
  rw [hr]
  simp [List.map_map, List.flatMap_map, Function.comp_def, List.flatMap_def]

/-- C15: a single worker of `hashcrack.c` runs on an index loaded from
records with 20-byte digests and on a dictionary of newline-terminated
lines, possibly followed by a last line without newline; the lines hold no
NUL and at most 253 characters, the symbol string `punct` holds no NUL.
Then the tests made are those of `probesFor`, word after word in the order
of the lines, and for each word `w` the candidate strings tested are, in
this order: `w`; `w·punct[k]` for `k = n-1` down to 0; then for `i = n-1`
down to 0 the string `punct[i]·w` followed by `punct[i]·w·punct[j]` for
`j = n-1` down to 0.  The bytes hashed are the candidate string, except
that `punct[i]·w` is hashed together with its final NUL. -/
theorem C15_test_order (be : Bool) (sha : List Byte → List Byte)
    (hsha : ∀ x, (sha x).length = 20) (ops : List (List Byte × Name))
    (hops : ∀ op ∈ ops, op.1.length = 20) (punct : List Byte) (hp : ∀ c ∈ punct, c ≠ 0)
    (junk : Byte) (rpw : Buf) (lines : List (List Byte)) (last : List Byte)
    (hlines : ∀ l ∈ lines, (∀ b ∈ l, b ≠ 0 ∧ b ≠ 10) ∧ l.length ≤ 253)
    (hlast : (∀ b ∈ last, b ≠ 0 ∧ b ≠ 10) ∧ last.length ≤ 253) :
    ∃ tab st, parse_passwd (hashcrack_c be) emptyTab ops = some tab ∧
      run1 (hashcrack_c be) sha punct junk rpw ops ((lines.flatMap fun l => l ++ [10]) ++ last)
        = some st ∧
      st.hashed =
        ((lines ++ if last = [] then [] else [last]).flatMap (probesFor punct)).map Prod.fst ∧
      (st.ofp, st.cnt) =
        runProbes ⟨hashcrack_c be, sha, tab, punct, junk⟩
          ((lines ++ if last = [] then [] else [last]).flatMap (probesFor punct)) ([], 0) ∧
      ∀ w : List Byte,
        (probesFor punct w).map Prod.snd =
          w :: ((List.range punct.length).reverse.map fun k => w ++ [punct.getD k 0]) ++
            (List.range punct.length).reverse.flatMap (fun i =>
              (punct.getD i 0 :: w) ::
                (List.range punct.length).reverse.map fun j =>
                  punct.getD i 0 :: w ++ [punct.getD j 0]) ∧
        (probesFor punct w).map Prod.fst =
          w :: ((List.range punct.length).reverse.map fun k => w ++ [punct.getD k 0]) ++
            (List.range punct.length).reverse.flatMap (fun i =>
              (punct.getD i 0 :: w ++ [0]) ::
                (List.range punct.length).reverse.map fun j =>
                  punct.getD i 0 :: w ++ [punct.getD j 0]) := by
  obtain ⟨tab, hload, hinv, _⟩ := load_empty_spec (hashcrack_c be) (valid_hashcrack_c be) ops hops
  have hok : ∀ x, ∃ r, pwchk ⟨hashcrack_c be, sha, tab, punct, junk⟩ x = some r :=
    pwchk_total ⟨hashcrack_c be, sha, tab, punct, junk⟩ (valid_hashcrack_c be) hinv hsha
  obtain ⟨st, hrun, hh, hlog⟩ := parse_dict_loop_spec ⟨hashcrack_c be, sha, tab, punct, junk⟩ hok
    hp last hlast.1 hlast.2 lines _ (Worker.init rpw) hlines (le_refl _)
  refine ⟨tab, st, hload, ?_, ?_, hlog, fun w => ⟨probesFor_snd punct w, probesFor_fst punct w⟩⟩
  · unfold run1
    rw [hload]
    exact hrun
  · rw [hh]
    simp [Worker.init]

/-- The order of the tests on the dictionary `ab\ncd` with the symbols `!@`. -/
theorem C15_test_order_witness :
    (∀ x, (SHA1 x).length = 20) ∧
    (∀ op ∈ ([] : List (List Byte × Name)), op.1.length = 20) ∧ (∀ c ∈ str "!@", c ≠ 0) ∧
    (∀ l ∈ [str "ab"], (∀ b ∈ l, b ≠ 0 ∧ b ≠ 10) ∧ l.length ≤ 253) ∧
    ((∀ b ∈ str "cd", b ≠ 0 ∧ b ≠ 10) ∧ (str "cd").length ≤ 253) ∧
    ∃ tab st, parse_passwd (hashcrack_c false) emptyTab [] = some tab ∧
      run1 (hashcrack_c false) SHA1 (str "!@") 0 (fun _ => 0) []
        (([str "ab"].flatMap fun l => l ++ [10]) ++ str "cd") = some st ∧
      st.hashed =
        (([str "ab"] ++ if str "cd" = [] then [] else [str "cd"]).flatMap
          (probesFor (str "!@"))).map Prod.fst ∧
      (st.ofp, st.cnt) =
        runProbes ⟨hashcrack_c false, SHA1, tab, str "!@", 0⟩
          (([str "ab"] ++ if str "cd" = [] then [] else [str "cd"]).flatMap
            (probesFor (str "!@"))) ([], 0) ∧
      ∀ w : List Byte,
        (probesFor (str "!@") w).map Prod.snd =
          w :: ((List.range (str "!@").length).reverse.map fun k => w ++ [(str "!@").getD k 0]) ++
            (List.range (str "!@").length).reverse.flatMap (fun i =>
              ((str "!@").getD i 0 :: w) ::
                (List.range (str "!@").length).reverse.map fun j =>
                  (str "!@").getD i 0 :: w ++ [(str "!@").getD j 0]) ∧
        (probesFor (str "!@") w).map Prod.fst =
          w :: ((List.range (str "!@").length).reverse.map fun k => w ++ [(str "!@").getD k 0]) ++
            (List.range (str "!@").length).reverse.flatMap (fun i =>
              ((str "!@").getD i 0 :: w ++ [0]) ::
                (List.range (str "!@").length).reverse.map fun j =>
                  (str "!@").getD i 0 :: w ++ [(str "!@").getD j 0]) :=
  ⟨SHA1_length, by simp, by decide, by decide, by decide,
    C15_test_order false SHA1 SHA1_length [] (by simp) (str "!@") (by decide) 0 (fun _ => 0)
      [str "ab"] (str "cd") (by decide) (by decide)⟩

/-! ## `tabchk` of `salt.c` -/

/-- C16 evaluated: in the index that holds the single 28-byte key `keyA`
(owner `bob`), `tabchk` asked for `keyB`, which was never stored and
differs from `keyA` in its last 8 bytes only, returns the name list of
`keyA`, because it compares `DIGSZ = 20` bytes of the key; the walk of
`pwchk`, which compares all 28 bytes, returns `NULL` for `keyB`. -/
theorem C16_tabchk_compares_20_bytes :
    keyA.length = 28 ∧ keyB.length = 28 ∧ keyA ≠ keyB ∧ keyA.take 20 = keyB.take 20 ∧
    inserted [(keyA, str "bob")] keyB = [] ∧
    ((Salt.parse_passwd (salt_c false) (emptyTab, []) [(keyA, str "bob")]).bind fun s =>
      (Salt.tabchk (salt_c false) s.1 keyB).map fun r => r.map namesOf) =
        some (some [str "bob"]) ∧
    ((Salt.parse_passwd (salt_c false) (emptyTab, []) [(keyA, str "bob")]).bind fun s =>
      (Salt.tabchk (salt_c false) s.1 keyA).map fun r => r.map namesOf) =
        some (some [str "bob"]) ∧
    ((Salt.parse_passwd (salt_c false) (emptyTab, []) [(keyA, str "bob")]).bind fun s =>
      (pwchk_walk (salt_c false) s.1 keyB).map fun r => r.1.map namesOf) = some none := by
  refine ⟨by decide, by decide, by decide, by decide, by decide, by decide, by decide, by decide⟩

/-! ## The dictionary of `salt.c` -/

/-- The dictionary loop of `salt.c` on newline-terminated lines followed by a
last line `last` that has no newline: the lines are tested as they are,
the last line without its last character. -/
theorem salt_parse_dict_loop_last (P : Params) (sha : List Byte → List Byte) (tab : Table)
    (hok : ∀ pw sdig, 8 ≤ sdig.length → ∃ r, Salt.pwchk P sha tab pw sdig = some r)
    (head : List (List Byte)) (hhead : ∀ s ∈ head, 8 ≤ s.length)
    (last : List Byte) (hlast : ∀ b ∈ last, b ≠ 10) (hne : last ≠ []) :
    ∀ (lines : List (List Byte)) (fuel : Nat) (st : Salt.State),
      (∀ l ∈ lines, ∀ b ∈ l, b ≠ 10) →
      ((lines.flatMap fun l => l ++ [10]) ++ last).length ≤ fuel →
      ∃ st1, Salt.parse_dict_loop P sha tab head fuel ((lines.flatMap fun l => l ++ [10]) ++ last)
          st = some st1 ∧
        st1.hashed = st.hashed ++
          (Salt.events head (lines ++ [last.dropLast])).map
            (fun e => e.1 ++ e.2.take Salt.SALTSZ) ∧
        (st1.ofp, st1.cnt) =
          Salt.runEvents P sha tab (Salt.events head (lines ++ [last.dropLast]))
            (st.ofp, st.cnt) := by
  intro lines
  induction lines with
  | nil =>
    intro fuel st _ hfuel
    simp only [List.flatMap_nil, List.nil_append] at hfuel ⊢
    have hgl : getline last = some (last, []) := by
      unfold getline
      rw [if_neg hne, readLine_noeol last hlast _ (le_refl _)]
    obtain ⟨f, rfl⟩ : ∃ f, fuel = f + 1 :=
      ⟨fuel - 1, by have := List.length_pos.2 hne; omega⟩
    obtain ⟨st1, hrun1, hh1, hl1⟩ :=
      salt_sweep_spec P sha tab hok (Salt.cstrOf last.dropLast) head st hhead
    refine ⟨st1, ?_, ?_, ?_⟩
    · rw [Salt.parse_dict_loop, hgl]
      simp only [hrun1, Option.some_bind]
      rw [Salt.parse_dict_loop]
      rfl
    · rw [hh1]
      simp [Salt.events, Function.comp_def]
    · rw [hl1]
      simp [Salt.events]
  | cons l lines ih =>
    intro fuel st hl hfuel
    have hll : ∀ b ∈ l, b ≠ 10 := hl l (List.mem_cons_self _ _)
    have hflat : ((l :: lines).flatMap fun l => l ++ [10]) ++ last =
        l ++ 10 :: ((lines.flatMap fun l => l ++ [10]) ++ last) := by simp
    rw [hflat] at hfuel ⊢
    have hgl : getline (l ++ 10 :: ((lines.flatMap fun l => l ++ [10]) ++ last)) =
        some (l ++ [10], (lines.flatMap fun l => l ++ [10]) ++ last) := by
      unfold getline
      rw [if_neg (by simp), readLine_split l _ hll _ (by simp)]
    obtain ⟨f, rfl⟩ : ∃ f, fuel = f + 1 := ⟨fuel - 1, by simp at hfuel; omega⟩
    obtain ⟨st1, hrun1, hh1, hl1⟩ := salt_sweep_spec P sha tab hok (Salt.cstrOf l) head st hhead
    obtain ⟨st2, hrun2, hh2, hl2⟩ := ih f st1 (fun x hx => hl x (List.mem_cons_of_mem _ hx))
      (by simp at hfuel ⊢; omega)
    refine ⟨st2, ?_, ?_, ?_⟩
    · rw [Salt.parse_dict_loop, hgl]
      simp only [List.dropLast_concat, hrun1, Option.some_bind]
      exact hrun2
    · rw [hh2, hh1]
      simp [Salt.events, Function.comp_def]
    · rw [hl2, hl1]
      unfold Salt.events
      rw [List.cons_append, List.flatMap_cons, runEvents_append]

/-- C17 evaluated: for the record `bob` with the password `hunter2` and the
dictionary `hunter2` without a final newline, `parse_dict` of `salt.c`
tests the word `hunter` (the last character is cut off by
`pw[--pwlen] = 0`) and logs nothing; with the newline the word `hunter2`
is tested and `bob` is logged.  For the two-line dictionary
`secret\nhunter2` the words tested are `secret` and `hunter`. -/
theorem C17_unterminated_line_cut :
    (Salt.main (salt_c false) SHA1 [(saltA ++ SHA1 (str "hunter2" ++ saltA), str "bob")]
      (str "hunter2")).map (fun st => (st.ofp, st.hashed)) =
        some ([], [str "hunter" ++ saltA]) ∧
    (Salt.main (salt_c false) SHA1 [(saltA ++ SHA1 (str "hunter2" ++ saltA), str "bob")]
      (str "hunter2\n")).map (fun st => (st.ofp, st.hashed)) =
        some ([⟨1, str "bob", str "hunter2"⟩], [str "hunter2" ++ saltA]) ∧
    (Salt.main (salt_c false) SHA1 [(saltA ++ SHA1 (str "hunter2" ++ saltA), str "bob")]
      (str "secret\nhunter2")).map (fun st => (st.ofp, st.hashed)) =
        some ([], [str "secret" ++ saltA, str "hunter" ++ saltA]) := by
  refine ⟨by decide, by decide, by decide⟩

/-! ## `hash2dig` -/

theorem hexval_facts : ∀ c : Byte, (hexval c).isSome = true →
    c ≠ 0 ∧ isspace c = false ∧ c ≠ 45 ∧ c ≠ 43 ∧ (hexval c).getD 0 < 16 ∧
      hexdigit ((hexval c).getD 0) = tolower c := by decide

/-- The byte that `hash2dig` stores for two hexadecimal digits. -/
theorem strtol_hex2 (c0 c1 : Byte) (h0 : (hexval c0).isSome = true)
    (h1 : (hexval c1).isSome = true) :
    toUint8 (strtol (Salt.cstrOf [c0, c1])) =
      Fin.ofNat (16 * (hexval c0).getD 0 + (hexval c1).getD 0) := by
  obtain ⟨a0, a1, a2, a3, a4, _⟩ := hexval_facts c0 h0
  obtain ⟨b0, b1, b2, b3, b4, _⟩ := hexval_facts c1 h1
  obtain ⟨v0, hv0⟩ := Option.isSome_iff_exists.1 h0
  obtain ⟨v1, hv1⟩ := Option.isSome_iff_exists.1 h1
  have hc : Salt.cstrOf [c0, c1] = [c0, c1] := by simp [Salt.cstrOf, List.takeWhile, a0, b0]
  rw [hc]
  simp only [strtol, List.dropWhile, a1, List.head?, Option.some.injEq, a2, a3, or_self,
    if_false, strtol_digits, hv0, hv1, Option.getD_some, toUint8]
  rw [hv0] at a4
  rw [hv1] at b4
  simp only [Option.getD_some] at a4 b4
  congr 1
  omega

theorem set_take_drop (d : List Byte) (k : Nat) (b : Byte) (hk : k < d.length) (m : Nat) :
    (d.set k b).take (k + 1) = d.take k ++ [b] ∧
      (d.set k b).drop (k + 1 + m) = d.drop (k + 1 + m) := by
  constructor
  · rw [List.set_eq_take_append_cons_drop, if_pos hk]
    have h1 : d.take k ++ b :: d.drop (k + 1) = (d.take k ++ [b]) ++ d.drop (k + 1) := by simp
    rw [h1, List.take_left']
    simp
    omega
  · rw [List.drop_set_of_lt _ _ (by omega)]

/-- Function `hash2dig` on `2n` hexadecimal digits followed by the NUL: the `n`
bytes from position `k` of `d` are overwritten with the bytes denoted. -/
theorem hash2dig_hex :
    ∀ (n : Nat) (h d : List Byte) (k : Nat), h.length = 2 * n →
      (∀ c ∈ h, (hexval c).isSome = true) → k + n ≤ d.length →
      hash2dig (h ++ [0]) d k = some (d.take k ++ hexBytes h ++ d.drop (k + n)) := by
  intro n
  induction n with
  | zero =>
    intro h d k hlen _ _
    have : h = [] := List.length_eq_zero.1 (by omega)
    subst this
    simp [hash2dig, hexBytes]
  | succ n ih =>
    intro h d k hlen hhex hk
    match h, hlen, hhex with
    | c0 :: c1 :: rest, hlen, hhex =>
      have h0 : (hexval c0).isSome = true := hhex c0 (by simp)
      have h1 : (hexval c1).isSome = true := hhex c1 (by simp)
      have hc0 : c0 ≠ 0 := (hexval_facts c0 h0).1
      have hkd : k < d.length := by omega
      have hrest : rest.length = 2 * n := by simp at hlen; omega
      have hstep : hash2dig (c0 :: c1 :: rest ++ [0]) d k =
          hash2dig (rest ++ [0])
            (d.set k (toUint8 (strtol (Salt.cstrOf [c0, c1])))) (k + 1) := by
        simp only [List.cons_append]
        rw [hash2dig, if_neg hc0, if_pos hkd]
      rw [hstep, ih rest _ (k + 1) hrest (fun c hc => hhex c (by simp [hc]))
        (by rw [List.length_set]; omega), strtol_hex2 c0 c1 h0 h1]
      congr 1
      rw [hexBytes, (set_take_drop d k _ hkd n).1, (set_take_drop d k _ hkd n).2]
      have e3 : k + 1 + n = k + (n + 1) := by omega
      rw [e3]
      simp

theorem hexBytes_spec :
    ∀ (n : Nat) (h : List Byte), h.length = 2 * n → (∀ c ∈ h, (hexval c).isSome = true) →
      (hexBytes h).length = n ∧ toHex (hexBytes h) = h.map tolower ∧
      ∀ i, i < n → ((hexBytes h).getD i 0).val =
        16 * (hexval (h.getD (2 * i) 0)).getD 0 + (hexval (h.getD (2 * i + 1) 0)).getD 0 := by
  intro n
  induction n with
  | zero =>
    intro h hlen _
    have : h = [] := List.length_eq_zero.1 (by omega)
    subst this
    exact ⟨rfl, rfl, fun i hi => absurd hi (Nat.not_lt_zero i)⟩
  | succ n ih =>
    intro h hlen hhex
    match h, hlen, hhex with
    | c0 :: c1 :: rest, hlen, hhex =>
      have h0 : (hexval c0).isSome = true := hhex c0 (by simp)
      have h1 : (hexval c1).isSome = true := hhex c1 (by simp)
      obtain ⟨_, _, _, _, a4, a5⟩ := hexval_facts c0 h0
      obtain ⟨_, _, _, _, b4, b5⟩ := hexval_facts c1 h1
      obtain ⟨ih1, ih2, ih3⟩ := ih rest (by simp at hlen; omega) (fun c hc => hhex c (by simp [hc]))
      have hval : (Fin.ofNat (16 * (hexval c0).getD 0 + (hexval c1).getD 0) : Byte).val =
          16 * (hexval c0).getD 0 + (hexval c1).getD 0 := by
        show (16 * (hexval c0).getD 0 + (hexval c1).getD 0) % 256 = _
        omega
      refine ⟨by rw [hexBytes, List.length_cons, ih1], ?_, ?_⟩
      · rw [hexBytes, toHex, hval, ih2]
        have e1 : (16 * (hexval c0).getD 0 + (hexval c1).getD 0) / 16 = (hexval c0).getD 0 := by
          omega
        have e2 : (16 * (hexval c0).getD 0 + (hexval c1).getD 0) % 16 = (hexval c1).getD 0 := by
          omega
        rw [e1, e2, a5, b5]
        rfl
      · intro i hi
        cases i with
        | zero => simpa [hexBytes] using hval
        | succ j =>
          have := ih3 j (by omega)
          have e : 2 * (j + 1) = 2 * j + 2 := by omega
          rw [e]
          simpa [hexBytes] using this

/-- C18: for a string `h` of exactly 40 hexadecimal digits (either case),
stored with its final NUL, `hash2dig` writes exactly the first 20 bytes of
the array `d`: byte `i` becomes `16·value(h[2i]) + value(h[2i+1])`
whatever `d` held before, and the bytes of `d` after the first 20, if
any, are left as they were.  Written out again in hexadecimal the 20
bytes are `h` with its letters in lower case. -/
theorem C18_hash2dig (h d : List Byte) (hlen : h.length = 40)
    (hhex : ∀ c ∈ h, (hexval c).isSome = true) (hd : 20 ≤ d.length) :
    ∃ out, hash2dig (h ++ [0]) d 0 = some out ∧ out.length = d.length ∧
      out.drop 20 = d.drop 20 ∧
      (∀ i, i < 20 → ∃ a b, hexval (h.getD (2 * i) 0) = some a ∧
        hexval (h.getD (2 * i + 1) 0) = some b ∧ (out.getD i 0).val = 16 * a + b) ∧
      toHex (out.take 20) = h.map tolower := by
  obtain ⟨h1, h2, h3⟩ := hexBytes_spec 20 h hlen hhex
  refine ⟨hexBytes h ++ d.drop 20, ?_, ?_, ?_, ?_, ?_⟩
  · rw [hash2dig_hex 20 h d 0 hlen hhex (by omega)]
    simp
  · rw [List.length_append, h1, List.length_drop]
    omega
  · rw [List.drop_left' h1]
  · intro i hi
    have m0 : h.getD (2 * i) 0 ∈ h := by
      rw [List.getD_eq_getElem?_getD, List.getElem?_eq_getElem (by omega)]
      exact List.getElem_mem _
    have m1 : h.getD (2 * i + 1) 0 ∈ h := by
      rw [List.getD_eq_getElem?_getD, List.getElem?_eq_getElem (by omega)]
      exact List.getElem_mem _
    obtain ⟨a, ha⟩ := Option.isSome_iff_exists.1 (hhex _ m0)
    obtain ⟨b, hb⟩ := Option.isSome_iff_exists.1 (hhex _ m1)
    refine ⟨a, b, ha, hb, ?_⟩
    have hget : (hexBytes h ++ d.drop 20).getD i 0 = (hexBytes h).getD i 0 := by
      rw [List.getD_eq_getElem?_getD, List.getD_eq_getElem?_getD,
        List.getElem?_append_left (by rw [h1]; exact hi)]
    rw [hget, h3 i hi, ha, hb]
    rfl
  · rw [List.take_left' h1, h2]

/-- The digest `00 01 ... 13`, its letters in upper and lower case, written
into a 20-byte array. -/
theorem C18_hash2dig_witness :
    (str "000102030405060708090A0B0C0D0e0f10111213").length = 40 ∧
    (∀ c ∈ str "000102030405060708090A0B0C0D0e0f10111213", (hexval c).isSome = true) ∧
    20 ≤ (List.replicate 20 (7 : Byte)).length ∧
    hash2dig (str "000102030405060708090A0B0C0D0e0f10111213" ++ [0]) (List.replicate 20 7) 0 =
      some [0, 1, 2, 3, 4, 5, 6, 7, 8, 9, 10, 11, 12, 13, 14, 15, 16, 17, 18, 19] ∧
    ∃ out, hash2dig (str "000102030405060708090A0B0C0D0e0f10111213" ++ [0])
        (List.replicate 20 7) 0 = some out ∧ out.length = (List.replicate 20 (7 : Byte)).length ∧
      out.drop 20 = (List.replicate 20 (7 : Byte)).drop 20 ∧
      (∀ i, i < 20 → ∃ a b,
        hexval ((str "000102030405060708090A0B0C0D0e0f10111213").getD (2 * i) 0) = some a ∧
        hexval ((str "000102030405060708090A0B0C0D0e0f10111213").getD (2 * i + 1) 0) = some b ∧
        (out.getD i 0).val = 16 * a + b) ∧
      toHex (out.take 20) = (str "000102030405060708090A0B0C0D0e0f10111213").map tolower :=
  ⟨by decide, by decide, by decide, by decide,
    C18_hash2dig (str "000102030405060708090A0B0C0D0e0f10111213") (List.replicate 20 7)
      (by decide) (by decide) (by decide)⟩

/-! ## The capacity of the `names` arrays -/

theorem cap_gt (A k : Nat) (hA : 0 < A) : k < A * (k / A + 1) := by
  have := Nat.lt_mul_div_succ k hA
  simpa [Nat.mul_succ] using this

theorem cap_step (A k : Nat) (hA : 0 < A) :
    (k + 1 = A * (k / A + 1) → A * ((k + 1) / A + 1) = A * (k / A + 1) + A) ∧
    (k + 1 ≠ A * (k / A + 1) → A * ((k + 1) / A + 1) = A * (k / A + 1)) := by
  have h1 : A * (k / A) ≤ k := Nat.mul_div_le k A
  have h2 : k < A * (k / A + 1) := cap_gt A k hA
  constructor
  · intro h
    have : (k + 1) / A = k / A + 1 := by
      rw [h, Nat.mul_div_cancel_left _ hA]
    rw [this, Nat.mul_succ (n := A) (m := k / A + 1)]
  · intro h
    have : (k + 1) / A = k / A := by
      apply Nat.div_eq_of_lt_le
      · rw [Nat.mul_comm]; omega
      · rw [Nat.mul_comm]
        rw [Nat.mul_succ] at h h2 ⊢
        omega
    rw [this]

theorem capWF_first (P : Params) (hA : 2 ≤ P.ALLOC) (x : Name) :
    CapWF P ((List.replicate P.ALLOC none).set 0 (some x)) P.ALLOC := by
  refine ⟨[x], by simp, ?_, ?_⟩
  · have : 1 / P.ALLOC = 0 := Nat.div_eq_of_lt (by omega)
    simp [this]
  · obtain ⟨m, hm⟩ : ∃ m, P.ALLOC = m + 1 := ⟨P.ALLOC - 1, by omega⟩
    rw [hm]
    simp [List.replicate_succ]

/-- One more name in a leaf: the capacity stays or grows by `ALLOC`, by the
growth rule, and the names already stored stay where they are. -/
theorem pwentadd_cap (P : Params) (hA : 2 ≤ P.ALLOC) (ns : List Name)
    (d dig : List Byte) (x : Name) (heq : d.take P.DIGSZ = dig.take P.DIGSZ) :
    pwentadd P
        (pwent.leaf (ns.map some ++
          List.replicate (P.ALLOC * (ns.length / P.ALLOC + 1) - ns.length) none)
          (P.ALLOC * (ns.length / P.ALLOC + 1)) d) x dig =
      some (pwent.leaf ((ns ++ [x]).map some ++
          List.replicate (P.ALLOC * ((ns.length + 1) / P.ALLOC + 1) - (ns.length + 1)) none)
        (P.ALLOC * ((ns.length + 1) / P.ALLOC + 1)) d) := by
  have hA0 : 0 < P.ALLOC := by omega
  have hgt := cap_gt P.ALLOC ns.length hA0
  obtain ⟨hs1, hs2⟩ := cap_step P.ALLOC ns.length hA0
  obtain ⟨m, hm⟩ : ∃ m, P.ALLOC * (ns.length / P.ALLOC + 1) - ns.length = m + 1 :=
    ⟨P.ALLOC * (ns.length / P.ALLOC + 1) - ns.length - 1, by omega⟩
  have hscan : scanNull (ns.map some ++ List.replicate (m + 1) none) = ns.length := by
    rw [List.replicate_succ]; exact scanNull_wf ns _
  simp only [pwentadd, if_pos heq, hm, hscan]
  by_cases hfull : ns.length + 1 = P.ALLOC * (ns.length / P.ALLOC + 1)
  · have hge : ns.length ≥ P.ALLOC * (ns.length / P.ALLOC + 1) - 1 := by omega
    rw [if_pos hge, hs1 hfull]
    have hm0 : m = 0 := by omega
    subst hm0
    have e : P.ALLOC * (ns.length / P.ALLOC + 1) + P.ALLOC - (ns.length + 1) = P.ALLOC := by
      omega
    rw [e, List.replicate_succ, List.append_assoc, List.cons_append, set_at_terminator]
    simp
  · have hlt : ¬ ns.length ≥ P.ALLOC * (ns.length / P.ALLOC + 1) - 1 := by omega
    rw [if_neg hlt, hs2 hfull]
    have e : P.ALLOC * (ns.length / P.ALLOC + 1) - (ns.length + 1) = m := by omega
    rw [e, List.replicate_succ, set_at_terminator]

theorem pwentadd_capInv (P : Params) (hA : 2 ≤ P.ALLOC) (e e1 : pwent) (x : Name)
    (dig : List Byte) (hinv : CapInv P e) (h : pwentadd P e x dig = some e1) : CapInv P e1 := by
  cases e with
  | null =>
    simp only [pwentadd, Option.some.injEq] at h
    rw [← h]
    exact capWF_first P hA x
  | leaf names namesz d =>
    obtain ⟨ns, hns, hz, hnames⟩ := hinv
    by_cases heq : d.take P.DIGSZ = dig.take P.DIGSZ
    · subst hz
      rw [hnames, pwentadd_cap P hA ns d dig x heq] at h
      simp only [Option.some.injEq] at h
      rw [← h]
      exact ⟨ns ++ [x], by simp, by simp, by simp⟩
    · simp [pwentadd, if_neg heq] at h
  | node next names namesz d => simp [pwentadd] at h

theorem tabadd_loop_capInv (P : Params) (hA : 2 ≤ P.ALLOC) (name : Name) (dig : List Byte) :
    ∀ (fuel i : Nat) (idx : idx_t) (tab : Table) (r : Table × Nat),
      tabadd_loop P name dig fuel i idx tab = some r → (∀ j, CapInv P (tab j)) →
      ∀ j, CapInv P (r.1 j) := by
  intro fuel
  induction fuel with
  | zero =>
    intro i idx tab r h hinv
    simp only [tabadd_loop, Option.some.injEq] at h
    rw [← h]; exact hinv
  | succ fuel ih =>
    intro i idx tab r h hinv j
    by_cases hj : j = idx
    · subst hj
      rw [tabadd_loop] at h
      cases hadd : pwentadd P (tab j) name dig with
      | some e =>
        simp only [hadd, Option.some.injEq] at h
        rw [← h]
        simp only [setSlot, if_true]
        exact pwentadd_capInv P hA _ _ name dig (hinv j) hadd
      | none =>
        simp only [hadd] at h
        have hj := hinv j
        cases hte : tab j with
        | null => simp [hte] at h
        | leaf names namesz d =>
          rw [hte] at hj
          simp only [hte, Option.bind_eq_some, Option.map_eq_some'] at h
          obtain ⟨j1, _, idx1, _, r1, hr1, h⟩ := h
          rw [← h]
          simp only [setSlot, if_true]
          refine ih (i + 1) idx1 _ r1 hr1 (fun x => ?_)
          by_cases hx : x = j1
          · simp only [setSlot, hx, if_true]; exact hj
          · simp only [setSlot, if_neg hx, emptyTab]; trivial
        | node next names namesz d =>
          rw [hte] at hj
          simp only [hte, Option.bind_eq_some, Option.map_eq_some'] at h
          obtain ⟨idx1, _, r1, hr1, h⟩ := h
          rw [← h]
          simp only [setSlot, if_true]
          exact ih (i + 1) idx1 _ r1 hr1 hj
    · rw [tabadd_loop_other P name dig _ _ _ _ _ h j hj]
      exact hinv j

theorem load_capInv (P : Params) (hA : 2 ≤ P.ALLOC) :
    ∀ (rs : List (List Byte × Name)) (tab tab1 : Table), (∀ j, CapInv P (tab j)) →
      parse_passwd P tab rs = some tab1 → ∀ j, CapInv P (tab1 j) := by
  intro rs
  induction rs with
  | nil =>
    intro tab tab1 hinv h
    simp only [parse_passwd, Option.some.injEq] at h
    rw [← h]; exact hinv
  | cons r rs ih =>
    intro tab tab1 hinv h
    simp only [parse_passwd, Option.bind_eq_some] at h
    obtain ⟨t, ht, h⟩ := h
    refine ih t.1 tab1 ?_ h
    simp only [tabadd, Option.bind_eq_some] at ht
    obtain ⟨idx, _, ht⟩ := ht
    exact tabadd_loop_capInv P hA r.2 r.1 _ _ _ _ _ ht hinv

theorem endSlot_capWF (P : Params) (q : List Byte) (e : pwent) :
    ∀ (i : Nat) (names : List (Option Name)) (namesz : Nat) (d : List Byte) (lvl : Nat),
      CapInv P e → endSlot P q e i = some (pwent.leaf names namesz d, lvl) →
      CapWF P names namesz := by
  induction e with
  | null => intro i names namesz d lvl _ h; simp [endSlot] at h
  | leaf names0 namesz0 d0 =>
    intro i names namesz d lvl hinv h
    simp only [endSlot, Option.some.injEq, Prod.mk.injEq, pwent.leaf.injEq] at h
    obtain ⟨⟨rfl, rfl, rfl⟩, _⟩ := h
    exact hinv
  | node next names0 namesz0 d0 ih =>
    intro i names namesz d lvl hinv h
    simp only [endSlot, Option.bind_eq_some] at h
    obtain ⟨idx, _, h⟩ := h
    exact ih idx (i + 1) names namesz d lvl (hinv idx) h

theorem capWF_spec (P : Params) (hA : 0 < P.ALLOC) (names : List (Option Name)) (namesz : Nat)
    (h : CapWF P names namesz) :
    namesOf names ≠ [] ∧ namesz = P.ALLOC * ((namesOf names).length / P.ALLOC + 1) ∧
      names = (namesOf names).map some ++
        List.replicate (namesz - (namesOf names).length) none ∧
      1 ≤ namesz - (namesOf names).length := by
  obtain ⟨ns, hns, hz, hnames⟩ := h
  have hgt := cap_gt P.ALLOC ns.length hA
  obtain ⟨m, hm⟩ : ∃ m, namesz - ns.length = m + 1 := ⟨namesz - ns.length - 1, by omega⟩
  have hn : namesOf names = ns := by rw [hnames, hm, namesOf_wf]
  rw [hn]
  exact ⟨hns, hz, hnames, by omega⟩

theorem endOf_capWF (P : Params) (tab : Table) (hinv : ∀ j, CapInv P (tab j)) (q : List Byte)
    (names : List (Option Name)) (namesz : Nat) (d : List Byte) (lvl : Nat)
    (h : endOf P tab q = some (pwent.leaf names namesz d, lvl)) : CapWF P names namesz := by
  simp only [endOf, Option.bind_eq_some] at h
  obtain ⟨idx, _, h⟩ := h
  exact endSlot_capWF P q _ _ _ _ _ _ (hinv idx) h

/-- C19: in the index loaded from any records with digests of the full
width (`ALLOC` is 40 in `hashcrack.c`, 10 in `salt.c`), the leaf of a stored
digest `d` that holds `k ≥ 1` names has the capacity
`namesz = ALLOC * (k / ALLOC + 1)`; its `names` array holds the `k` names in
insertion order in its first `k` cells and `NULL` in the other cells, of
which there is at least one.  Storing one more name under `d` leaves the
capacity or grows it by exactly `ALLOC`, to `ALLOC * ((k + 1) / ALLOC + 1)`,
the names stored before keep their cells and the new name follows them;
storing a name under another digest leaves the array and its capacity as
they are. -/
theorem C19_names_capacity (be : Bool) (P : Params) (hP : P = hashcrack_c be ∨ P = salt_c be)
    (ops : List (List Byte × Name)) (hops : ∀ op ∈ ops, op.1.length = P.DIGSZ)
    (d : List Byte) (hd : d ∈ ops.map Prod.fst) :
    ∃ tab names namesz lvl,
      parse_passwd P emptyTab ops = some tab ∧
      endOf P tab d = some (pwent.leaf names namesz d, lvl) ∧
      1 ≤ (inserted ops d).length ∧
      namesz = P.ALLOC * ((inserted ops d).length / P.ALLOC + 1) ∧
      names = (inserted ops d).map some ++
        List.replicate (namesz - (inserted ops d).length) none ∧
      1 ≤ namesz - (inserted ops d).length ∧
      (∀ x : Name, ∃ tab1 k names1 namesz1 lvl1, tabadd P tab d x = some (tab1, k) ∧
        endOf P tab1 d = some (pwent.leaf names1 namesz1 d, lvl1) ∧
        (namesz1 = namesz ∨ namesz1 = namesz + P.ALLOC) ∧
        namesz1 = P.ALLOC * (((inserted ops d).length + 1) / P.ALLOC + 1) ∧
        names1 = (inserted ops d ++ [x]).map some ++
          List.replicate (namesz1 - ((inserted ops d).length + 1)) none ∧
        1 ≤ namesz1 - ((inserted ops d).length + 1)) ∧
      (∀ (e : List Byte) (y : Name), e.length = P.DIGSZ → e ≠ d →
        ∃ tab2 k lvl2, tabadd P tab e y = some (tab2, k) ∧
          endOf P tab2 d = some (pwent.leaf names namesz d, lvl2)) := by
  have hV : P.Valid := by
    rcases hP with h | h <;> rw [h]
    · exact valid_hashcrack_c be
    · exact valid_salt_c be
  have hA : 2 ≤ P.ALLOC := hV.2.2
  have hA0 : 0 < P.ALLOC := by omega
  have hdl : d.length = P.DIGSZ := by
    obtain ⟨op, hop, rfl⟩ := List.mem_map.1 hd
    exact hops op hop
  obtain ⟨tab, hload, hinv, hf⟩ := load_empty_spec P hV ops hops
  have hcap : ∀ j, CapInv P (tab j) :=
    load_capInv P hA ops emptyTab tab (fun _ => trivial) hload
  have hne := inserted_ne_nil_of_mem ops d hd
  have hfd := hf d hdl
  rw [optList, if_neg hne] at hfd
  obtain ⟨names, namesz, lvl, hend, hnm, _⟩ := endOf_of_found P tab hinv d hdl _ hfd
  obtain ⟨_, c2, c3, c4⟩ := capWF_spec P hA0 names namesz (endOf_capWF P tab hcap d _ _ _ _ hend)
  rw [hnm] at c2 c3 c4
  refine ⟨tab, names, namesz, lvl, hload, hend, ?_, c2, c3, c4, ?_, ?_⟩
  · exact Nat.succ_le_of_lt (List.length_pos.2 hne)
  · intro x
    obtain ⟨tab1, k, hadd, _, hinv1, hf1, _⟩ := tabadd_spec P hV tab d x hdl hinv
    have hcap1 : ∀ j, CapInv P (tab1 j) := by
      have h2 := hadd
      simp only [tabadd, Option.bind_eq_some] at h2
      obtain ⟨idx, _, h2⟩ := h2
      exact tabadd_loop_capInv P hA x d _ _ _ _ _ h2 hcap
    rw [hfd] at hf1
    simp only [Option.getD_some] at hf1
    obtain ⟨names1, namesz1, lvl1, hend1, hnm1, _⟩ := endOf_of_found P tab1 hinv1 d hdl _ hf1
    obtain ⟨_, e2, e3, e4⟩ :=
      capWF_spec P hA0 names1 namesz1 (endOf_capWF P tab1 hcap1 d _ _ _ _ hend1)
    rw [hnm1] at e2 e3 e4
    simp only [List.length_append, List.length_singleton] at e2 e3 e4
    obtain ⟨s1, s2⟩ := cap_step P.ALLOC (inserted ops d).length hA0
    refine ⟨tab1, k, names1, namesz1, lvl1, hadd, hend1, ?_, e2, e3, e4⟩
    by_cases hfull : (inserted ops d).length + 1 =
        P.ALLOC * ((inserted ops d).length / P.ALLOC + 1)
    · right; rw [e2, c2, s1 hfull]
    · left; rw [e2, c2, s2 hfull]
  · intro e y he hne1
    obtain ⟨tab2, k, hadd, _, _, _, _⟩ := tabadd_spec P hV tab e y he hinv
    obtain ⟨lvl2, _, h2, _⟩ :=
      tabadd_keeps_leaf P hV tab tab2 e d y k he hdl (Ne.symm hne1) hadd names namesz lvl hend
    exact ⟨tab2, k, lvl2, hadd, h2⟩

/-- Nine names under one key in `salt.c` (`ALLOC` is 10): the capacity is 10,
and 20 after the tenth name. -/
theorem C19_names_capacity_witness :
    (salt_c false = hashcrack_c false ∨ salt_c false = salt_c false) ∧
    (∀ op ∈ List.replicate 9 (keyA, str "ann"), op.1.length = (salt_c false).DIGSZ) ∧
    keyA ∈ (List.replicate 9 (keyA, str "ann")).map Prod.fst ∧
    ((parse_passwd (salt_c false) emptyTab (List.replicate 9 (keyA, str "ann"))).bind fun tab =>
      (endOf (salt_c false) tab keyA).map fun r =>
        r.1.leafData.map fun x => (x.1.length, x.2.1)) = some (some (10, 10)) ∧
    ((parse_passwd (salt_c false) emptyTab (List.replicate 10 (keyA, str "ann"))).bind fun tab =>
      (endOf (salt_c false) tab keyA).map fun r =>
        r.1.leafData.map fun x => (x.1.length, x.2.1)) = some (some (20, 20)) ∧
    ∃ tab names namesz lvl,
      parse_passwd (salt_c false) emptyTab (List.replicate 9 (keyA, str "ann")) = some tab ∧
      endOf (salt_c false) tab keyA = some (pwent.leaf names namesz keyA, lvl) ∧
      1 ≤ (inserted (List.replicate 9 (keyA, str "ann")) keyA).length ∧
      namesz = (salt_c false).ALLOC *
        ((inserted (List.replicate 9 (keyA, str "ann")) keyA).length / (salt_c false).ALLOC + 1) ∧
      names = (inserted (List.replicate 9 (keyA, str "ann")) keyA).map some ++
        List.replicate (namesz - (inserted (List.replicate 9 (keyA, str "ann")) keyA).length)
          none ∧
      1 ≤ namesz - (inserted (List.replicate 9 (keyA, str "ann")) keyA).length ∧
      (∀ x : Name, ∃ tab1 k names1 namesz1 lvl1,
        tabadd (salt_c false) tab keyA x = some (tab1, k) ∧
        endOf (salt_c false) tab1 keyA = some (pwent.leaf names1 namesz1 keyA, lvl1) ∧
        (namesz1 = namesz ∨ namesz1 = namesz + (salt_c false).ALLOC) ∧
        namesz1 = (salt_c false).ALLOC *
          (((inserted (List.replicate 9 (keyA, str "ann")) keyA).length + 1) /
            (salt_c false).ALLOC + 1) ∧
        names1 = (inserted (List.replicate 9 (keyA, str "ann")) keyA ++ [x]).map some ++
          List.replicate
            (namesz1 - ((inserted (List.replicate 9 (keyA, str "ann")) keyA).length + 1)) none ∧
        1 ≤ namesz1 - ((inserted (List.replicate 9 (keyA, str "ann")) keyA).length + 1)) ∧
      (∀ (e : List Byte) (y : Name), e.length = (salt_c false).DIGSZ → e ≠ keyA →
        ∃ tab2 k lvl2, tabadd (salt_c false) tab e y = some (tab2, k) ∧
          endOf (salt_c false) tab2 keyA = some (pwent.leaf names namesz keyA, lvl2)) :=
  ⟨Or.inr rfl, by decide, by decide, by rfl, by rfl,
    C19_names_capacity false (salt_c false) (Or.inr rfl) (List.replicate 9 (keyA, str "ann"))
      (by decide) keyA (by decide)⟩

/-! ## The depth of a leaf and the shape of the index -/

theorem sharedFrom_agree (P : Params) (x y : List Byte) :
    ∀ (fuel j k : Nat), k < sharedFrom P x y fuel j → idxs P x (j + k) = idxs P y (j + k) := by
  intro fuel
  induction fuel with
  | zero => intro j k h; simp [sharedFrom] at h
  | succ fuel ih =>
    intro j k h
    rw [sharedFrom] at h
    by_cases hc : idxs P x j = idxs P y j
    · rw [if_pos hc] at h
      cases k with
      | zero => exact hc
      | succ k =>
        have := ih (j + 1) k (by omega)
        have e : j + (k + 1) = j + 1 + k := by omega
        rw [e]; exact this
    · rw [if_neg hc] at h; omega

theorem sharedFrom_ge (P : Params) (x y : List Byte) :
    ∀ (fuel j m : Nat), m ≤ fuel → (∀ k, k < m → idxs P x (j + k) = idxs P y (j + k)) →
      m ≤ sharedFrom P x y fuel j := by
  intro fuel
  induction fuel with
  | zero => intro j m hm _; omega
  | succ fuel ih =>
    intro j m hm h
    cases m with
    | zero => omega
    | succ m =>
      have h0 : idxs P x j = idxs P y j := by simpa using h 0 (by omega)
      rw [sharedFrom, if_pos h0]
      have := ih (j + 1) m (by omega) (fun k hk => by
        have := h (k + 1) (by omega)
        have e : j + (k + 1) = j + 1 + k := by omega
        rw [e] at this; exact this)
      omega

theorem foldr_max_le (l : List Nat) (m : Nat) (h : ∀ v ∈ l, v ≤ m) : l.foldr max 0 ≤ m := by
  induction l with
  | nil => simp
  | cons a t ih =>
    simp only [List.foldr_cons]
    exact max_le (h a (List.mem_cons_self _ _)) (ih fun v hv => h v (List.mem_cons_of_mem _ hv))

theorem le_foldr_max (l : List Nat) (v : Nat) (h : v ∈ l) : v ≤ l.foldr max 0 := by
  induction l with
  | nil => simp at h
  | cons a t ih =>
    simp only [List.foldr_cons]
    rcases List.mem_cons.1 h with h1 | h1
    · rw [h1]; exact le_max_left _ _
    · exact le_trans (ih h1) (le_max_right _ _)

theorem endSlot_congr (P : Params) (q1 q2 : List Byte) (e : pwent) :
    ∀ (i : Nat) (s : pwent) (lvl : Nat), endSlot P q1 e i = some (s, lvl) →
      (∀ j, i < j → j ≤ lvl → idxs P q1 j = idxs P q2 j) → endSlot P q2 e i = some (s, lvl) := by
  induction e with
  | null => intro i s lvl h _; simpa [endSlot] using h
  | leaf names namesz d => intro i s lvl h _; simpa [endSlot] using h
  | node next names namesz d ih =>
    intro i s lvl h hag
    simp only [endSlot, Option.bind_eq_some] at h ⊢
    obtain ⟨idx, hidx, h⟩ := h
    have hl := endSlot_level P q1 _ _ _ _ h
    refine ⟨idx, ?_, ih idx (i + 1) s lvl h (fun j hj1 hj2 => hag j (by omega) hj2)⟩
    rw [← hag (i + 1) (by omega) hl]; exact hidx

theorem endSlot_slotBelow (P : Params) (q : List Byte) (e : pwent) :
    ∀ (i : Nat) (s : pwent) (lvl : Nat), endSlot P q e i = some (s, lvl) →
      slotBelow P q (lvl - i) i e = some s ∧
      ∀ m, m < lvl - i → ∃ next names namesz d,
        slotBelow P q m i e = some (pwent.node next names namesz d) := by
  induction e with
  | null =>
    intro i s lvl h
    simp only [endSlot, Option.some.injEq, Prod.mk.injEq] at h
    obtain ⟨rfl, rfl⟩ := h
    simp [slotBelow]
  | leaf names namesz d =>
    intro i s lvl h
    simp only [endSlot, Option.some.injEq, Prod.mk.injEq] at h
    obtain ⟨rfl, rfl⟩ := h
    simp [slotBelow]
  | node next names namesz d ih =>
    intro i s lvl h
    simp only [endSlot, Option.bind_eq_some] at h
    obtain ⟨idx, hidx, h⟩ := h
    have hl := endSlot_level P q _ _ _ _ h
    obtain ⟨h1, h2⟩ := ih idx (i + 1) s lvl h
    obtain ⟨n, hn⟩ : ∃ n, lvl - i = n + 1 := ⟨lvl - i - 1, by omega⟩
    have hn1 : lvl - (i + 1) = n := by omega
    rw [hn1] at h1 h2
    rw [hn]
    refine ⟨by simp [slotBelow, hidx, h1], fun m hm => ?_⟩
    cases m with
    | zero => exact ⟨next, names, namesz, d, rfl⟩
    | succ m =>
      obtain ⟨a, b, c, f, hm1⟩ := h2 m (by omega)
      exact ⟨a, b, c, f, by simp [slotBelow, hidx, hm1]⟩

/-- In a loaded index the leaf of a stored digest `x` lies at the depth
`maxShared`: the largest number of leading chunks that `x` shares with
another stored digest. -/
theorem leaf_depth (P : Params) (hP : P.Valid) (ops : List (List Byte × Name))
    (hops : ∀ op ∈ ops, op.1.length = P.DIGSZ) (tab : Table) (hinv : TabInv P tab [])
    (hf : ∀ q, q.length = P.DIGSZ → found P tab 0 q = some (optList (inserted ops q)))
    (ds : List (List Byte)) (hds : ∀ d, d ∈ ds ↔ d ∈ ops.map Prod.fst)
    (x : List Byte) (hx : x ∈ ops.map Prod.fst) :
    ∃ names namesz, endOf P tab x = some (pwent.leaf names namesz x, maxShared P ds x) := by
  have hlen : ∀ y, y ∈ ops.map Prod.fst → y.length = P.DIGSZ := by
    intro y hy
    obtain ⟨op, hop, rfl⟩ := List.mem_map.1 hy
    exact hops op hop
  have hfound : ∀ y, y ∈ ops.map Prod.fst → found P tab 0 y = some (some (inserted ops y)) := by
    intro y hy
    have := hf y (hlen y hy)
    rwa [optList, if_neg (inserted_ne_nil_of_mem ops y hy)] at this
  obtain ⟨names, namesz, lvl, hend, _, _⟩ :=
    endOf_of_found P tab hinv x (hlen x hx) _ (hfound x hx)
  have hend0 := hend
  simp only [endOf, Option.bind_eq_some] at hend0
  obtain ⟨idx, hidx, hes⟩ := hend0
  have hlt : lvl < P.IDXS_PER_DIG := endSlot_lt P hP x (hlen x hx) _ _ _ _ hes hP.2.1
  suffices h : maxShared P ds x = lvl by rw [h]; exact ⟨names, namesz, hend⟩
  apply le_antisymm
  · apply foldr_max_le
    intro v hv
    obtain ⟨y, hy, rfl⟩ := List.mem_map.1 hv
    obtain ⟨hyd, hyx⟩ := List.mem_filter.1 hy
    have hyx : y ≠ x := by simpa using hyx
    have hym : y ∈ ops.map Prod.fst := (hds y).1 hyd
    by_contra hc
    have hag : ∀ j, j ≤ lvl → idxs P x j = idxs P y j := by
      intro j hj
      have := sharedFrom_agree P x y P.IDXS_PER_DIG 0 j (by unfold sharedChunks at hc; omega)
      simpa using this
    have hey : endOf P tab y = some (pwent.leaf names namesz x, lvl) := by
      simp only [endOf, Option.bind_eq_some]
      refine ⟨idx, by rw [← hag 0 (Nat.zero_le _)]; exact hidx, ?_⟩
      exact endSlot_congr P x y _ _ _ _ hes (fun j _ hj => hag j hj)
    obtain ⟨names1, namesz1, lvl1, hey1, _, _⟩ :=
      endOf_of_found P tab hinv y (hlen y hym) _ (hfound y hym)
    rw [hey] at hey1
    simp only [Option.some.injEq, Prod.mk.injEq, pwent.leaf.injEq] at hey1
    exact hyx hey1.1.2.2.symm
  · cases hl : lvl with
    | zero => exact Nat.zero_le _
    | succ n =>
      subst hl
      obtain ⟨_, hnodes⟩ := endSlot_slotBelow P x _ _ _ _ hes
      obtain ⟨next, nm, nz, nd, hsb⟩ := hnodes n (by omega)
      have hslot : slotAt P tab x n = some (pwent.node next nm nz nd) := by
        simp [slotAt, hidx, hsb]
      have hfe : foundEnt P x (pwent.node next nm nz nd) n = some (some (inserted ops x)) := by
        have h1 := foundEnt_via_slot P x n 0 _ _ hsb
        rw [Nat.zero_add] at h1
        rw [← h1, ← found_at P tab idx 0 x hidx]
        exact hfound x hx
      have hst := storedAt_of_found P ops tab hinv hf x (hlen x hx) n _ _ hslot hfe
      rcases hst with ⟨a, b, hab⟩ | ⟨_, _, _, _, _, a, ha, hax, hag⟩
      · exact pwent.noConfusion hab
      · have hge : n + 1 ≤ sharedChunks P x a :=
          sharedFrom_ge P x a P.IDXS_PER_DIG 0 (n + 1) (by omega) (fun k hk => by
            rw [Nat.zero_add]; exact (hag k (by omega)).symm)
        refine le_trans hge (le_foldr_max _ _ ?_)
        exact List.mem_map.2 ⟨a, List.mem_filter.2 ⟨(hds a).2 ha, by simpa using hax⟩, rfl⟩

theorem found_via_path (P : Params) (x : List Byte) :
    ∀ (p : List idx_t) (tab : Table) (i : Nat) (s : pwent), slotVia tab p = some s →
      (∀ k, k < p.length → idxs P x (i + k) = p[k]?) →
      found P tab i x = foundEnt P x s (i + p.length - 1) := by
  intro p
  induction p with
  | nil => intro tab i s h _; simp [slotVia] at h
  | cons j rest ih =>
    intro tab i s h hp
    have h0 : idxs P x i = some j := by simpa using hp 0 (by simp)
    cases rest with
    | nil =>
      simp only [slotVia, Option.some.injEq] at h
      subst h
      simpa using found_at P tab j i x h0
    | cons k rest =>
      rw [slotVia] at h
      cases htj : tab j with
      | null => simp [htj] at h
      | leaf names namesz d => simp [htj] at h
      | node next names namesz d =>
        rw [htj] at h
        simp only at h
        rw [found_at P tab j i x h0, htj, foundEnt_node,
          ih next (i + 1) s h (fun m hm => by
            have := hp (m + 1) (by simp at hm ⊢; omega)
            have e : i + (m + 1) = i + 1 + m := by omega
            rw [e] at this
            simpa using this)]
        congr 1
        simp
        omega

theorem slotVia_snoc (j : idx_t) :
    ∀ (p : List idx_t) (tab : Table), p ≠ [] →
      slotVia tab (p ++ [j]) =
        match slotVia tab p with
        | some (pwent.node next _ _ _) => some (next j)
        | _ => none := by
  intro p
  induction p with
  | nil => intro tab h; exact absurd rfl h
  | cons a rest ih =>
    intro tab _
    cases rest with
    | nil =>
      simp only [List.cons_append, List.nil_append, slotVia]
      cases tab a <;> rfl
    | cons b rest =>
      simp only [List.cons_append, slotVia]
      cases tab a with
      | null => rfl
      | leaf names namesz d => rfl
      | node next names namesz d =>
        simp only
        have := ih next (by simp)
        simpa using this

/-- What a slot of a loaded index says about the stored digests that have
the chunks of its path: none for an empty slot, exactly its own digest
for a leaf, at least two for a child directory. -/
theorem slot_kind_spec (P : Params) (ops : List (List Byte × Name))
    (hops : ∀ op ∈ ops, op.1.length = P.DIGSZ) (tab : Table) (hinv : TabInv P tab [])
    (hf : ∀ q, q.length = P.DIGSZ → found P tab 0 q = some (optList (inserted ops q)))
    (p : List idx_t) (s : pwent) (hs : slotVia tab p = some s) :
    (s = pwent.null → ∀ x ∈ ops.map Prod.fst, ¬ onPath P x p) ∧
    (∀ names namesz d, s = pwent.leaf names namesz d →
      d ∈ ops.map Prod.fst ∧ onPath P d p ∧ ∀ x ∈ ops.map Prod.fst, onPath P x p → x = d) ∧
    (∀ next names namesz d, s = pwent.node next names namesz d →
      ∃ a ∈ ops.map Prod.fst, ∃ b ∈ ops.map Prod.fst, a ≠ b ∧ onPath P a p ∧ onPath P b p) := by
  have hlen : ∀ y, y ∈ ops.map Prod.fst → y.length = P.DIGSZ := by
    intro y hy
    obtain ⟨op, hop, rfl⟩ := List.mem_map.1 hy
    exact hops op hop
  have hfound : ∀ y, y ∈ ops.map Prod.fst → found P tab 0 y = some (some (inserted ops y)) := by
    intro y hy
    have := hf y (hlen y hy)
    rwa [optList, if_neg (inserted_ne_nil_of_mem ops y hy)] at this
  have hmem : ∀ (y : List Byte) (l : List Name), y.length = P.DIGSZ →
      found P tab 0 y = some (some l) → y ∈ ops.map Prod.fst := by
    intro y l hy hfy
    apply mem_of_inserted_ne_nil
    intro hnil
    rw [hf y hy, optList, if_pos hnil] at hfy
    simp at hfy
  have hvia : ∀ y, onPath P y p → found P tab 0 y = foundEnt P y s (p.length - 1) := by
    intro y hy
    have := found_via_path P y p tab 0 s hs (fun k hk => by simpa using hy k hk)
    simpa using this
  have hsinv := slotVia_inv P p tab [] s hinv hs
  rw [List.nil_append] at hsinv
  refine ⟨?_, ?_, ?_⟩
  · intro hnull x hx hon
    have := hvia x hon
    rw [hfound x hx, hnull, foundEnt_null] at this
    simp at this
  · intro names namesz d hsd
    subst hsd
    obtain ⟨hd, _, hdp⟩ := hsinv
    have hfd := hvia d hdp
    rw [foundEnt_leaf, if_pos rfl] at hfd
    refine ⟨hmem d _ hd hfd, hdp, ?_⟩
    intro x hx hon
    have := hvia x hon
    rw [hfound x hx, foundEnt_leaf] at this
    by_cases hc : d.take P.DIGSZ = x.take P.DIGSZ
    · rw [List.take_of_length_le (le_of_eq hd),
        List.take_of_length_le (le_of_eq (hlen x hx))] at hc
      exact hc.symm
    · simp [if_neg hc] at this
  · intro next names namesz d hsd
    subst hsd
    obtain ⟨_, _, a, b, hab, ⟨ha1, ha2, la, ha3⟩, ⟨hb1, hb2, lb, hb3⟩⟩ := hsinv
    refine ⟨a, hmem a la ha1 ?_, b, hmem b lb hb1 ?_, hab, ha2, hb2⟩
    · rw [hvia a ha2]; exact ha3
    · rw [hvia b hb2]; exact hb3

/-- Two loaded indexes that hold the same digests have slots of the same
kind on every path. -/
theorem kind_same (P : Params) (ops1 ops2 : List (List Byte × Name))
    (hops1 : ∀ op ∈ ops1, op.1.length = P.DIGSZ) (hops2 : ∀ op ∈ ops2, op.1.length = P.DIGSZ)
    (hset : ∀ d, d ∈ ops1.map Prod.fst ↔ d ∈ ops2.map Prod.fst)
    (tab1 tab2 : Table) (hinv1 : TabInv P tab1 []) (hinv2 : TabInv P tab2 [])
    (hf1 : ∀ q, q.length = P.DIGSZ → found P tab1 0 q = some (optList (inserted ops1 q)))
    (hf2 : ∀ q, q.length = P.DIGSZ → found P tab2 0 q = some (optList (inserted ops2 q))) :
    ∀ p : List idx_t, kindOf (slotVia tab1 p) = kindOf (slotVia tab2 p) := by
  have hcmp : ∀ (p : List idx_t) (s1 s2 : pwent), slotVia tab1 p = some s1 →
      slotVia tab2 p = some s2 → kindOf (some s1) = kindOf (some s2) := by
    intro p s1 s2 h1 h2
    obtain ⟨a1, a2, a3⟩ := slot_kind_spec P ops1 hops1 tab1 hinv1 hf1 p s1 h1
    obtain ⟨b1, b2, b3⟩ := slot_kind_spec P ops2 hops2 tab2 hinv2 hf2 p s2 h2
    cases s1 with
    | null =>
      cases s2 with
      | null => rfl
      | leaf n2 z2 d2 =>
        obtain ⟨hm, hp, _⟩ := b2 _ _ _ rfl
        exact absurd hp (a1 rfl d2 ((hset d2).2 hm))
      | node x2 n2 z2 d2 =>
        obtain ⟨a, ha, _, _, _, hp, _⟩ := b3 _ _ _ _ rfl
        exact absurd hp (a1 rfl a ((hset a).2 ha))
    | leaf n1 z1 d1 =>
      obtain ⟨hm, hp, hu⟩ := a2 _ _ _ rfl
      cases s2 with
      | null => exact absurd hp (b1 rfl d1 ((hset d1).1 hm))
      | leaf n2 z2 d2 => rfl
      | node x2 n2 z2 d2 =>
        obtain ⟨a, ha, b, hb, hab, hpa, hpb⟩ := b3 _ _ _ _ rfl
        have e1 := hu a ((hset a).2 ha) hpa
        have e2 := hu b ((hset b).2 hb) hpb
        exact absurd (e1.trans e2.symm) hab
    | node x1 n1 z1 d1 =>
      obtain ⟨a, ha, b, hb, hab, hpa, hpb⟩ := a3 _ _ _ _ rfl
      cases s2 with
      | null => exact absurd hpa (b1 rfl a ((hset a).1 ha))
      | leaf n2 z2 d2 =>
        obtain ⟨_, _, hu⟩ := b2 _ _ _ rfl
        have e1 := hu a ((hset a).1 ha) hpa
        have e2 := hu b ((hset b).1 hb) hpb
        exact absurd (e1.trans e2.symm) hab
      | node x2 n2 z2 d2 => rfl
  intro p
  induction p using List.reverseRecOn with
  | nil => rfl
  | append_singleton l j ih =>
    by_cases hl : l = []
    · subst hl
      exact hcmp [j] (tab1 j) (tab2 j) rfl rfl
    · cases h1 : slotVia tab1 l with
      | none =>
        cases h2 : slotVia tab2 l with
        | none => rw [slotVia_snoc j l tab1 hl, slotVia_snoc j l tab2 hl, h1, h2]
        | some s2 => rw [h1, h2] at ih; cases s2 <;> simp [kindOf] at ih
      | some s1 =>
        cases h2 : slotVia tab2 l with
        | none => rw [h1, h2] at ih; cases s1 <;> simp [kindOf] at ih
        | some s2 =>
          rw [h1, h2] at ih
          cases s1 with
          | null =>
            cases s2 with
            | null => rw [slotVia_snoc j l tab1 hl, slotVia_snoc j l tab2 hl, h1, h2]
            | leaf n2 z2 d2 => simp [kindOf] at ih
            | node x2 n2 z2 d2 => simp [kindOf] at ih
          | leaf n1 z1 d1 =>
            cases s2 with
            | null => simp [kindOf] at ih
            | leaf n2 z2 d2 => rw [slotVia_snoc j l tab1 hl, slotVia_snoc j l tab2 hl, h1, h2]
            | node x2 n2 z2 d2 => simp [kindOf] at ih
          | node x1 n1 z1 d1 =>
            cases s2 with
            | null => simp [kindOf] at ih
            | leaf n2 z2 d2 => simp [kindOf] at ih
            | node x2 n2 z2 d2 =>
              have e1 : slotVia tab1 (l ++ [j]) = some (x1 j) := by
                rw [slotVia_snoc j l tab1 hl, h1]
              have e2 : slotVia tab2 (l ++ [j]) = some (x2 j) := by
                rw [slotVia_snoc j l tab2 hl, h2]
              rw [e1, e2]
              exact hcmp (l ++ [j]) _ _ e1 e2

/-- The two example lists of records store the same digests. -/
theorem example_digests_same :
    ∀ d, d ∈ [(digA, str "ann"), (digB, str "bob"), (digC, str "cy")].map Prod.fst ↔
      d ∈ [(digC, str "cy"), (digB, str "bob"), (digA, str "ann"),
        (digB, str "bea")].map Prod.fst := by
  intro d
  simp only [List.map, List.mem_cons, List.mem_singleton, List.not_mem_nil, or_false]
  constructor
  · rintro (h | h | h) <;> simp [h]
  · rintro (h | h | h | h) <;> simp [h]

/-- C20: two lists of records with digests of the full width store the
same set of digests, in any order and with any names.  In both indexes
the leaf of every stored digest `x` lies at the depth `maxShared`, the
largest number of leading 16-bit chunks that `x` shares with another
stored digest (0 when it shares none or is alone); and on every path of
indices the two indexes have a slot of the same kind: none, empty, leaf or
child directory. -/
theorem C20_shape_by_digest_set (be : Bool) (P : Params)
    (hP : P = hashcrack_c be ∨ P = salt_c be) (ops1 ops2 : List (List Byte × Name))
    (hops1 : ∀ op ∈ ops1, op.1.length = P.DIGSZ) (hops2 : ∀ op ∈ ops2, op.1.length = P.DIGSZ)
    (hset : ∀ d, d ∈ ops1.map Prod.fst ↔ d ∈ ops2.map Prod.fst) :
    ∃ tab1 tab2, parse_passwd P emptyTab ops1 = some tab1 ∧
      parse_passwd P emptyTab ops2 = some tab2 ∧
      (∀ x ∈ ops1.map Prod.fst,
        (∃ names namesz, endOf P tab1 x =
          some (pwent.leaf names namesz x, maxShared P (ops1.map Prod.fst) x)) ∧
        (∃ names namesz, endOf P tab2 x =
          some (pwent.leaf names namesz x, maxShared P (ops1.map Prod.fst) x))) ∧
      ∀ p : List idx_t, kindOf (slotVia tab1 p) = kindOf (slotVia tab2 p) := by
  have hV : P.Valid := by
    rcases hP with h | h <;> rw [h]
    · exact valid_hashcrack_c be
    · exact valid_salt_c be
  obtain ⟨tab1, hload1, hinv1, hf1⟩ := load_empty_spec P hV ops1 hops1
  obtain ⟨tab2, hload2, hinv2, hf2⟩ := load_empty_spec P hV ops2 hops2
  refine ⟨tab1, tab2, hload1, hload2, fun x hx => ⟨?_, ?_⟩, ?_⟩
  · exact leaf_depth P hV ops1 hops1 tab1 hinv1 hf1 _ (fun d => Iff.rfl) x hx
  · exact leaf_depth P hV ops2 hops2 tab2 hinv2 hf2 _ hset x ((hset x).1 hx)
  · exact kind_same P ops1 ops2 hops1 hops2 hset tab1 tab2 hinv1 hinv2 hf1 hf2

/-- The digests `digA`, `digB`, `digC` stored in two orders: `digA` and `digC`
share two chunks and lie at depth 2, `digB` shares one chunk with them and
lies at depth 1. -/
theorem C20_shape_by_digest_set_witness :
    (hashcrack_c false = hashcrack_c false ∨ hashcrack_c false = salt_c false) ∧
    (∀ op ∈ [(digA, str "ann"), (digB, str "bob"), (digC, str "cy")],
      op.1.length = (hashcrack_c false).DIGSZ) ∧
    (∀ op ∈ [(digC, str "cy"), (digB, str "bob"), (digA, str "ann"), (digB, str "bea")],
      op.1.length = (hashcrack_c false).DIGSZ) ∧
    (∀ d, d ∈ [(digA, str "ann"), (digB, str "bob"), (digC, str "cy")].map Prod.fst ↔
      d ∈ [(digC, str "cy"), (digB, str "bob"), (digA, str "ann"),
        (digB, str "bea")].map Prod.fst) ∧
    [digA, digB, digC].map (maxShared (hashcrack_c false) [digA, digB, digC]) = [2, 1, 2] ∧
    ∃ tab1 tab2, parse_passwd (hashcrack_c false) emptyTab
        [(digA, str "ann"), (digB, str "bob"), (digC, str "cy")] = some tab1 ∧
      parse_passwd (hashcrack_c false) emptyTab
        [(digC, str "cy"), (digB, str "bob"), (digA, str "ann"), (digB, str "bea")]
          = some tab2 ∧
      (∀ x ∈ [(digA, str "ann"), (digB, str "bob"), (digC, str "cy")].map Prod.fst,
        (∃ names namesz, endOf (hashcrack_c false) tab1 x =
          some (pwent.leaf names namesz x, maxShared (hashcrack_c false)
            ([(digA, str "ann"), (digB, str "bob"), (digC, str "cy")].map Prod.fst) x)) ∧
        (∃ names namesz, endOf (hashcrack_c false) tab2 x =
          some (pwent.leaf names namesz x, maxShared (hashcrack_c false)
            ([(digA, str "ann"), (digB, str "bob"), (digC, str "cy")].map Prod.fst) x))) ∧
      ∀ p : List idx_t, kindOf (slotVia tab1 p) = kindOf (slotVia tab2 p) :=
  ⟨Or.inl rfl, by decide, by decide, example_digests_same, by decide,
    C20_shape_by_digest_set false (hashcrack_c false) (Or.inl rfl)
      [(digA, str "ann"), (digB, str "bob"), (digC, str "cy")]
      [(digC, str "cy"), (digB, str "bob"), (digA, str "ann"), (digB, str "bea")]
      (by decide) (by decide) example_digests_same⟩

/-! ## The length given to `SHA1` in the second sweep -/

end Hashcrack
